import Mathlib

/-!
# Benthos: file cache, pipeline pool, statsd metrics and broker mocks

A shallow embedding of `lib/cache/file.go` (the file-system backed cache), of
the pipeline execution engine (Processor and Pool), of `lib/metrics/statsd.go`
(the Statsd metrics type) and of the mock source and sink of
`lib/broker/common_test.go` of the benthos message broker, followed by
theorems about them.

Layout: definitions first (namespaces `Cache`, `Pipeline`, `Metrics`,
`Broker`), theorems afterwards.
-/

namespace Cache

/-! ## Operating-system layer used by `lib/cache/file.go`

The cache calls `ioutil.ReadFile`, `ioutil.WriteFile`, `os.OpenFile`,
`(*os.File).Write`, `(*os.File).Close`, `os.Remove`, `os.IsNotExist`,
`os.IsExist` and `filepath.Join`.  They are library code; the model below is a
tree of directories and regular files with a working directory, on which a
path is resolved element by element as the system calls do (Unix). Every file
has one location: there are no symbolic or hard links, and no permissions,
quotas or device faults. -/

/-- A byte slice; `none` of `Option Bytes` stands for Go's nil slice. -/
abbrev Bytes := List (Fin 256)

/-- The error numbers the modelled system calls can report. -/
inductive Errno where
  | ENOENT
  | EEXIST
  | ENOTEMPTY
  | EBADF
  | ENOTDIR
  | EISDIR
  | EBUSY
  | EINVAL
  | ENAMETOOLONG
  deriving DecidableEq, Repr

/-- Go `error` values seen by the cache: the two sentinel errors of
`lib/types` and the `*os.PathError` wrapping an error number. -/
inductive Error where
  | ErrKeyNotFound
  | ErrKeyAlreadyExists
  | PathError (op : String) (path : String) (errno : Errno)
  deriving DecidableEq, Repr

/-- An entry of the file system: a regular file with its content, or a
directory with its named entries. -/
inductive Node where
  | file (content : Bytes)
  | dir (entries : List (String × Node))

/-- What a path leads to: a regular file with its content, or a directory. -/
inductive Found where
  | file (content : Bytes)
  | dir
  deriving DecidableEq, Repr

/-- The kind of an entry. -/
def Node.found : Node → Found
  | Node.file b => Found.file b
  | Node.dir _ => Found.dir

/-- The entry of a directory under a name. -/
def getEntry : List (String × Node) → String → Option Node
  | [], _ => none
  | (n, x) :: es, name => if n = name then some x else getEntry es name

/-- Link an entry under a name, in place of the one already there if any. -/
def putEntry : List (String × Node) → String → Node → List (String × Node)
  | [], name, x => [(name, x)]
  | (n, y) :: es, name, x =>
    if n = name then (n, x) :: es else (n, y) :: putEntry es name x

/-- Unlink a name from a directory. -/
def delEntry : List (String × Node) → String → List (String × Node)
  | [], _ => []
  | (n, y) :: es, name =>
    if n = name then delEntry es name else (n, y) :: delEntry es name

/-- Path lookup from a node, one element at a time: an element looked up in
a regular file is `ENOTDIR`, a name of more than `lim` bytes is
`ENAMETOOLONG`, a missing element is `ENOENT`. -/
def Node.stat (lim : Nat) : Node → List String → Except Errno Found
  | n, [] => Except.ok n.found
  | Node.file _, _ :: _ => Except.error Errno.ENOTDIR
  | Node.dir es, c :: cs =>
    if lim < c.utf8ByteSize then Except.error Errno.ENAMETOOLONG
    else
      match getEntry es c with
      | some child => child.stat lim cs
      | none => Except.error Errno.ENOENT

/-- The lookup done by a call that may create or unlink the last element: the
directory part must lead to a directory (else `ENOENT` or `ENOTDIR`) and no
name may have more than `lim` bytes (`ENAMETOOLONG`); the result is the entry
under the last element, `none` when there is none. -/
def Node.entry (lim : Nat) : Node → List String → Except Errno (Option Node)
  | n, [] => Except.ok (some n)
  | Node.file _, _ :: _ => Except.error Errno.ENOTDIR
  | Node.dir es, c :: cs =>
    if lim < c.utf8ByteSize then Except.error Errno.ENAMETOOLONG
    else
      match getEntry es c with
      | some child => child.entry lim cs
      | none =>
        match cs with
        | [] => Except.ok none
        | _ :: _ => Except.error Errno.ENOENT

/-- The tree with the entry at a path replaced by `new` (linked when it was
missing, unlinked when `new` is `none`); the result is `none` when the node
itself is unlinked. -/
def Node.set : Node → List String → Option Node → Option Node
  | _, [], new => new
  | Node.file b, _ :: _, _ => some (Node.file b)
  | Node.dir es, c :: cs, new =>
    match getEntry es c with
    | some child =>
      match child.set cs new with
      | some child2 => some (Node.dir (putEntry es c child2))
      | none => some (Node.dir (delEntry es c))
    | none =>
      match cs, new with
      | [], some x => some (Node.dir (putEntry es c x))
      | _, _ => some (Node.dir es)

/-- The settings a path is resolved under: the working directory of the
process (the names leading to it from the root), the longest name in bytes a
directory takes (`NAME_MAX`) and the longest path in bytes a system call takes
(`PATH_MAX - 1`). -/
structure Env where
  cwd : List String
  nameMax : Nat
  pathMax : Nat
  deriving DecidableEq, Repr

/-- The file system: the entries of the root directory, and the settings. -/
structure FS where
  entries : List (String × Node)
  env : Env

/-- The root directory. -/
def FS.root (fs : FS) : Node := Node.dir fs.entries

/-- Split a path at every separator. -/
def splitSep : List Char → List (List Char)
  | [] => [[]]
  | c :: cs =>
    match splitSep cs with
    | [] => [[]]
    | x :: xs => if c = '/' then [] :: x :: xs else (c :: x) :: xs

/-- Walk the elements of a path from a directory given by the names leading to
it from the root: empty and `.` elements stay, `..` goes to the parent (the
root is its own parent), a name goes down. -/
def resolveElems : List (List Char) → List String → List String
  | [], here => here
  | e :: es, here =>
    if e = [] ∨ e = ['.'] then resolveElems es here
    else if e = ['.', '.'] then resolveElems es here.dropLast
    else resolveElems es (here ++ [String.mk e])

/-- The names leading from the root to what a path denotes: a path that
starts with the separator is walked from the root, any other from the working
directory. Go refuses a path with a NUL byte before the system call
(`EINVAL`); the system call refuses the empty path (`ENOENT`) and a path that
is too long (`ENAMETOOLONG`). The paths handed to the system calls by the
cache come from `filepath.Join`, so `..` occurs in them only at the front of a
relative path, where it leaves the working directory towards the root. -/
def FS.resolve (fs : FS) (path : String) : Except Errno (List String) :=
  if Char.ofNat 0 ∈ path.toList then Except.error Errno.EINVAL
  else if path = "" then Except.error Errno.ENOENT
  else if fs.env.pathMax < path.utf8ByteSize then Except.error Errno.ENAMETOOLONG
  else
    Except.ok (resolveElems (splitSep path.toList)
      (if path.toList.head? = some '/' then [] else fs.env.cwd))

/-- Path lookup of a system call. -/
def FS.lookup (fs : FS) (path : String) : Except Errno Found :=
  match fs.resolve path with
  | Except.error e => Except.error e
  | Except.ok p => fs.root.stat fs.env.nameMax p

/-- The entry a path denotes, for a call that may create or unlink it. -/
def FS.entry (fs : FS) (path : String) : Except Errno (Option Node) :=
  match fs.resolve path with
  | Except.error e => Except.error e
  | Except.ok p => fs.root.entry fs.env.nameMax p

/-- A system call that changes the entry a path denotes: `f` decides from the
entry found what it becomes, or the error number. The root directory is never
replaced or unlinked (`EBUSY`). -/
def FS.alter (fs : FS) (path : String) (f : Option Node → Except Errno (Option Node)) :
    Except Errno FS :=
  match fs.resolve path with
  | Except.error e => Except.error e
  | Except.ok p =>
    match fs.root.entry fs.env.nameMax p with
    | Except.error e => Except.error e
    | Except.ok cur =>
      match f cur with
      | Except.error e => Except.error e
      | Except.ok new =>
        match p, fs.root.set p new with
        | _ :: _, some (Node.dir es) => Except.ok { fs with entries := es }
        | _, _ => Except.error Errno.EBUSY

/-- Go `os.IsNotExist`: the error reports that a file does not exist. -/
def os.IsNotExist : Option Error → Bool
  | some (Error.PathError _ _ Errno.ENOENT) => true
  | _ => false

/-- Go `os.IsExist`: the error reports that a file already exists. -/
def os.IsExist : Option Error → Bool
  | some (Error.PathError _ _ Errno.EEXIST) => true
  | some (Error.PathError _ _ Errno.ENOTEMPTY) => true
  | _ => false

/-- Go `ioutil.ReadFile`: the whole content of a regular file. A path that
cannot be looked up fails in `open` with no bytes; a directory is opened but
cannot be read (`EISDIR`), which leaves the empty buffer. -/
def ioutil.ReadFile (fs : FS) (filename : String) : Option Bytes × Option Error :=
  match fs.lookup filename with
  | Except.error e => (none, some (Error.PathError "open" filename e))
  | Except.ok (Found.file b) => (some b, none)
  | Except.ok Found.dir => (some [], some (Error.PathError "read" filename Errno.EISDIR))

/-- The flags of `os.OpenFile` that matter here; the file is opened for
writing in every call of the cache. -/
structure OpenFlag where
  O_CREATE : Bool
  O_EXCL : Bool
  O_TRUNC : Bool
  deriving DecidableEq, Repr

/-- An open file handle: the path it was opened at and the write offset. -/
structure OsFile where
  name : String
  offset : Nat
  deriving DecidableEq, Repr

/-- What `open` for writing does to the entry found: with `O_CREATE|O_EXCL`
any existing entry is `EEXIST`; a directory is `EISDIR`; with `O_TRUNC` an
existing file is emptied; with `O_CREATE` a missing file is created empty, and
without it a missing file is `ENOENT`. -/
def openEntry (flag : OpenFlag) : Option Node → Except Errno (Option Node)
  | some (Node.file b) =>
    if flag.O_CREATE && flag.O_EXCL then Except.error Errno.EEXIST
    else if flag.O_TRUNC then Except.ok (some (Node.file []))
    else Except.ok (some (Node.file b))
  | some (Node.dir _) =>
    if flag.O_CREATE && flag.O_EXCL then Except.error Errno.EEXIST
    else Except.error Errno.EISDIR
  | none =>
    if flag.O_CREATE then Except.ok (some (Node.file []))
    else Except.error Errno.ENOENT

/-- Go `os.OpenFile`, for writing. -/
def os.OpenFile (fs : FS) (name : String) (flag : OpenFlag) : FS × Except Error OsFile :=
  match fs.alter name (openEntry flag) with
  | Except.error e => (fs, Except.error (Error.PathError "open" name e))
  | Except.ok fs1 => (fs1, Except.ok ⟨name, 0⟩)

/-- What a write of `b` at an offset does to the file of the handle. -/
def writeEntry (offset : Nat) (b : Bytes) : Option Node → Except Errno (Option Node)
  | some (Node.file old) =>
    Except.ok (some (Node.file (old.take offset ++ b ++ old.drop (offset + b.length))))
  | _ => Except.error Errno.EBADF

/-- Go `(*os.File).Write`: the bytes replace the content from the handle's
offset on. A handle whose file is gone reports `EBADF`. -/
def OsFile.Write (file : OsFile) (fs : FS) (b : Bytes) : FS × OsFile × Option Error :=
  match fs.alter file.name (writeEntry file.offset b) with
  | Except.ok fs1 => (fs1, { file with offset := file.offset + b.length }, none)
  | Except.error _ => (fs, file, some (Error.PathError "write" file.name Errno.EBADF))

/-- Go `(*os.File).Close`. -/
def OsFile.Close (_file : OsFile) (fs : FS) : FS × Option Error :=
  (fs, none)

/-- Go `ioutil.WriteFile`: open with `O_WRONLY|O_CREATE|O_TRUNC`, write, close. -/
def ioutil.WriteFile (fs : FS) (filename : String) (data : Bytes) : FS × Option Error :=
  match os.OpenFile fs filename ⟨true, false, true⟩ with
  | (fs1, Except.error err) => (fs1, some err)
  | (fs1, Except.ok f) =>
    match f.Write fs1 data with
    | (fs2, f2, some err) => ((f2.Close fs2).1, some err)
    | (fs2, f2, none) => f2.Close fs2

/-- Whether a path denotes the root directory. -/
def FS.isRoot (fs : FS) (path : String) : Bool :=
  match fs.resolve path with
  | Except.ok [] => true
  | _ => false

/-- What `unlink`, then `rmdir`, do to the entry found; `last` is the last
element of the path and `root` tells whether the path denotes the root. A
regular file is unlinked. For a directory `unlink` fails and the result is
that of `rmdir`: `EINVAL` when the path ends in `.`, `ENOTEMPTY` when it ends
in `..`, `EBUSY` for the root, `ENOTEMPTY` for a directory with entries, and an
empty directory is unlinked. A missing entry is `ENOENT`. -/
def removeEntry (last : Option (List Char)) (root : Bool) :
    Option Node → Except Errno (Option Node)
  | some (Node.file _) => Except.ok none
  | some (Node.dir es) =>
    if last = some ['.'] then Except.error Errno.EINVAL
    else if last = some ['.', '.'] then Except.error Errno.ENOTEMPTY
    else if root then Except.error Errno.EBUSY
    else
      match es with
      | [] => Except.ok none
      | _ :: _ => Except.error Errno.ENOTEMPTY
  | none => Except.error Errno.ENOENT

/-- Go `os.Remove`: removes the named file or (empty) directory. -/
def os.Remove (fs : FS) (name : String) : FS × Option Error :=
  match fs.alter name (removeEntry (splitSep name.toList).getLast? (fs.isRoot name)) with
  | Except.error e => (fs, some (Error.PathError "remove" name e))
  | Except.ok fs1 => (fs1, none)

/-- The element pass of `filepath.Clean`: drops empty and `.` elements and
cancels `..` against the element before it (`acc` is the reversed output). -/
def cleanElems (rooted : Bool) : List (List Char) → List (List Char) → List (List Char)
  | [], acc => acc.reverse
  | e :: es, acc =>
    if e = [] ∨ e = ['.'] then cleanElems rooted es acc
    else if e = ['.', '.'] then
      match acc with
      | [] => if rooted then cleanElems rooted es [] else cleanElems rooted es [e]
      | top :: rest =>
        if top = ['.', '.'] then cleanElems rooted es (e :: acc)
        else cleanElems rooted es rest
    else cleanElems rooted es (e :: acc)

/-- Go `filepath.Clean` (Unix separator). -/
def filepath.Clean (path : String) : String :=
  let cs := path.toList
  let rooted := cs.head? = some '/'
  let body := String.mk (List.intercalate ['/'] (cleanElems rooted (splitSep cs) []))
  let out := if rooted then "/" ++ body else body
  if out = "" then "." else out

/-- Go `filepath.Join` of two elements: empty elements are ignored, the rest
is joined by the separator and cleaned; all empty gives the empty string. -/
def filepath.Join (a b : String) : String :=
  if a = "" then (if b = "" then "" else filepath.Clean b)
  else if b = "" then filepath.Clean a
  else filepath.Clean (a ++ "/" ++ b)

/-! ## `lib/cache/file.go` -/

/-- Go `File`: a file system based cache implementation. -/
structure File where
  dir : String
  deriving DecidableEq, Repr

/-- A file system for the examples: the root holds the cache directory `cache`
with the given entries, the working directory is the root, names take 255 bytes
and paths 4095. -/
def FS.cacheDir (es : List (String × Node)) : FS :=
  ⟨[("cache", Node.dir es)], ⟨[], 255, 4095⟩⟩

/-- Go `File.Get`: attempts to locate and return a cached value by its key,
returns an error if the key does not exist. -/
def File.Get (f : File) (fs : FS) (key : String) : Option Bytes × Option Error :=
  match ioutil.ReadFile fs (filepath.Join f.dir key) with
  | (b, err) =>
    if os.IsNotExist err then (none, some Error.ErrKeyNotFound)
    else (b, err)

/-- Go `File.Set`: attempts to set the value of a key. -/
def File.Set (f : File) (fs : FS) (key : String) (value : Bytes) : FS × Option Error :=
  ioutil.WriteFile fs (filepath.Join f.dir key) value

/-- Go `File.Add`: attempts to set the value of a key only if the key does not
already exist and returns an error if the key already exists. -/
def File.Add (f : File) (fs : FS) (key : String) (value : Bytes) : FS × Option Error :=
  match os.OpenFile fs (filepath.Join f.dir key) ⟨true, true, false⟩ with
  | (fs1, Except.error err) =>
    if os.IsExist (some err) then (fs1, some Error.ErrKeyAlreadyExists)
    else (fs1, some err)
  | (fs1, Except.ok file) =>
    match file.Write fs1 value with
    | (fs2, file2, some err) => ((file2.Close fs2).1, some err)
    | (fs2, file2, none) => file2.Close fs2

/-- Go `File.Delete`: attempts to remove a key. -/
def File.Delete (f : File) (fs : FS) (key : String) : FS × Option Error :=
  os.Remove fs (filepath.Join f.dir key)

/-- Several `Add` calls on one key, one per value of the list and in that
order: the final file system and the error each call returned. -/
def File.AddEach (f : File) (fs : FS) (key : String) : List Bytes → FS × List (Option Error)
  | [] => (fs, [])
  | v :: vs =>
    let r := f.Add fs key v
    let rest := File.AddEach f r.1 key vs
    (rest.1, r.2 :: rest.2)

end Cache

namespace Pipeline

/-! ## The pipeline execution engine

The Processor and the Pool are specified in sections 3 to 5 of the
specification; their worker loops run concurrently, which is rendered here as a
transition system: `step` fires one atomic action of one worker (or of the
sink), and a run is any sequence of actions, so every interleaving is covered. -/

/-- Modelled from the spec: a message part (section 3), opaque binary content
with a mapping of metadata keys to string values. -/
structure Part where
  content : List (Fin 256)
  metadata : List (String × String)
  deriving DecidableEq, Repr

/-- Modelled from the spec: a Message (section 3), an ordered sequence of
parts; the empty sequence is a valid message. -/
abbrev Message := List Part

/-- Modelled from the spec: a Response (section 3), success (`none`) or a
specific failure reason. -/
structure Response where
  err : Option String
  deriving DecidableEq, Repr

/-- Modelled from the spec: the success Response (`response.NewAck()` in the
tests). -/
def Response.ack : Response := ⟨none⟩

/-- Modelled from the spec: a Transaction (section 3), a Message paired with
its response obligation, the channel on which its one Response is owed. -/
structure Transaction where
  Payload : Message
  ResponseChan : Nat
  deriving DecidableEq, Repr

/-- Modelled from the spec: the outcome of the Stage capability (section 6),
the ordered result messages, whether the input was rejected, and the rejection
reason. -/
structure StageResult where
  results : List Message
  dropped : Bool
  reason : String
  deriving DecidableEq, Repr

/-- Modelled from the spec: the Stage capability (section 6), a synchronous
function from one Message to its outcome; a chain of Stages is used through
this one capability. -/
abbrev Stage := Message → StageResult

/-- Modelled from the spec: the join state a Processor keeps for the one
inbound Transaction it is working on (section 4.2 step 4): the original
Transaction, the number of result Transactions it fanned out into, and the
Responses that have arrived for them so far, in order of arrival. -/
structure Job where
  orig : Transaction
  expected : Nat
  received : List Response
  deriving DecidableEq, Repr

/-- Modelled from the spec: the reduction of the per-result Responses into one
(section 4.2 step 4): success if all succeeded, otherwise the first failure in
order of arrival. -/
def reduce (rs : List Response) : Response :=
  match rs.find? (fun r => r.err.isSome) with
  | some r => r
  | none => Response.ack

/-- Modelled from the spec: the error of a second `Consume` (section 4.2,
"already consuming"). -/
def errAlreadyConsuming : String := "already consuming"

/-- Modelled from the spec: the Single-Lane Pipeline (section 4.2): its Stage
chain, the input channel it is bound to (if any), the join state of the
Transaction in progress (if any), and its output transaction stream, the
result messages emitted and not yet taken by the downstream consumer. -/
structure Processor where
  chain : Stage
  consuming : Option Nat
  job : Option Job
  out : List Message

/-- Modelled from the spec: a newly constructed Processor around a Stage
chain: unbound, idle, nothing emitted. -/
def NewProcessor (chain : Stage) : Processor :=
  ⟨chain, none, none, []⟩

/-- Modelled from the spec: `Consume(inputChan)` of the Processor (section
4.2): binds the input; a second call fails with "already consuming" and
changes nothing. -/
def Processor.Consume (p : Processor) (c : Nat) : Processor × Option String :=
  match p.consuming with
  | some _ => (p, some errAlreadyConsuming)
  | none => ({ p with consuming := some c }, none)

/-- Modelled from the spec: steps 1 to 4 of the worker loop (section 4.2) for
one inbound Transaction. A Processor with a Transaction in progress does not
receive (`none`). A dropped message is answered at once with the rejection
error, an empty result with success; otherwise one result Transaction per
result message is emitted and their Responses are awaited. The second
component is the Response resolved immediately, if any. -/
def Processor.receive (p : Processor) (t : Transaction) : Option (Processor × Option Response) :=
  match p.job with
  | some _ => none
  | none =>
    let r := p.chain t.Payload
    if r.dropped then some (p, some ⟨some r.reason⟩)
    else
      match r.results with
      | [] => some (p, some Response.ack)
      | m :: ms =>
        some ({ p with job := some ⟨t, (m :: ms).length, []⟩, out := p.out ++ (m :: ms) }, none)

/-- Modelled from the spec: the downstream consumer takes the next result
Transaction from the Processor's output stream (`TransactionChan()`). -/
def Processor.emit (p : Processor) : Option (Message × Processor) :=
  match p.out with
  | [] => none
  | m :: ms => some (m, { p with out := ms })

/-- Modelled from the spec: a Response arrives for one of the result
Transactions the downstream consumer has taken (section 4.2 step 4); it is
recorded in the join state. No Response can arrive when there is no
Transaction in progress or no taken result Transaction is unanswered. -/
def Processor.respond (p : Processor) (r : Response) : Option Processor :=
  match p.job with
  | none => none
  | some j =>
    if j.received.length + p.out.length < j.expected then
      some { p with job := some { j with received := j.received ++ [r] } }
    else none

/-- Modelled from the spec: once all per-result Responses have arrived, they
are reduced into the single Response for the original Transaction (section 4.2
step 4), given with the response channel it is delivered on; the Processor is
idle again. -/
def Processor.resolve (p : Processor) : Option (Processor × Nat × Response) :=
  match p.job with
  | none => none
  | some j =>
    if j.received.length = j.expected then
      some ({ p with job := none }, j.orig.ResponseChan, reduce j.received)
    else none

/-- Modelled from the spec: what can happen to a Processor with a Transaction
in progress: a result Transaction is taken downstream, a Response arrives for
one, or the join completes. -/
inductive Event where
  | emit
  | respond (r : Response)
  | resolve
  deriving DecidableEq, Repr

/-- Modelled from the spec: one Event applied to a Processor; the second
component is the Response delivered to an original sender, if any. -/
def Processor.event (p : Processor) : Event → Option (Processor × List (Nat × Response))
  | Event.emit => (p.emit).map (fun x => (x.2, []))
  | Event.respond r => (p.respond r).map (fun q => (q, []))
  | Event.resolve => (p.resolve).map (fun x => (x.1, [x.2]))

/-- Modelled from the spec: a sequence of Events applied in order, with the
Responses delivered to original senders along the way. -/
def Processor.run (p : Processor) : List Event → Option (Processor × List (Nat × Response))
  | [] => some (p, [])
  | e :: es =>
    match p.event e with
    | none => none
    | some (q, d) =>
      match Processor.run q es with
      | none => none
      | some (q2, d2) => some (q2, d ++ d2)

/-- The Responses carried by the respond Events of a sequence, in order. -/
def responsesOf : List Event → List Response
  | [] => []
  | Event.respond r :: es => r :: responsesOf es
  | _ :: es => responsesOf es

/-- Modelled from the spec: one step of a Processor's own worker loop on the
input it is bound to (section 4.2 step 1): the next Transaction pending on the
bound channel is received. Gives the Processor, the channels and the Response
resolved immediately, if any. -/
def Processor.loop (p : Processor) (chans : Nat → List Transaction) :
    Option (Processor × (Nat → List Transaction) × Option (Nat × Response)) :=
  match p.consuming with
  | none => none
  | some c =>
    match chans c with
    | [] => none
    | t :: rest =>
      match p.receive t with
      | none => none
      | some (q, r) =>
        some (q, (fun x => if x = c then rest else chans x), r.map (fun x => (t.ResponseChan, x)))

/-- Modelled from the spec: a Lane (section 3), a Processor with its dedicated
input channel (the Transactions handed to it and not yet received); its
dedicated output channel is the Processor's output stream. -/
structure Lane where
  proc : Processor
  inbox : List Transaction

/-- Modelled from the spec: a result Transaction on the Pool's shared output
channel: the result message and its response path, which leads back to the
Lane that emitted it. -/
structure OutTx where
  payload : Message
  lane : Nat
  deriving DecidableEq, Repr

/-- Modelled from the spec: the Pool (section 3): its Lanes, the shared input
channel it is bound to (if any), and the shared output channel, the result
Transactions relayed there that the sink has not answered yet. -/
structure Pool where
  lanes : List Lane
  consuming : Option Nat
  output : List OutTx

/-- Modelled from the spec: `New(laneConstructor, size, ...)` (section 4.3):
builds `size` Lanes, each an independently constructed Processor; the
constructor receives the index of the Lane. -/
def NewPool (laneConstructor : Nat → Processor) (size : Nat) : Pool :=
  ⟨(List.range size).map (fun i => ⟨laneConstructor i, []⟩), none, []⟩

/-- Modelled from the spec: `Consume(inputChan)` of the Pool (section 4.3):
binds the shared input once; a second call fails with "already consuming" and
changes nothing. -/
def Pool.Consume (p : Pool) (c : Nat) : Pool × Option String :=
  match p.consuming with
  | some _ => (p, some errAlreadyConsuming)
  | none => ({ p with consuming := some c }, none)

/-- Modelled from the spec: the Pool together with its surroundings: the
Transactions pending on each transaction channel of the producers, and the
Responses delivered so far, each with the response channel it was delivered
on, in order of delivery. -/
structure World where
  chans : Nat → List Transaction
  pool : Pool
  delivered : List (Nat × Response)

/-- Modelled from the spec: the atomic actions of the workers (section 5): the
dispatcher hands the next inbound Transaction to an available Lane, a Lane
receives and processes the Transaction handed to it, a Lane's relay moves a
result Transaction to the shared output, the sink answers a result Transaction
of the shared output with a Response, and a Lane completes its join. -/
inductive Action where
  | dispatch (i : Nat)
  | process (i : Nat)
  | relay (i : Nat)
  | respond (k : Nat) (r : Response)
  | resolve (i : Nat)
  deriving DecidableEq, Repr

/-- Modelled from the spec: a Lane is available to the dispatcher when it is
waiting for its next inbound Transaction. -/
def Lane.available (l : Lane) : Bool :=
  l.inbox.isEmpty && l.proc.job.isNone

/-- Modelled from the spec: one atomic action (sections 4.2, 4.3 and 5);
`none` when the action cannot fire in this state. -/
def step (w : World) : Action → Option World
  | Action.dispatch i =>
    match w.pool.consuming with
    | none => none
    | some c =>
      match w.chans c, w.pool.lanes[i]? with
      | t :: rest, some l =>
        if l.available then
          some { w with
            chans := fun x => if x = c then rest else w.chans x
            pool := { w.pool with lanes := w.pool.lanes.set i { l with inbox := [t] } } }
        else none
      | _, _ => none
  | Action.process i =>
    match w.pool.lanes[i]? with
    | none => none
    | some l =>
      match l.inbox with
      | [] => none
      | t :: rest =>
        match l.proc.receive t with
        | none => none
        | some (q, r) =>
          some { w with
            pool := { w.pool with lanes := w.pool.lanes.set i ⟨q, rest⟩ }
            delivered := w.delivered ++ (r.toList.map (fun x => (t.ResponseChan, x))) }
  | Action.relay i =>
    match w.pool.lanes[i]? with
    | none => none
    | some l =>
      match l.proc.emit with
      | none => none
      | some (m, q) =>
        some { w with
          pool := { w.pool with
            lanes := w.pool.lanes.set i { l with proc := q }
            output := w.pool.output ++ [⟨m, i⟩] } }
  | Action.respond k r =>
    match w.pool.output[k]? with
    | none => none
    | some o =>
      match w.pool.lanes[o.lane]? with
      | none => none
      | some l =>
        match l.proc.respond r with
        | none => none
        | some q =>
          some { w with
            pool := { w.pool with
              lanes := w.pool.lanes.set o.lane { l with proc := q }
              output := w.pool.output.eraseIdx k } }
  | Action.resolve i =>
    match w.pool.lanes[i]? with
    | none => none
    | some l =>
      match l.proc.resolve with
      | none => none
      | some (q, c, r) =>
        some { w with
          pool := { w.pool with lanes := w.pool.lanes.set i { l with proc := q } }
          delivered := w.delivered ++ [(c, r)] }

/-- Modelled from the spec: a run, the actions of a list fired in order. -/
def exec (w : World) : List Action → Option World
  | [] => some w
  | a :: as =>
    match step w a with
    | none => none
    | some w2 => exec w2 as

/-- Modelled from the spec: the world in which a Pool of `size` Lanes, Lane
`i` built around the Stage chain `chains i`, has been bound to the input
channel `c`, with the Transactions of `chans` pending and no Response
delivered yet. -/
def World.start (chains : Nat → Stage) (size c : Nat) (chans : Nat → List Transaction) : World :=
  ⟨chans, ((NewPool (fun i => NewProcessor (chains i)) size).Consume c).1, []⟩

/-- The number of Responses delivered so far on the response channel `rc`. -/
def World.deliveredOn (w : World) (rc : Nat) : Nat :=
  (w.delivered.filter (fun d => d.1 = rc)).length

/-- The number of Transactions of a list that carry the response channel
`rc`. -/
def sentOn (ts : List Transaction) (rc : Nat) : Nat :=
  (ts.filter (fun t => t.ResponseChan = rc)).length

/-- The Transactions a Lane still owes a Response on the response channel
`rc`: those waiting in its input channel and the one in progress. -/
def Lane.pendingOn (l : Lane) (rc : Nat) : Nat :=
  sentOn l.inbox rc +
    (match l.proc.job with
      | some j => if j.orig.ResponseChan = rc then 1 else 0
      | none => 0)

/-- The Transactions pending on the bound input channel of the Pool. -/
def World.inbound (w : World) : List Transaction :=
  match w.pool.consuming with
  | some c => w.chans c
  | none => []

/-- The Transactions for which a Response on the response channel `rc` is
still owed: those pending on the bound input channel and those inside the
Lanes. -/
def World.pendingOn (w : World) (rc : Nat) : Nat :=
  sentOn w.inbound rc + (w.pool.lanes.map (fun l => l.pendingOn rc)).sum

/-- The result Transactions of the shared output channel whose response path
leads to Lane `i`. -/
def inflight (output : List OutTx) (i : Nat) : Nat :=
  (output.filter (fun o => o.lane = i)).length

/-- The bookkeeping of Lane `i` is consistent with the shared output channel:
an idle Lane has nothing emitted and nothing in flight; for a Lane with a
Transaction in progress the Responses received, the result Transactions not yet
relayed and those in flight add up to the number expected. -/
def LaneOk (output : List OutTx) (i : Nat) (l : Lane) : Prop :=
  match l.proc.job with
  | none => l.proc.out = [] ∧ inflight output i = 0
  | some j => j.received.length + l.proc.out.length + inflight output i = j.expected

/-- The invariant of the Pool: every Lane is consistent with the shared output
channel, and every result Transaction there leads back to an existing Lane. -/
def World.Inv (w : World) : Prop :=
  (∀ i l, w.pool.lanes[i]? = some l → LaneOk w.pool.output i l) ∧
    ∀ o ∈ w.pool.output, o.lane < w.pool.lanes.length

/-- First component of the termination measure: the Transactions not yet
received by a Lane, those still on the bound input channel counted twice. -/
def World.unprocessed (w : World) : Nat :=
  2 * w.inbound.length + (w.pool.lanes.map (fun l => l.inbox.length)).sum

/-- Second component of the termination measure: the work left on the
Transactions in progress. -/
def World.unfinished (w : World) : Nat :=
  (w.pool.lanes.map (fun l => 2 * l.proc.out.length + (if l.proc.job.isSome then 1 else 0))).sum +
    w.pool.output.length

/-- The termination measure, ordered lexicographically. -/
def World.measure (w : World) : Nat × Nat :=
  (w.unprocessed, w.unfinished)

/-- One world follows from another by one action. -/
def Next (w2 w1 : World) : Prop :=
  ∃ a, step w1 a = some w2

/-- No action can fire: every worker and the sink are waiting. -/
def World.quiescent (w : World) : Prop :=
  ∀ a, step w a = none

end Pipeline

namespace Cache

/-- The `for k, v := range items` loop of `File.SetMulti`, over the Set
operation it calls: the list gives the entries of the map in the order the
range visits them; the first failing Set ends the loop with its error. -/
def rangeSet (set : FS → String → Bytes → FS × Option Error) (fs : FS) :
    List (String × Bytes) → FS × Option Error
  | [] => (fs, none)
  | (k, v) :: rest =>
    match set fs k v with
    | (fs1, some err) => (fs1, some err)
    | (fs1, none) => rangeSet set fs1 rest

/-- Go `File.SetMulti`: attempts to set the value of multiple keys, returns an
error if any keys fail. -/
def File.SetMulti (f : File) (fs : FS) (items : List (String × Bytes)) : FS × Option Error :=
  rangeSet f.Set fs items

end Cache

namespace Metrics

/-! ## `lib/metrics/statsd.go`

The statsd client library (`github.com/smira/go-statsd`), `time.ParseDuration`,
`NewStatsdLegacy` and the functional options are not part of the file; the
client is rendered by the record of its settings and of the calls made on it,
the rest is taken as a parameter. -/

/-- Go `StatsdConfig`: config for the Statsd metrics type. -/
structure StatsdConfig where
  Prefix : String
  Address : String
  FlushPeriod : String
  Network : String
  TagFormat : String
  deriving DecidableEq, Repr

/-- Go constant `TagFormatNone`. -/
def TagFormatNone : String := "none"

/-- Go constant `TagFormatDatadog`. -/
def TagFormatDatadog : String := "datadog"

/-- Go constant `TagFormatInfluxDB`. -/
def TagFormatInfluxDB : String := "influxdb"

/-- Go `NewStatsdConfig`: a StatsdConfig with default values. -/
def NewStatsdConfig : StatsdConfig :=
  { Prefix := "benthos"
    Address := "localhost:4040"
    FlushPeriod := "100ms"
    Network := "udp"
    TagFormat := TagFormatNone }

/-- Go `Config` of the metrics package, reduced to the section `NewStatsd`
reads. -/
structure Config where
  Statsd : StatsdConfig
  deriving DecidableEq, Repr

/-- A tag of the statsd client library (`statsd.StringTag(name, value)`). -/
structure Tag where
  name : String
  value : String
  deriving DecidableEq, Repr

/-- Go `statsd.StringTag`. -/
def StringTag (name value : String) : Tag := ⟨name, value⟩

/-- The tag styles of the statsd client library that `NewStatsd` selects. -/
inductive TagStyle where
  | InfluxDB
  | Datadog
  deriving DecidableEq, Repr

/-- The metric methods of the statsd client. -/
inductive Method where
  | Incr
  | Decr
  | Timing
  | Gauge
  deriving DecidableEq, Repr

/-- One call made on the statsd client: the method, the stat path, the value
and the tags passed. -/
structure Call where
  method : Method
  stat : String
  value : Int
  tags : List Tag
  deriving DecidableEq, Repr

/-- The statsd client (`*statsd.Client`): the settings `statsd.NewClient` was
given and the metric calls made on it so far, oldest first. -/
structure Client where
  addr : String
  flushInterval : Int
  metricPrefix : String
  tagStyle : TagStyle
  logger : String
  calls : List Call
  deriving DecidableEq, Repr

/-- Go `statsd.NewClient` with the options `FlushInterval`, `MetricPrefix`,
`TagStyle` and `Logger`. -/
def NewClient (addr : String) (flushInterval : Int) (metricPrefix : String)
    (tagStyle : TagStyle) (logger : String) : Client :=
  ⟨addr, flushInterval, metricPrefix, tagStyle, logger, []⟩

/-- Go `tags`: merges tag labels with their interpolated values; no attempt is
made to merge labels and values if the slices are not the same length (`none`
is the nil slice). -/
def tags (labels values : List String) : Option (List Tag) :=
  if labels.length ≠ values.length then none
  else some (List.zipWith StringTag labels values)

/-- Go `StatsdStat`: a single metric stat, its path and its tags; the client
pointer `s` is rendered by passing the client to the methods. -/
structure StatsdStat where
  path : String
  tags : Option (List Tag)
  deriving DecidableEq, Repr

/-- The variadic argument `s.tags...`: a nil slice passes no tag. -/
def StatsdStat.spread (s : StatsdStat) : List Tag :=
  match s.tags with
  | some ts => ts
  | none => []

/-- Go `StatsdStat.Incr`: increments a metric by an amount. -/
def StatsdStat.Incr (s : StatsdStat) (c : Client) (count : Int) : Client × Option String :=
  ({ c with calls := c.calls ++ [⟨Method.Incr, s.path, count, s.spread⟩] }, none)

/-- Go `StatsdStat.Decr`: decrements a metric by an amount. -/
def StatsdStat.Decr (s : StatsdStat) (c : Client) (count : Int) : Client × Option String :=
  ({ c with calls := c.calls ++ [⟨Method.Decr, s.path, count, s.spread⟩] }, none)

/-- Go `StatsdStat.Timing`: sets a timing metric. -/
def StatsdStat.Timing (s : StatsdStat) (c : Client) (delta : Int) : Client × Option String :=
  ({ c with calls := c.calls ++ [⟨Method.Timing, s.path, delta, s.spread⟩] }, none)

/-- Go `StatsdStat.Set`: sets a gauge metric. -/
def StatsdStat.Set (s : StatsdStat) (c : Client) (value : Int) : Client × Option String :=
  ({ c with calls := c.calls ++ [⟨Method.Gauge, s.path, value, s.spread⟩] }, none)

/-- Go `Statsd`: the stats object; `s` is the client (nil until `NewStatsd`
sets it) and `log` the logger. -/
structure Statsd where
  config : Config
  s : Option Client
  log : String
  deriving DecidableEq, Repr

/-- Go `log.Noop()`. -/
def logNoop : String := "noop"

/-- Modelled from the spec: a counter, timer or gauge with a fixed set of
label names, bound later to label values at the point of use (section 6);
this is the `fCounterVec`, `fTimerVec` and `fGaugeVec` of the metrics package,
a wrapper of the function `f` from label values to the stat. -/
structure StatVec where
  f : List String → StatsdStat

/-- Modelled from the spec: binding the label values at the point of use
(section 6), the `With` of the three vector types: it calls `f`. -/
def StatVec.With (v : StatVec) (labels : List String) : StatsdStat :=
  v.f labels

/-- Go `Statsd.GetCounter`: a stat counter object for a path. -/
def Statsd.GetCounter (_h : Statsd) (path : String) : StatsdStat :=
  ⟨path, none⟩

/-- Go `Statsd.GetCounterVec`: a stat counter object for a path with the
labels. -/
def Statsd.GetCounterVec (_h : Statsd) (path : String) (n : List String) : StatVec :=
  ⟨fun l => ⟨path, tags n l⟩⟩

/-- Go `Statsd.GetTimer`: a stat timer object for a path. -/
def Statsd.GetTimer (_h : Statsd) (path : String) : StatsdStat :=
  ⟨path, none⟩

/-- Go `Statsd.GetTimerVec`: a stat timer object for a path with the labels. -/
def Statsd.GetTimerVec (_h : Statsd) (path : String) (n : List String) : StatVec :=
  ⟨fun l => ⟨path, tags n l⟩⟩

/-- Go `Statsd.GetGauge`: a stat gauge object for a path. -/
def Statsd.GetGauge (_h : Statsd) (path : String) : StatsdStat :=
  ⟨path, none⟩

/-- Go `Statsd.GetGaugeVec`: a stat gauge object for a path with the labels. -/
def Statsd.GetGaugeVec (_h : Statsd) (path : String) (n : List String) : StatVec :=
  ⟨fun l => ⟨path, tags n l⟩⟩

/-- The metrics object a constructor returns (the Go interface `Type`): the
Statsd object of this file, or whatever `NewStatsdLegacy` builds. -/
inductive Stats (L : Type) where
  | statsd (s : Statsd)
  | legacy (l : L)

/-- What `NewStatsd` uses and the file does not contain: `time.ParseDuration`
(the duration in nanoseconds, or the message of its error), `NewStatsdLegacy`,
and the effect on a Statsd object of an option (a Go `func(Type)`). -/
structure Deps (O L : Type) where
  ParseDuration : String → Except String Int
  NewStatsdLegacy : Config → List O → Option (Stats L) × Option String
  applyOpt : O → Statsd → Statsd

/-- The metric prefix `NewStatsd` hands to the client: a dot is appended to a
non-empty prefix that does not end with one. -/
def metricPrefixOf (p : String) : String :=
  if p.length > 0 ∧ p.toList.getLast? ≠ some '.' then p ++ "." else p

/-- Go `NewStatsd`: creates and returns a new Statsd object; the pair is the
returned `(Type, error)`. -/
def NewStatsd {O L : Type} (deps : Deps O L) (config : Config) (opts : List O) :
    Option (Stats L) × Option String :=
  if config.Statsd.Network ≠ "udp" ∨ config.Statsd.TagFormat = "legacy" then
    deps.NewStatsdLegacy config opts
  else
    match deps.ParseDuration config.Statsd.FlushPeriod with
    | Except.error err => (none, some ("failed to parse flush period: " ++ err))
    | Except.ok flushPeriod =>
      let s : Statsd := opts.foldl (fun s opt => deps.applyOpt opt s) ⟨config, none, logNoop⟩
      let pfx := metricPrefixOf config.Statsd.Prefix
      let build := fun (tagFormat : TagStyle) =>
        let client := NewClient config.Statsd.Address flushPeriod pfx tagFormat s.log
        ((some (Stats.statsd { s with s := some client }) : Option (Stats L)), (none : Option String))
      if TagFormatInfluxDB = config.Statsd.TagFormat then build TagStyle.InfluxDB
      else if TagFormatDatadog = config.Statsd.TagFormat then build TagStyle.Datadog
      else (none, some ("tag format '" ++ config.Statsd.TagFormat ++ "' was not recognised"))

end Metrics

namespace Broker

/-! ## `lib/broker/common_test.go`: the mock source and sink -/

/-- A Go channel of Transactions (`chan types.Transaction`, unbuffered):
whether it has been closed, and the Transactions of the senders blocked on
it. -/
structure Chan where
  closed : Bool
  pending : List Pipeline.Transaction
  deriving DecidableEq, Repr

/-- Go error values of the mocks: `types.ErrTimeout` and `errors.New`. -/
inductive Error where
  | ErrTimeout
  | New (msg : String)
  deriving DecidableEq, Repr

/-- Go `MockInputType`: `closed` is the int32 flag, `TChan` the channel
(`none` is the nil channel). -/
structure MockInputType where
  closed : Int
  TChan : Option Chan
  deriving DecidableEq, Repr

/-- Go builtin `close`: closing the nil channel or a closed channel panics
(the `Except.error` carries the panic message). -/
def closeChan : Option Chan → Except String (Option Chan)
  | none => Except.error "close of nil channel"
  | some ch =>
    if ch.closed then Except.error "close of closed channel"
    else Except.ok (some { ch with closed := true })

/-- Go `MockInputType.CloseAsync`: the compare-and-swap of the flag from 0 to
1 guards the close of the channel. -/
def MockInputType.CloseAsync (m : MockInputType) : Except String MockInputType :=
  if m.closed = 0 then
    match closeChan m.TChan with
    | Except.error p => Except.error p
    | Except.ok ch => Except.ok ⟨1, ch⟩
  else Except.ok m

/-- A number of `CloseAsync` calls one after the other; a panic ends them. -/
def MockInputType.CloseAsyncTimes : Nat → MockInputType → Except String MockInputType
  | 0, m => Except.ok m
  | n + 1, m =>
    match m.CloseAsync with
    | Except.error p => Except.error p
    | Except.ok m2 => MockInputType.CloseAsyncTimes n m2

/-- What happens on an open, idle channel while a receiver waits on it. -/
inductive Arrival where
  | close
  | send (t : Pipeline.Transaction)
  deriving DecidableEq, Repr

/-- The case a `select` takes when both of its cases can proceed. -/
inductive Pick where
  | recv
  | timer
  deriving DecidableEq, Repr

/-- Go `MockInputType.WaitForClose`: the select between a receive on `TChan`
and the timer `time.After(t)`. `t` is the duration in nanoseconds (any int64,
zero and negative included) and `elapsed` the time from the start of the timer
to the moment the select looks at its cases, so the timer case can proceed at
once when `t ≤ elapsed`. A closed channel or a blocked sender lets the receive
proceed at once. When both cases can proceed, `pick` is the one the select
takes (Go chooses at random); when neither can, the select blocks and `during`
tells what arrives on the channel before the timer fires, `none` when nothing
does. A receive on the nil channel never proceeds. The result is the mock
after the call and the error returned. -/
def MockInputType.WaitForClose (m : MockInputType) (t : Int) (elapsed : Nat) (pick : Pick)
    (during : Option Arrival) : MockInputType × Option Error :=
  match m.TChan with
  | none => (m, some Error.ErrTimeout)
  | some ch =>
    if ch.closed then
      if t ≤ elapsed ∧ pick = Pick.timer then (m, some Error.ErrTimeout)
      else (m, none)
    else
      match ch.pending with
      | _ :: rest =>
        if t ≤ elapsed ∧ pick = Pick.timer then (m, some Error.ErrTimeout)
        else
          ({ m with TChan := some { ch with pending := rest } },
            some (Error.New "received unexpected message"))
      | [] =>
        if t ≤ elapsed then (m, some Error.ErrTimeout)
        else
          match during with
          | none => (m, some Error.ErrTimeout)
          | some Arrival.close => ({ m with TChan := some { ch with closed := true } }, none)
          | some (Arrival.send _) => (m, some (Error.New "received unexpected message"))

/-- Go `MockOutputType`: `TChan` is the channel read from (`none` is nil),
given by its identity. -/
structure MockOutputType where
  TChan : Option Nat
  deriving DecidableEq, Repr

/-- Go `MockOutputType.Consume`: sets the read channel. -/
def MockOutputType.Consume (_m : MockOutputType) (msgs : Nat) : MockOutputType × Option Error :=
  (⟨some msgs⟩, none)

end Broker

namespace Pipeline

/-- Modelled from the spec: the result messages the downstream consumer takes
from the Processor's output stream along a sequence of Events, in the order
taken (`none` when an Event of the sequence cannot happen). -/
def Processor.emits (p : Processor) : List Event → Option (List Message)
  | [] => some []
  | Event.emit :: es =>
    match p.emit with
    | none => none
    | some (m, q) =>
      match Processor.emits q es with
      | none => none
      | some ms => some (m :: ms)
  | Event.respond r :: es =>
    match p.respond r with
    | none => none
    | some q => Processor.emits q es
  | Event.resolve :: es =>
    match p.resolve with
    | none => none
    | some (q, _) => Processor.emits q es

end Pipeline

namespace Pipeline

/-! ## Natural close of the Pool

Section 4.3 of the specification (natural close) and step 5 of section 4.2:
the shutdown state is kept beside the `World` of the Pool, and the actions of
the workers are extended by those of the shutdown. -/

/-- Modelled from the spec: the shutdown state of one Lane: whether the worker
loop of its Processor has exited (closing the Lane's output), and whether its
relay has exited. -/
structure LaneLife where
  exited : Bool
  relayExited : Bool
  deriving DecidableEq, Repr

/-- Modelled from the spec: the shutdown state of the Pool (section 4.3):
whether the upstream producer has closed the shared input channel, whether the
dispatcher has closed every Lane's input channel (and exited), the shutdown
state of each Lane, and whether the Pool has signalled that it is closed. -/
structure Shutdown where
  inputClosed : Bool
  lanesClosed : Bool
  lanes : List LaneLife
  closed : Bool
  deriving DecidableEq, Repr

/-- Modelled from the spec: the Pool with its surroundings and its shutdown
state. -/
structure Running where
  world : World
  life : Shutdown

/-- Modelled from the spec: the actions of a Pool that can close naturally:
an action of the workers or of the sink (`work`), the upstream producer closes
the shared input channel, the dispatcher closes every Lane's input channel
after it has forwarded all pending work, the worker loop of a Lane exits, the
relay of a Lane exits, and the Pool signals that it is closed. -/
inductive CloseAction where
  | work (a : Action)
  | closeInput
  | closeLanes
  | laneExit (i : Nat)
  | relayExit (i : Nat)
  | finish
  deriving DecidableEq, Repr

/-- Modelled from the spec: one action of a Pool that can close naturally
(sections 4.2 step 5 and 4.3); `none` when the action cannot fire. The
dispatcher closes the Lanes' inputs only when the shared input is closed and
nothing is pending on it; the worker loop of a Lane exits only when its input
is closed and empty and no Transaction is in progress; the relay of a Lane
exits only when the Lane has exited and its output stream is drained; the Pool
signals closed only when every Lane and every relay has exited. -/
def cstep (s : Running) : CloseAction → Option Running
  | CloseAction.work a =>
    match step s.world a with
    | none => none
    | some w2 => some { s with world := w2 }
  | CloseAction.closeInput =>
    if s.world.pool.consuming.isSome && !s.life.inputClosed then
      some { s with life := { s.life with inputClosed := true } }
    else none
  | CloseAction.closeLanes =>
    if s.life.inputClosed && s.world.inbound.isEmpty && !s.life.lanesClosed then
      some { s with life := { s.life with lanesClosed := true } }
    else none
  | CloseAction.laneExit i =>
    match s.life.lanes[i]?, s.world.pool.lanes[i]? with
    | some f, some l =>
      if s.life.lanesClosed && !f.exited && l.inbox.isEmpty && l.proc.job.isNone then
        some { s with life := { s.life with lanes := s.life.lanes.set i { f with exited := true } } }
      else none
    | _, _ => none
  | CloseAction.relayExit i =>
    match s.life.lanes[i]?, s.world.pool.lanes[i]? with
    | some f, some l =>
      if f.exited && !f.relayExited && l.proc.out.isEmpty then
        some { s with
          life := { s.life with lanes := s.life.lanes.set i { f with relayExited := true } } }
      else none
    | _, _ => none
  | CloseAction.finish =>
    if s.life.lanesClosed && s.life.lanes.all (fun f => f.exited && f.relayExited) &&
        !s.life.closed then
      some { s with life := { s.life with closed := true } }
    else none

/-- Modelled from the spec: a run of a Pool that can close naturally. -/
def cexec (s : Running) : List CloseAction → Option Running
  | [] => some s
  | a :: as =>
    match cstep s a with
    | none => none
    | some s2 => cexec s2 as

/-- Modelled from the spec: the error of a `WaitForClose` that does not see
the shutdown complete in its duration (section 5). -/
def errTimeout : String := "action timed out"

/-- Modelled from the spec: `WaitForClose(timeout)` of the Pool (sections 4.3
and 5), for a wait that ends in the state `s`: success when the Pool has
signalled that it is closed, the timeout error otherwise. -/
def Running.WaitForClose (s : Running) : Option String :=
  if s.life.closed then none else some errTimeout

/-- Modelled from the spec: the start of a Pool of `size` Lanes bound to the
input channel `c`: the start world, the input open, every worker running. -/
def Running.start (chains : Nat → Stage) (size c : Nat) (chans : Nat → List Transaction) :
    Running :=
  ⟨World.start chains size c chans,
    ⟨false, false, List.replicate size ⟨false, false⟩, false⟩⟩

/-- One state follows from another by one action. -/
def CNext (s2 s1 : Running) : Prop :=
  ∃ a, cstep s1 a = some s2

/-- No action can fire. -/
def Running.quiescent (s : Running) : Prop :=
  ∀ a, cstep s a = none

/-- The shutdown actions not yet taken, the last component of the termination
measure. -/
def Shutdown.remaining (h : Shutdown) : Nat :=
  (if h.inputClosed then 0 else 1) + (if h.lanesClosed then 0 else 1) +
    (h.lanes.map (fun f => (if f.exited then 0 else 1) + (if f.relayExited then 0 else 1))).sum +
    (if h.closed then 0 else 1)

/-- The termination measure of a Pool that can close naturally. -/
def Running.measure (s : Running) : (Nat × Nat) × Nat :=
  (s.world.measure, s.life.remaining)

/-- The invariant of the shutdown: the Lanes' inputs are closed only after the
shared input is closed and drained, a Lane has exited only with its input
closed, nothing in its inbox and no Transaction in progress, a relay has
exited only after its Lane, and the Pool is signalled closed only after every
Lane and every relay has exited. -/
def Running.LInv (s : Running) : Prop :=
  s.life.lanes.length = s.world.pool.lanes.length ∧
    (s.life.lanesClosed = true → s.life.inputClosed = true ∧ s.world.inbound = []) ∧
    (∀ (i : Nat) (f : LaneLife), s.life.lanes[i]? = some f → f.exited = true →
      s.life.lanesClosed = true ∧
        ∃ l : Lane, s.world.pool.lanes[i]? = some l ∧ l.inbox = [] ∧ l.proc.job = none) ∧
    (∀ (i : Nat) (f : LaneLife), s.life.lanes[i]? = some f → f.relayExited = true →
      f.exited = true) ∧
    (s.life.closed = true → s.life.lanesClosed = true ∧
      ∀ (i : Nat) (f : LaneLife), s.life.lanes[i]? = some f →
        f.exited = true ∧ f.relayExited = true)

end Pipeline

/-! # Theorems -/

namespace Cache

/-! ## The file system tree -/

theorem getEntry_putEntry_same (es : List (String × Node)) (c : String) (x : Node) :
    getEntry (putEntry es c x) c = some x := by
  induction es with
  | nil => simp [putEntry, getEntry]
  | cons e es ih =>
    obtain ⟨n, y⟩ := e
    by_cases h : n = c
    · simp [putEntry, getEntry, h]
    · simp [putEntry, getEntry, h, ih]

theorem getEntry_putEntry_other (es : List (String × Node)) (c d : String) (x : Node)
    (h : d ≠ c) : getEntry (putEntry es c x) d = getEntry es d := by
  have hcd : ¬ c = d := fun e => h e.symm
  induction es with
  | nil => simp [putEntry, getEntry, hcd]
  | cons e es ih =>
    obtain ⟨n, y⟩ := e
    by_cases hn : n = c
    · subst hn
      simp [putEntry, getEntry, hcd]
    · by_cases hnd : n = d
      · subst hnd
        simp [putEntry, getEntry, hn]
      · simp [putEntry, getEntry, hn, hnd, ih]

theorem getEntry_delEntry_same (es : List (String × Node)) (c : String) :
    getEntry (delEntry es c) c = none := by
  induction es with
  | nil => simp [delEntry, getEntry]
  | cons e es ih =>
    obtain ⟨n, y⟩ := e
    by_cases h : n = c
    · simp [delEntry, h, ih]
    · simp [delEntry, getEntry, h, ih]

theorem getEntry_delEntry_other (es : List (String × Node)) (c d : String) (h : d ≠ c) :
    getEntry (delEntry es c) d = getEntry es d := by
  have hcd : ¬ c = d := fun e => h e.symm
  induction es with
  | nil => simp [delEntry, getEntry]
  | cons e es ih =>
    obtain ⟨n, y⟩ := e
    by_cases hn : n = c
    · subst hn
      simp [delEntry, getEntry, hcd, ih]
    · by_cases hnd : n = d
      · subst hnd
        simp [delEntry, getEntry, hn]
      · simp [delEntry, getEntry, hn, hnd, ih]

theorem stat_of_entry (lim : Nat) : ∀ (p : List String) (n : Node),
    n.stat lim p =
      match n.entry lim p with
      | Except.ok (some x) => Except.ok x.found
      | Except.ok none => Except.error Errno.ENOENT
      | Except.error e => Except.error e := by
  intro p
  induction p with
  | nil => intro n; simp [Node.stat, Node.entry]
  | cons c cs ih =>
    intro n
    cases n with
    | file b => simp [Node.stat, Node.entry]
    | dir es =>
      simp only [Node.stat, Node.entry]
      by_cases hl : lim < c.utf8ByteSize
      · simp [hl]
      · simp only [hl, if_false]
        cases hg : getEntry es c with
        | none => cases cs <;> simp
        | some child => exact ih child

theorem set_entry (lim : Nat) : ∀ (p : List String) (n : Node) (cur new : Option Node),
    p ≠ [] → n.entry lim p = Except.ok cur →
    ∃ es es2, n = Node.dir es ∧ n.set p new = some (Node.dir es2) ∧
      (Node.dir es2).entry lim p = Except.ok new := by
  intro p
  induction p with
  | nil => intro n cur new hne; exact absurd rfl hne
  | cons c cs ih =>
    intro n cur new _ he
    cases n with
    | file b => simp [Node.entry] at he
    | dir es =>
      simp only [Node.entry] at he
      by_cases hl : lim < c.utf8ByteSize
      · simp [hl] at he
      · simp only [hl, if_false] at he
        cases hg : getEntry es c with
        | none =>
          rw [hg] at he
          cases cs with
          | cons c2 cs2 => simp at he
          | nil =>
            cases new with
            | none =>
              exact ⟨es, es, rfl, by simp [Node.set, hg], by simp [Node.entry, hg, hl]⟩
            | some x =>
              exact ⟨es, putEntry es c x, rfl, by simp [Node.set, hg],
                by simp [Node.entry, getEntry_putEntry_same, hl]⟩
        | some child =>
          rw [hg] at he
          simp only at he
          cases cs with
          | nil =>
            cases new with
            | none =>
              exact ⟨es, delEntry es c, rfl, by simp [Node.set, hg],
                by simp [Node.entry, getEntry_delEntry_same, hl]⟩
            | some x =>
              exact ⟨es, putEntry es c x, rfl, by simp [Node.set, hg],
                by simp [Node.entry, getEntry_putEntry_same, hl]⟩
          | cons c2 cs2 =>
            obtain ⟨es1, es2, _, hset, hent⟩ := ih child cur new (by simp) he
            refine ⟨es, putEntry es c (Node.dir es2), rfl, ?_, ?_⟩
            · simp only [Node.set, hg, hset]
            · simp only [Node.entry, getEntry_putEntry_same, hl, if_false]
              exact hent

theorem set_getEntry_other (es es2 : List (String × Node)) (c d : String) (cs : List String)
    (new : Option Node) (hset : (Node.dir es).set (c :: cs) new = some (Node.dir es2))
    (h : d ≠ c) : getEntry es2 d = getEntry es d := by
  simp only [Node.set] at hset
  cases hg : getEntry es c with
  | none =>
    rw [hg] at hset
    cases cs with
    | cons c2 cs2 =>
      simp only [Option.some.injEq, Node.dir.injEq] at hset
      rw [← hset]
    | nil =>
      cases new with
      | none =>
        simp only [Option.some.injEq, Node.dir.injEq] at hset
        rw [← hset]
      | some x =>
        simp only [Option.some.injEq, Node.dir.injEq] at hset
        rw [← hset]
        exact getEntry_putEntry_other es c d x h
  | some child =>
    rw [hg] at hset
    simp only at hset
    cases hc : child.set cs new with
    | none =>
      rw [hc] at hset
      simp only [Option.some.injEq, Node.dir.injEq] at hset
      rw [← hset]
      exact getEntry_delEntry_other es c d h
    | some child2 =>
      rw [hc] at hset
      simp only [Option.some.injEq, Node.dir.injEq] at hset
      rw [← hset]
      exact getEntry_putEntry_other es c d child2 h

theorem set_stat_frame (lim : Nat) : ∀ (p : List String) (n n2 : Node) (cur new : Option Node)
    (q : List String), p ≠ [] → n.entry lim p = Except.ok cur → n.set p new = some n2 →
    ¬ p <+: q → n2.stat lim q = n.stat lim q := by
  intro p
  induction p with
  | nil => intro n n2 cur new q hne; exact absurd rfl hne
  | cons c cs ih =>
    intro n n2 cur new q hne he hset hpq
    obtain ⟨es, es2, hn, hset2, _⟩ := set_entry lim (c :: cs) n cur new hne he
    subst hn
    rw [hset2] at hset
    simp only [Option.some.injEq] at hset
    subst hset
    cases q with
    | nil => simp [Node.stat, Node.found]
    | cons d ds =>
      by_cases hd : d = c
      · subst hd
        have hcs : ¬ cs <+: ds := fun hp => hpq ((List.cons_prefix_cons).mpr ⟨rfl, hp⟩)
        have hcsne : cs ≠ [] := by
          intro e
          subst e
          exact hcs (List.nil_prefix)
        simp only [Node.entry] at he
        by_cases hl : lim < d.utf8ByteSize
        · simp [hl] at he
        · simp only [hl, if_false] at he
          cases hg : getEntry es d with
          | none =>
            rw [hg] at he
            cases cs with
            | nil => exact absurd rfl hcsne
            | cons c2 cs2 => simp at he
          | some child =>
            rw [hg] at he
            simp only at he
            obtain ⟨es3, es4, _, hcset, _⟩ := set_entry lim cs child cur new hcsne he
            simp only [Node.set, hg, hcset, Option.some.injEq, Node.dir.injEq] at hset2
            rw [← hset2]
            simp only [Node.stat, getEntry_putEntry_same, hg, hl, if_false]
            exact ih child (Node.dir es4) cur new ds hcsne he hcset hcs
      · simp only [Node.stat, set_getEntry_other es es2 c d cs new hset2 hd]

/-! ## System calls on the file system -/

theorem resolve_env (fs fs2 : FS) (h : fs2.env = fs.env) (path : String) :
    fs2.resolve path = fs.resolve path := by
  simp [FS.resolve, h]

theorem lookup_of_entry (fs : FS) (path : String) :
    fs.lookup path =
      match fs.entry path with
      | Except.ok (some x) => Except.ok x.found
      | Except.ok none => Except.error Errno.ENOENT
      | Except.error e => Except.error e := by
  simp only [FS.lookup, FS.entry]
  cases fs.resolve path with
  | error e => rfl
  | ok p => exact stat_of_entry fs.env.nameMax p fs.root

theorem entry_of_lookup_file (fs : FS) (path : String) (b : Bytes)
    (h : fs.lookup path = Except.ok (Found.file b)) :
    fs.entry path = Except.ok (some (Node.file b)) := by
  rw [lookup_of_entry] at h
  cases he : fs.entry path with
  | error e => rw [he] at h; simp at h
  | ok cur =>
    rw [he] at h
    cases cur with
    | none => simp at h
    | some x =>
      cases x with
      | dir es => simp [Node.found] at h
      | file b2 =>
        simp only [Node.found, Except.ok.injEq, Found.file.injEq] at h
        rw [h]

theorem lookup_of_entry_file (fs : FS) (path : String) (b : Bytes)
    (h : fs.entry path = Except.ok (some (Node.file b))) :
    fs.lookup path = Except.ok (Found.file b) := by
  rw [lookup_of_entry, h]
  rfl

theorem lookup_of_entry_none (fs : FS) (path : String)
    (h : fs.entry path = Except.ok none) : fs.lookup path = Except.error Errno.ENOENT := by
  rw [lookup_of_entry, h]

theorem resolve_of_entry (fs : FS) (path : String) (cur : Option Node)
    (he : fs.entry path = Except.ok cur) (hnd : ∀ es, cur ≠ some (Node.dir es)) :
    ∃ p, fs.resolve path = Except.ok p ∧ p ≠ [] ∧
      fs.root.entry fs.env.nameMax p = Except.ok cur := by
  simp only [FS.entry] at he
  cases hp : fs.resolve path with
  | error e => rw [hp] at he; simp at he
  | ok p =>
    rw [hp] at he
    simp only at he
    refine ⟨p, rfl, ?_, he⟩
    intro e
    subst e
    simp only [Node.entry, FS.root, Except.ok.injEq] at he
    exact hnd _ he.symm

theorem alter_ok (fs : FS) (path : String) (f : Option Node → Except Errno (Option Node))
    (p : List String) (cur new : Option Node) (hp : fs.resolve path = Except.ok p)
    (hne : p ≠ []) (he : fs.root.entry fs.env.nameMax p = Except.ok cur)
    (hf : f cur = Except.ok new) :
    ∃ fs2, fs.alter path f = Except.ok fs2 ∧ fs2.env = fs.env ∧
      fs2.entry path = Except.ok new ∧
      ∀ q, ¬ p <+: q → fs2.root.stat fs.env.nameMax q = fs.root.stat fs.env.nameMax q := by
  obtain ⟨es, es2, _, hset, hent⟩ := set_entry fs.env.nameMax p fs.root cur new hne he
  refine ⟨{ fs with entries := es2 }, ?_, rfl, ?_, ?_⟩
  · simp only [FS.alter, hp, he, hf, hset]
    cases p with
    | nil => exact absurd rfl hne
    | cons c cs => rfl
  · have hr : ({ fs with entries := es2 } : FS).resolve path = Except.ok p := by
      rw [← hp]; exact resolve_env fs _ rfl path
    simp only [FS.entry, hr]
    exact hent
  · intro q hq
    exact set_stat_frame fs.env.nameMax p fs.root (Node.dir es2) cur new q hne he hset hq

theorem alter_inv (fs fs2 : FS) (path : String) (f : Option Node → Except Errno (Option Node))
    (h : fs.alter path f = Except.ok fs2) :
    ∃ p cur new, fs.resolve path = Except.ok p ∧ p ≠ [] ∧
      fs.root.entry fs.env.nameMax p = Except.ok cur ∧ f cur = Except.ok new := by
  simp only [FS.alter] at h
  cases hp : fs.resolve path with
  | error e => rw [hp] at h; simp at h
  | ok p =>
    rw [hp] at h
    simp only at h
    cases he : fs.root.entry fs.env.nameMax p with
    | error e => rw [he] at h; simp at h
    | ok cur =>
      rw [he] at h
      simp only at h
      cases hf : f cur with
      | error e => rw [hf] at h; simp at h
      | ok new =>
        rw [hf] at h
        simp only at h
        cases p with
        | nil => simp at h
        | cons c cs => exact ⟨c :: cs, cur, new, rfl, by simp, he, hf⟩

theorem alter_frame (fs fs2 : FS) (path : String)
    (f : Option Node → Except Errno (Option Node)) (h : fs.alter path f = Except.ok fs2) :
    fs2.env = fs.env ∧
      ∃ p, fs.resolve path = Except.ok p ∧
        ∀ q, ¬ p <+: q → fs2.root.stat fs.env.nameMax q = fs.root.stat fs.env.nameMax q := by
  obtain ⟨p, cur, new, hp, hne, he, hf⟩ := alter_inv fs fs2 path f h
  obtain ⟨fs3, h3, henv, _, hframe⟩ := alter_ok fs path f p cur new hp hne he hf
  rw [h] at h3
  simp only [Except.ok.injEq] at h3
  subst h3
  exact ⟨henv, p, hp, hframe⟩

theorem alter_entry_error (fs : FS) (path : String)
    (f : Option Node → Except Errno (Option Node)) (e : Errno)
    (h : fs.entry path = Except.error e) : fs.alter path f = Except.error e := by
  simp only [FS.entry] at h
  simp only [FS.alter]
  cases hp : fs.resolve path with
  | error e2 =>
    rw [hp] at h
    simp only [Except.error.injEq] at h ⊢
    exact h
  | ok p => rw [hp] at h; simp only at h; simp only [h]

theorem alter_f_error (fs : FS) (path : String)
    (f : Option Node → Except Errno (Option Node)) (cur : Option Node) (e : Errno)
    (he : fs.entry path = Except.ok cur) (hf : f cur = Except.error e) :
    fs.alter path f = Except.error e := by
  simp only [FS.entry] at he
  simp only [FS.alter]
  cases hp : fs.resolve path with
  | error e2 => rw [hp] at he; simp at he
  | ok p => rw [hp] at he; simp only at he; simp only [he, hf]

theorem lookup_congr (fs fs2 : FS) (path : String) (henv : fs2.env = fs.env)
    (h : ∀ q, fs.resolve path = Except.ok q →
      fs2.root.stat fs.env.nameMax q = fs.root.stat fs.env.nameMax q) :
    fs2.lookup path = fs.lookup path := by
  simp only [FS.lookup, resolve_env fs fs2 henv, henv]
  cases hp : fs.resolve path with
  | error e => rfl
  | ok q => exact h q hp

end Cache

namespace Cache

/-! ## The file cache -/

theorem get_of_file (f : File) (fs : FS) (k : String) (b : Bytes)
    (h : fs.lookup (filepath.Join f.dir k) = Except.ok (Found.file b)) :
    f.Get fs k = (some b, none) := by
  simp [File.Get, ioutil.ReadFile, h, os.IsNotExist]

theorem get_of_enoent (f : File) (fs : FS) (k : String)
    (h : fs.lookup (filepath.Join f.dir k) = Except.error Errno.ENOENT) :
    f.Get fs k = (none, some Error.ErrKeyNotFound) := by
  simp [File.Get, ioutil.ReadFile, h, os.IsNotExist]

theorem get_of_error (f : File) (fs : FS) (k : String) (e : Errno)
    (h : fs.lookup (filepath.Join f.dir k) = Except.error e) (hne : e ≠ Errno.ENOENT) :
    f.Get fs k = (none, some (Error.PathError "open" (filepath.Join f.dir k) e)) := by
  cases e <;> first | exact absurd rfl hne | simp [File.Get, ioutil.ReadFile, h, os.IsNotExist]

theorem get_of_dir (f : File) (fs : FS) (k : String)
    (h : fs.lookup (filepath.Join f.dir k) = Except.ok Found.dir) :
    f.Get fs k =
      (some [], some (Error.PathError "read" (filepath.Join f.dir k) Errno.EISDIR)) := by
  simp [File.Get, ioutil.ReadFile, h, os.IsNotExist]

theorem get_congr (f : File) (fs fs2 : FS) (k : String)
    (h : fs2.lookup (filepath.Join f.dir k) = fs.lookup (filepath.Join f.dir k)) :
    f.Get fs2 k = f.Get fs k := by
  simp only [File.Get, ioutil.ReadFile, h]

theorem add_of_entry_some (f : File) (fs : FS) (k : String) (v : Bytes) (n : Node)
    (h : fs.entry (filepath.Join f.dir k) = Except.ok (some n)) :
    f.Add fs k v = (fs, some Error.ErrKeyAlreadyExists) := by
  have hopen : openEntry ⟨true, true, false⟩ (some n) = Except.error Errno.EEXIST := by
    cases n <;> rfl
  simp [File.Add, os.OpenFile, alter_f_error fs _ _ (some n) Errno.EEXIST h hopen, os.IsExist]

theorem add_of_entry_none (f : File) (fs : FS) (k : String) (v : Bytes)
    (h : fs.entry (filepath.Join f.dir k) = Except.ok none) :
    ∃ fs2, f.Add fs k v = (fs2, none) ∧ fs2.env = fs.env ∧
      fs2.entry (filepath.Join f.dir k) = Except.ok (some (Node.file v)) := by
  obtain ⟨p, hp, hne, he⟩ := resolve_of_entry fs _ none h (by simp)
  obtain ⟨fs1, h1, hcwd1, hent1, _⟩ :=
    alter_ok fs _ (openEntry ⟨true, true, false⟩) p none (some (Node.file [])) hp hne he rfl
  have hp1 : fs1.resolve (filepath.Join f.dir k) = Except.ok p := by
    rw [resolve_env fs fs1 hcwd1]; exact hp
  have he1 : fs1.root.entry fs1.env.nameMax p = Except.ok (some (Node.file [])) := by
    simpa only [FS.entry, hp1] using hent1
  obtain ⟨fs2, h2, hcwd2, hent2, _⟩ :=
    alter_ok fs1 _ (writeEntry 0 v) p (some (Node.file [])) (some (Node.file v)) hp1 hne he1
      (by simp [writeEntry])
  refine ⟨fs2, ?_, hcwd2.trans hcwd1, hent2⟩
  simp only [File.Add, os.OpenFile, h1, OsFile.Write, h2, OsFile.Close]

theorem set_of_entry (f : File) (fs : FS) (k : String) (v : Bytes) (cur : Option Node)
    (h : fs.entry (filepath.Join f.dir k) = Except.ok cur)
    (hnd : ∀ es, cur ≠ some (Node.dir es)) :
    ∃ fs2, f.Set fs k v = (fs2, none) ∧ fs2.env = fs.env ∧
      fs2.entry (filepath.Join f.dir k) = Except.ok (some (Node.file v)) := by
  have hopen : openEntry ⟨true, false, true⟩ cur = Except.ok (some (Node.file [])) := by
    cases cur with
    | none => rfl
    | some n =>
      cases n with
      | file b => rfl
      | dir es => exact absurd rfl (hnd es)
  obtain ⟨p, hp, hne, he⟩ := resolve_of_entry fs _ cur h hnd
  obtain ⟨fs1, h1, hcwd1, hent1, _⟩ :=
    alter_ok fs _ (openEntry ⟨true, false, true⟩) p cur (some (Node.file [])) hp hne he hopen
  have hp1 : fs1.resolve (filepath.Join f.dir k) = Except.ok p := by
    rw [resolve_env fs fs1 hcwd1]; exact hp
  have he1 : fs1.root.entry fs1.env.nameMax p = Except.ok (some (Node.file [])) := by
    simpa only [FS.entry, hp1] using hent1
  obtain ⟨fs2, h2, hcwd2, hent2, _⟩ :=
    alter_ok fs1 _ (writeEntry 0 v) p (some (Node.file [])) (some (Node.file v)) hp1 hne he1
      (by simp [writeEntry])
  refine ⟨fs2, ?_, hcwd2.trans hcwd1, hent2⟩
  simp only [File.Set, ioutil.WriteFile, os.OpenFile, h1, OsFile.Write, h2, OsFile.Close]

theorem set_ok_inv (f : File) (fs fs2 : FS) (k : String) (v : Bytes)
    (h : f.Set fs k v = (fs2, none)) :
    fs2.env = fs.env ∧ fs2.entry (filepath.Join f.dir k) = Except.ok (some (Node.file v)) := by
  cases he : fs.entry (filepath.Join f.dir k) with
  | error e =>
    simp [File.Set, ioutil.WriteFile, os.OpenFile, alter_entry_error fs _ _ e he] at h
  | ok cur =>
    by_cases hd : ∃ es, cur = some (Node.dir es)
    · obtain ⟨es, hes⟩ := hd
      subst hes
      have hopen : openEntry ⟨true, false, true⟩ (some (Node.dir es)) =
          Except.error Errno.EISDIR := rfl
      simp [File.Set, ioutil.WriteFile, os.OpenFile,
        alter_f_error fs _ _ _ Errno.EISDIR he hopen] at h
    · obtain ⟨fs3, h3, hcwd, hent⟩ :=
        set_of_entry f fs k v cur he (fun es e => hd ⟨es, e⟩)
      rw [h3] at h
      have hfs : fs3 = fs2 := (Prod.mk.inj h).1
      subst hfs
      exact ⟨hcwd, hent⟩

theorem delete_of_entry_file (f : File) (fs : FS) (k : String) (b : Bytes)
    (h : fs.entry (filepath.Join f.dir k) = Except.ok (some (Node.file b))) :
    ∃ fs2, f.Delete fs k = (fs2, none) ∧ fs2.env = fs.env ∧
      fs2.entry (filepath.Join f.dir k) = Except.ok none := by
  obtain ⟨p, hp, hne, he⟩ := resolve_of_entry fs _ _ h (by simp)
  obtain ⟨fs1, h1, hcwd1, hent1, _⟩ :=
    alter_ok fs _ (removeEntry (splitSep (filepath.Join f.dir k).toList).getLast?
      (fs.isRoot (filepath.Join f.dir k))) p (some (Node.file b)) none hp hne he rfl
  exact ⟨fs1, by simp only [File.Delete, os.Remove, h1], hcwd1, hent1⟩

theorem delete_of_lookup_error (f : File) (fs : FS) (k : String) (e : Errno)
    (h : fs.lookup (filepath.Join f.dir k) = Except.error e) :
    f.Delete fs k = (fs, some (Error.PathError "remove" (filepath.Join f.dir k) e)) := by
  rw [lookup_of_entry] at h
  cases he : fs.entry (filepath.Join f.dir k) with
  | error e2 =>
    rw [he] at h
    simp only [Except.error.injEq] at h
    subst h
    simp only [File.Delete, os.Remove, alter_entry_error fs _ _ e2 he]
  | ok cur =>
    rw [he] at h
    cases cur with
    | some x => simp at h
    | none =>
      simp only [Except.error.injEq] at h
      subst h
      simp only [File.Delete, os.Remove,
        alter_f_error fs _ (removeEntry _ _) none Errno.ENOENT he rfl]

/-- C6: create-only Add on the File cache. For every key whose file already
exists and every value, `Add` returns `ErrKeyAlreadyExists` and leaves the file
system as it was, so a following `Get` of the key still returns the bytes that
were stored before the `Add`, without error. -/
theorem add_existing_key_rejected (f : File) (fs : FS) (k : String) (v b : Bytes)
    (h : fs.lookup (filepath.Join f.dir k) = Except.ok (Found.file b)) :
    f.Add fs k v = (fs, some Error.ErrKeyAlreadyExists) ∧
      f.Get (f.Add fs k v).1 k = (some b, none) ∧
      f.Get fs k = (some b, none) := by
  have hadd := add_of_entry_some f fs k v _ (entry_of_lookup_file fs _ b h)
  refine ⟨hadd, ?_, get_of_file f fs k b h⟩
  rw [hadd]
  exact get_of_file f fs k b h

theorem add_existing_key_rejected_witness :
    (FS.cacheDir [("foo", Node.file [49])]).lookup
        (filepath.Join (File.mk "cache").dir "foo") = Except.ok (Found.file [49]) ∧
      (File.mk "cache").Add (FS.cacheDir [("foo", Node.file [49])]) "foo" [50] =
        ((FS.cacheDir [("foo", Node.file [49])]),
          some Error.ErrKeyAlreadyExists) :=
  ⟨rfl, (add_existing_key_rejected (File.mk "cache")
    (FS.cacheDir [("foo", Node.file [49])]) "foo" [50] [49] rfl).1⟩

/-- C7 (amended): missing key on the File cache. `Get` returns nil bytes
together with `ErrKeyNotFound` for every key whose joined path cannot be looked
up because an element of it is missing (the not-exist error of `open`), and it
returns `ErrKeyNotFound` only for such keys: a key whose file exists is
returned with its bytes and no error, a key whose path runs through a regular
file gets the not-a-directory path error of `open`, and a key that names a
directory gets the is-a-directory path error of `read`. -/
theorem get_missing_key (f : File) (fs : FS) (k : String) :
    (fs.lookup (filepath.Join f.dir k) = Except.error Errno.ENOENT →
        f.Get fs k = (none, some Error.ErrKeyNotFound)) ∧
      ((f.Get fs k).2 = some Error.ErrKeyNotFound →
        fs.lookup (filepath.Join f.dir k) = Except.error Errno.ENOENT) ∧
      (∀ b, fs.lookup (filepath.Join f.dir k) = Except.ok (Found.file b) →
        f.Get fs k = (some b, none)) ∧
      (∀ e, fs.lookup (filepath.Join f.dir k) = Except.error e → e ≠ Errno.ENOENT →
        f.Get fs k = (none, some (Error.PathError "open" (filepath.Join f.dir k) e))) ∧
      (fs.lookup (filepath.Join f.dir k) = Except.ok Found.dir →
        (f.Get fs k).2 =
          some (Error.PathError "read" (filepath.Join f.dir k) Errno.EISDIR)) := by
  refine ⟨get_of_enoent f fs k, ?_, get_of_file f fs k, get_of_error f fs k,
    fun hd => by rw [get_of_dir f fs k hd]⟩
  intro hg
  cases h : fs.lookup (filepath.Join f.dir k) with
  | error e =>
    by_cases he : e = Errno.ENOENT
    · rw [he]
    · rw [get_of_error f fs k e h he] at hg
      simp at hg
  | ok x =>
    cases x with
    | file b => rw [get_of_file f fs k b h] at hg; simp at hg
    | dir => rw [get_of_dir f fs k h] at hg; simp at hg

theorem get_missing_key_witness :
    (File.mk "cache").Get (FS.cacheDir []) "foo" =
      (none, some Error.ErrKeyNotFound) :=
  (get_missing_key (File.mk "cache") (FS.cacheDir []) "foo").1 rfl

/-- C7 (counterexample): with the regular file `cache/a` in the cache
directory no file exists at the joined path of the key `a/b`, yet `Get`
returns the not-a-directory path error of `open`, not `ErrKeyNotFound`; and for
the key `""`, whose joined path is the cache directory itself, `Get` returns
the is-a-directory path error of `read`. -/
theorem get_missing_key_counterexample :
    (FS.cacheDir [("a", Node.file [49])]).lookup
        (filepath.Join (File.mk "cache").dir "a/b") = Except.error Errno.ENOTDIR ∧
      (File.mk "cache").Get (FS.cacheDir [("a", Node.file [49])]) "a/b" =
        (none, some (Error.PathError "open" "cache/a/b" Errno.ENOTDIR)) ∧
      ((File.mk "cache").Get (FS.cacheDir [("a", Node.file [49])]) "a/b").2 ≠
        some Error.ErrKeyNotFound ∧
      (FS.cacheDir [("a", Node.file [49])]).lookup
        (filepath.Join (File.mk "cache").dir "") = Except.ok Found.dir ∧
      ((File.mk "cache").Get
          (FS.cacheDir [("a", Node.file [49])]) "").2 =
        some (Error.PathError "read" "cache" Errno.EISDIR) :=
  ⟨rfl, by decide, by decide, rfl, by decide⟩

/-- C8: Set/Get round trip on the File cache. For every key and value, if
`Set` returns no error, then `Get` on the file system it leaves returns exactly
that value with no error, whatever the key held before; in particular a second
`Set` overwrites the first. -/
theorem set_get_round_trip (f : File) (fs fs2 : FS) (k : String) (v : Bytes)
    (h : f.Set fs k v = (fs2, none)) :
    f.Get fs2 k = (some v, none) ∧
      ∀ (v2 : Bytes) (fs3 : FS), f.Set fs2 k v2 = (fs3, none) →
        f.Get fs3 k = (some v2, none) := by
  have key : ∀ (g g2 : FS) (x : Bytes), f.Set g k x = (g2, none) →
      f.Get g2 k = (some x, none) := by
    intro g g2 x hg
    exact get_of_file f g2 k x (lookup_of_entry_file g2 _ x (set_ok_inv f g g2 k x hg).2)
  exact ⟨key fs fs2 v h, fun v2 fs3 h2 => key fs2 fs3 v2 h2⟩

theorem set_get_round_trip_witness :
    (File.mk "cache").Set (FS.cacheDir []) "foo" [49] =
        (((File.mk "cache").Set (FS.cacheDir []) "foo" [49]).1, none) ∧
      (File.mk "cache").Get
          ((File.mk "cache").Set (FS.cacheDir []) "foo" [49]).1 "foo" =
        (some [49], none) :=
  ⟨rfl, (set_get_round_trip (File.mk "cache") (FS.cacheDir []) _ "foo" [49]
    rfl).1⟩

/-- C9 (amended): Add inserts when absent on the File cache. For every key
whose joined path has no entry while the directory it lies in exists, and every
value, `Add` returns no error and a following `Get` returns exactly that value;
every further `Add` on the key then fails with `ErrKeyAlreadyExists`, so of any
sequence of Adds on the key exactly the first succeeds, and the value of the
first stays stored. -/
theorem add_absent_key_inserts (f : File) (fs : FS) (k : String) (v : Bytes)
    (h : fs.entry (filepath.Join f.dir k) = Except.ok none) :
    (f.Add fs k v).2 = none ∧
      f.Get (f.Add fs k v).1 k = (some v, none) ∧
      (∀ w : Bytes, (f.Add (f.Add fs k v).1 k w).2 = some Error.ErrKeyAlreadyExists) ∧
      ∀ ws : List Bytes,
        (f.AddEach fs k (v :: ws)).2 = none :: ws.map (fun _ => some Error.ErrKeyAlreadyExists) ∧
          f.Get (f.AddEach fs k (v :: ws)).1 k = (some v, none) := by
  obtain ⟨fs2, hadd, _, hent⟩ := add_of_entry_none f fs k v h
  have hfile : (f.Add fs k v).1.entry (filepath.Join f.dir k) =
      Except.ok (some (Node.file v)) := by
    rw [hadd]; exact hent
  have hget : ∀ g : FS, g.entry (filepath.Join f.dir k) = Except.ok (some (Node.file v)) →
      f.Get g k = (some v, none) :=
    fun g hg => get_of_file f g k v (lookup_of_entry_file g _ v hg)
  have hrest : ∀ (ws : List Bytes) (g : FS),
      g.entry (filepath.Join f.dir k) = Except.ok (some (Node.file v)) →
      f.AddEach g k ws = (g, ws.map (fun _ => some Error.ErrKeyAlreadyExists)) := by
    intro ws
    induction ws with
    | nil => intro g _; rfl
    | cons w ws ih =>
      intro g hg
      simp only [File.AddEach, add_of_entry_some f g k w _ hg, ih g hg, List.map_cons]
  refine ⟨by rw [hadd], hget _ hfile, ?_, ?_⟩
  · intro w
    rw [add_of_entry_some f _ k w _ hfile]
  · intro ws
    have hseq : f.AddEach fs k (v :: ws) =
        ((f.Add fs k v).1, (f.Add fs k v).2 :: ws.map (fun _ => some Error.ErrKeyAlreadyExists)) := by
      simp only [File.AddEach, hrest ws _ hfile]
    rw [hseq]
    refine ⟨?_, hget _ hfile⟩
    rw [hadd]

theorem add_absent_key_inserts_witness :
    (FS.cacheDir []).entry (filepath.Join (File.mk "cache").dir "bar") =
        Except.ok none ∧
      ((File.mk "cache").AddEach (FS.cacheDir []) "bar" [[50], [51], [52]]).2 =
        [none, some Error.ErrKeyAlreadyExists, some Error.ErrKeyAlreadyExists] :=
  ⟨rfl, ((add_absent_key_inserts (File.mk "cache") (FS.cacheDir []) "bar" [50]
    rfl).2.2.2 [[51], [52]]).1⟩

/-- C9 (counterexample): in an empty cache directory the key `sub/x` has no
existing file, yet `Add` fails with the not-exist path error of
`open` (the directory `cache/sub` is missing) and stores nothing, so the
following `Get` returns `ErrKeyNotFound`. -/
theorem add_absent_key_counterexample :
    (FS.cacheDir []).lookup
        (filepath.Join (File.mk "cache").dir "sub/x") = Except.error Errno.ENOENT ∧
      ((File.mk "cache").Add (FS.cacheDir []) "sub/x" [49]).2 =
        some (Error.PathError "open" "cache/sub/x" Errno.ENOENT) ∧
      (File.mk "cache").Get
          ((File.mk "cache").Add (FS.cacheDir []) "sub/x" [49]).1 "sub/x" =
        (none, some Error.ErrKeyNotFound) :=
  ⟨rfl, by decide, by decide⟩

/-- C10: Delete removes on the File cache. For every key whose file exists,
`Delete` returns no error, a following `Get` returns `ErrKeyNotFound`, and a
following `Add` of any value succeeds again and stores that value. -/
theorem delete_existing_key (f : File) (fs : FS) (k : String) (b : Bytes)
    (h : fs.lookup (filepath.Join f.dir k) = Except.ok (Found.file b)) :
    (f.Delete fs k).2 = none ∧
      f.Get (f.Delete fs k).1 k = (none, some Error.ErrKeyNotFound) ∧
      ∀ v : Bytes, (f.Add (f.Delete fs k).1 k v).2 = none ∧
        f.Get (f.Add (f.Delete fs k).1 k v).1 k = (some v, none) := by
  obtain ⟨fs1, hdel, _, hent⟩ := delete_of_entry_file f fs k b (entry_of_lookup_file fs _ b h)
  rw [hdel]
  refine ⟨rfl, get_of_enoent f fs1 k (lookup_of_entry_none fs1 _ hent), fun v => ?_⟩
  obtain ⟨fs2, hadd, _, hent2⟩ := add_of_entry_none f fs1 k v hent
  rw [hadd]
  exact ⟨rfl, get_of_file f fs2 k v (lookup_of_entry_file fs2 _ v hent2)⟩

theorem delete_existing_key_witness :
    (FS.cacheDir [("foo", Node.file [51])]).lookup
        (filepath.Join (File.mk "cache").dir "foo") = Except.ok (Found.file [51]) ∧
      (File.mk "cache").Get ((File.mk "cache").Delete
          (FS.cacheDir [("foo", Node.file [51])]) "foo").1 "foo" =
        (none, some Error.ErrKeyNotFound) :=
  ⟨rfl, (delete_existing_key (File.mk "cache")
    (FS.cacheDir [("foo", Node.file [51])]) "foo" [51] rfl).2.1⟩

end Cache

namespace Pipeline

/-! ## Inversion of `step` -/

theorem step_dispatch {w w2 : World} {i : Nat} (h : step w (Action.dispatch i) = some w2) :
    ∃ c t rest l, w.pool.consuming = some c ∧ w.chans c = t :: rest ∧
      w.pool.lanes[i]? = some l ∧ l.inbox = [] ∧ l.proc.job = none ∧
      w2 = { w with
        chans := fun x => if x = c then rest else w.chans x
        pool := { w.pool with lanes := w.pool.lanes.set i { l with inbox := [t] } } } := by
  simp only [step] at h
  split at h
  · exact absurd h (by simp)
  · rename_i c hc
    split at h
    · rename_i t rest l hch hl
      split at h
      · rename_i hav
        simp only [Lane.available, Bool.and_eq_true, List.isEmpty_iff, Option.isNone_iff_eq_none] at hav
        exact ⟨c, t, rest, l, hc, hch, hl, hav.1, hav.2, (Option.some.inj h).symm⟩
      · exact absurd h (by simp)
    · exact absurd h (by simp)

theorem step_process {w w2 : World} {i : Nat} (h : step w (Action.process i) = some w2) :
    ∃ l t rest q r, w.pool.lanes[i]? = some l ∧ l.inbox = t :: rest ∧
      l.proc.receive t = some (q, r) ∧
      w2 = { w with
        pool := { w.pool with lanes := w.pool.lanes.set i ⟨q, rest⟩ }
        delivered := w.delivered ++ (r.toList.map (fun x => (t.ResponseChan, x))) } := by
  simp only [step] at h
  split at h
  · exact absurd h (by simp)
  · rename_i l hl
    split at h
    · exact absurd h (by simp)
    · rename_i t rest hin
      split at h
      · exact absurd h (by simp)
      · rename_i q r hrec
        exact ⟨l, t, rest, q, r, hl, hin, hrec, (Option.some.inj h).symm⟩

theorem step_relay {w w2 : World} {i : Nat} (h : step w (Action.relay i) = some w2) :
    ∃ l m q, w.pool.lanes[i]? = some l ∧ l.proc.emit = some (m, q) ∧
      w2 = { w with
        pool := { w.pool with
          lanes := w.pool.lanes.set i { l with proc := q }
          output := w.pool.output ++ [⟨m, i⟩] } } := by
  simp only [step] at h
  split at h
  · exact absurd h (by simp)
  · rename_i l hl
    split at h
    · exact absurd h (by simp)
    · rename_i m q hem
      exact ⟨l, m, q, hl, hem, (Option.some.inj h).symm⟩

theorem step_respond {w w2 : World} {k : Nat} {r : Response}
    (h : step w (Action.respond k r) = some w2) :
    ∃ o l q, w.pool.output[k]? = some o ∧ w.pool.lanes[o.lane]? = some l ∧
      l.proc.respond r = some q ∧
      w2 = { w with
        pool := { w.pool with
          lanes := w.pool.lanes.set o.lane { l with proc := q }
          output := w.pool.output.eraseIdx k } } := by
  simp only [step] at h
  split at h
  · exact absurd h (by simp)
  · rename_i o ho
    split at h
    · exact absurd h (by simp)
    · rename_i l hl
      split at h
      · exact absurd h (by simp)
      · rename_i q hq
        exact ⟨o, l, q, ho, hl, hq, (Option.some.inj h).symm⟩

theorem step_resolve {w w2 : World} {i : Nat} (h : step w (Action.resolve i) = some w2) :
    ∃ l q c r, w.pool.lanes[i]? = some l ∧ l.proc.resolve = some (q, c, r) ∧
      w2 = { w with
        pool := { w.pool with lanes := w.pool.lanes.set i { l with proc := q } }
        delivered := w.delivered ++ [(c, r)] } := by
  simp only [step] at h
  split at h
  · exact absurd h (by simp)
  · rename_i l hl
    split at h
    · exact absurd h (by simp)
    · rename_i q c r hres
      exact ⟨l, q, c, r, hl, hres, (Option.some.inj h).symm⟩

/-! ## Inversion of the Processor operations -/

theorem receive_inv {p q : Processor} {t : Transaction} {r : Option Response}
    (h : p.receive t = some (q, r)) :
    p.job = none ∧
      (((p.chain t.Payload).dropped = true ∧ q = p ∧ r = some ⟨some (p.chain t.Payload).reason⟩) ∨
        ((p.chain t.Payload).dropped = false ∧ (p.chain t.Payload).results = [] ∧ q = p ∧
          r = some Response.ack) ∨
        ((p.chain t.Payload).dropped = false ∧ (p.chain t.Payload).results ≠ [] ∧ r = none ∧
          q = { p with
            job := some ⟨t, (p.chain t.Payload).results.length, []⟩
            out := p.out ++ (p.chain t.Payload).results })) := by
  unfold Processor.receive at h
  split at h
  · exact absurd h (by simp)
  · rename_i hjob
    refine ⟨hjob, ?_⟩
    simp only at h
    split at h
    · rename_i hd
      simp only [Option.some.injEq, Prod.mk.injEq] at h
      exact Or.inl ⟨hd, h.1.symm, h.2.symm⟩
    · rename_i hd
      have hd2 : (p.chain t.Payload).dropped = false := by simpa using hd
      split at h
      · rename_i hres
        simp only [Option.some.injEq, Prod.mk.injEq] at h
        exact Or.inr (Or.inl ⟨hd2, hres, h.1.symm, h.2.symm⟩)
      · rename_i m ms hres
        simp only [Option.some.injEq, Prod.mk.injEq] at h
        refine Or.inr (Or.inr ⟨hd2, by simp [hres], h.2.symm, ?_⟩)
        rw [← h.1, hres]

theorem emit_inv {p q : Processor} {m : Message} (h : p.emit = some (m, q)) :
    ∃ ms, p.out = m :: ms ∧ q = { p with out := ms } := by
  unfold Processor.emit at h
  split at h
  · exact absurd h (by simp)
  · rename_i m2 ms hout
    simp only [Option.some.injEq, Prod.mk.injEq] at h
    exact ⟨ms, by rw [hout, h.1], h.2.symm⟩

theorem respond_inv {p q : Processor} {r : Response} (h : p.respond r = some q) :
    ∃ j, p.job = some j ∧ j.received.length + p.out.length < j.expected ∧
      q = { p with job := some { j with received := j.received ++ [r] } } := by
  unfold Processor.respond at h
  split at h
  · exact absurd h (by simp)
  · rename_i j hj
    split at h
    · rename_i hlt
      exact ⟨j, hj, hlt, (Option.some.inj h).symm⟩
    · exact absurd h (by simp)

theorem resolve_inv {p q : Processor} {c : Nat} {r : Response} (h : p.resolve = some (q, c, r)) :
    ∃ j, p.job = some j ∧ j.received.length = j.expected ∧
      q = { p with job := none } ∧ c = j.orig.ResponseChan ∧ r = reduce j.received := by
  unfold Processor.resolve at h
  split at h
  · exact absurd h (by simp)
  · rename_i j hj
    split at h
    · rename_i heq
      simp only [Option.some.injEq, Prod.mk.injEq] at h
      exact ⟨j, hj, heq, h.1.symm, h.2.1.symm, h.2.2.symm⟩
    · exact absurd h (by simp)

/-! ## Counting -/

theorem sum_map_set {α : Type} (f : α → Nat) :
    ∀ (l : List α) (i : Nat) (x y : α), l[i]? = some x →
      ((l.set i y).map f).sum + f x = (l.map f).sum + f y := by
  intro l
  induction l with
  | nil => intro i x y h; simp at h
  | cons a l ih =>
    intro i x y h
    cases i with
    | zero =>
      simp only [List.getElem?_cons_zero, Option.some.injEq] at h
      subst h
      simp only [List.set_cons_zero, List.map_cons, List.sum_cons]
      omega
    | succ i =>
      simp only [List.getElem?_cons_succ] at h
      have := ih i x y h
      simp only [List.set_cons_succ, List.map_cons, List.sum_cons]
      omega

theorem sentOn_nil (rc : Nat) : sentOn [] rc = 0 := rfl

theorem sentOn_cons (t : Transaction) (ts : List Transaction) (rc : Nat) :
    sentOn (t :: ts) rc = (if t.ResponseChan = rc then 1 else 0) + sentOn ts rc := by
  unfold sentOn
  by_cases h : t.ResponseChan = rc
  · simp [List.filter_cons, h]; omega
  · simp [List.filter_cons, h]

theorem inflight_append (out : List OutTx) (o : OutTx) (i : Nat) :
    inflight (out ++ [o]) i = inflight out i + (if o.lane = i then 1 else 0) := by
  unfold inflight
  by_cases h : o.lane = i <;> simp [List.filter_append, List.filter_cons, h]

theorem inflight_eraseIdx :
    ∀ (out : List OutTx) (k : Nat) (o : OutTx) (i : Nat), out[k]? = some o →
      inflight (out.eraseIdx k) i + (if o.lane = i then 1 else 0) = inflight out i := by
  intro out
  induction out with
  | nil => intro k o i h; simp at h
  | cons a out ih =>
    intro k o i h
    cases k with
    | zero =>
      simp only [List.getElem?_cons_zero, Option.some.injEq] at h
      subst h
      unfold inflight
      by_cases ha : a.lane = i <;> simp [List.filter_cons, ha]
    | succ k =>
      simp only [List.getElem?_cons_succ] at h
      have := ih k o i h
      unfold inflight at this ⊢
      by_cases ha : a.lane = i <;> simp [List.filter_cons, ha] <;> omega

theorem filter_single (c rc : Nat) (r : Response) :
    ([(c, r)].filter (fun d => d.1 = rc)).length = if c = rc then 1 else 0 := by
  by_cases h : c = rc <;> simp [List.filter_cons, h]

/-! ## Conservation of obligations -/

theorem step_conserves {w w2 : World} {a : Action} (h : step w a = some w2) (rc : Nat) :
    w2.pendingOn rc + w2.deliveredOn rc = w.pendingOn rc + w.deliveredOn rc := by
  cases a with
  | dispatch i =>
    obtain ⟨c, t, rest, l, hc, hch, hl, hin, hjob, rfl⟩ := step_dispatch h
    have hs := sum_map_set (fun l => l.pendingOn rc) w.pool.lanes i l { l with inbox := [t] } hl
    simp only [Lane.pendingOn, hin, hjob, sentOn_nil, sentOn_cons] at hs
    simp only [World.pendingOn, World.inbound, hc, hch, sentOn_cons, World.deliveredOn,
      if_true]
    simp only [Lane.pendingOn] at hs ⊢
    omega
  | process i =>
    obtain ⟨l, t, rest, q, r, hl, hin, hrec, rfl⟩ := step_process h
    have hs := sum_map_set (fun l => l.pendingOn rc) w.pool.lanes i l ⟨q, rest⟩ hl
    obtain ⟨hjob, hcase⟩ := receive_inv hrec
    simp only [World.pendingOn, World.inbound, World.deliveredOn, List.filter_append,
      List.length_append]
    rcases hcase with ⟨_, rfl, rfl⟩ | ⟨_, _, rfl, rfl⟩ | ⟨_, _, rfl, rfl⟩
    · simp only [Lane.pendingOn, hin, hjob, sentOn_cons] at hs
      simp only [Option.toList, List.map_cons, List.map_nil, filter_single, Lane.pendingOn] at hs ⊢
      split_ifs at hs ⊢ <;> omega
    · simp only [Lane.pendingOn, hin, hjob, sentOn_cons] at hs
      simp only [Option.toList, List.map_cons, List.map_nil, filter_single, Lane.pendingOn] at hs ⊢
      split_ifs at hs ⊢ <;> omega
    · simp only [Lane.pendingOn, hin, hjob, sentOn_cons] at hs
      simp only [Option.toList, List.map_nil, List.filter_nil, List.length_nil]
      simp only [Lane.pendingOn] at hs ⊢
      omega
  | relay i =>
    obtain ⟨l, m, q, hl, hem, rfl⟩ := step_relay h
    obtain ⟨ms, _, rfl⟩ := emit_inv hem
    have hs := sum_map_set (fun l => l.pendingOn rc) w.pool.lanes i l
      { l with proc := { l.proc with out := ms } } hl
    simp only [Lane.pendingOn] at hs
    simp only [World.pendingOn, World.inbound, World.deliveredOn, Lane.pendingOn] at hs ⊢
    omega
  | respond k r =>
    obtain ⟨o, l, q, ho, hl, hq, rfl⟩ := step_respond h
    obtain ⟨j, hj, _, rfl⟩ := respond_inv hq
    have hs := sum_map_set (fun l => l.pendingOn rc) w.pool.lanes o.lane l
      { l with proc := { l.proc with job := some { j with received := j.received ++ [r] } } } hl
    simp only [Lane.pendingOn, hj] at hs
    simp only [World.pendingOn, World.inbound, World.deliveredOn, Lane.pendingOn] at hs ⊢
    omega
  | resolve i =>
    obtain ⟨l, q, c, r, hl, hres, rfl⟩ := step_resolve h
    obtain ⟨j, hj, _, rfl, rfl, rfl⟩ := resolve_inv hres
    have hs := sum_map_set (fun l => l.pendingOn rc) w.pool.lanes i l
      { l with proc := { l.proc with job := none } } hl
    simp only [Lane.pendingOn, hj] at hs
    simp only [World.pendingOn, World.inbound, World.deliveredOn, List.filter_append,
      List.length_append]
    simp only [filter_single, Lane.pendingOn] at hs ⊢
    split_ifs at hs ⊢ <;> omega

/-! ## The invariant is preserved -/

theorem get_lt {α : Type} {l : List α} {i : Nat} {x : α} (h : l[i]? = some x) : i < l.length := by
  obtain ⟨hi, _⟩ := List.getElem?_eq_some.mp h
  exact hi

theorem set_get {α : Type} {l : List α} {i k : Nat} {x y : α} (h : (l.set i y)[k]? = some x) :
    (k = i ∧ x = y) ∨ (k ≠ i ∧ l[k]? = some x) := by
  by_cases hk : i = k
  · subst hk
    rw [List.getElem?_set] at h
    simp only [if_true] at h
    split at h
    · exact Or.inl ⟨rfl, (Option.some.inj h).symm⟩
    · exact absurd h (by simp)
  · rw [List.getElem?_set_ne hk] at h
    exact Or.inr ⟨fun e => hk e.symm, h⟩

theorem laneOk_of_inflight_eq {out out2 : List OutTx} {k : Nat} {l : Lane}
    (h : inflight out2 k = inflight out k) (hl : LaneOk out k l) : LaneOk out2 k l := by
  unfold LaneOk at *
  cases hj : l.proc.job with
  | none => rw [hj] at hl; simp only [h]; exact hl
  | some j => rw [hj] at hl; simp only [h]; exact hl

theorem inv_set {w : World} (hw : w.Inv) (i : Nat) (l2 : Lane) (out2 : List OutTx)
    (chans2 : Nat → List Transaction) (del2 : List (Nat × Response))
    (hl2 : LaneOk out2 i l2)
    (hother : ∀ k, k ≠ i → inflight out2 k = inflight w.pool.output k)
    (hmem : ∀ o ∈ out2, o.lane < w.pool.lanes.length) :
    World.Inv ⟨chans2, ⟨w.pool.lanes.set i l2, w.pool.consuming, out2⟩, del2⟩ := by
  refine ⟨?_, ?_⟩
  · intro k l hk
    rcases set_get hk with ⟨rfl, rfl⟩ | ⟨hne, hk2⟩
    · exact hl2
    · exact laneOk_of_inflight_eq (hother k hne) (hw.1 k l hk2)
  · intro o ho
    simp only [List.length_set]
    exact hmem o ho

theorem step_inv {w w2 : World} {a : Action} (hw : w.Inv) (h : step w a = some w2) : w2.Inv := by
  cases a with
  | dispatch i =>
    obtain ⟨c, t, rest, l, hc, hch, hl, hin, hjob, rfl⟩ := step_dispatch h
    refine inv_set hw i _ _ _ _ ?_ (fun _ _ => rfl) hw.2
    have := hw.1 i l hl
    unfold LaneOk at this ⊢
    exact this
  | process i =>
    obtain ⟨l, t, rest, q, r, hl, hin, hrec, rfl⟩ := step_process h
    refine inv_set hw i _ _ _ _ ?_ (fun _ _ => rfl) hw.2
    have hok := hw.1 i l hl
    obtain ⟨hjob, hcase⟩ := receive_inv hrec
    unfold LaneOk at hok ⊢
    rw [hjob] at hok
    rcases hcase with ⟨_, rfl, _⟩ | ⟨_, _, rfl, _⟩ | ⟨_, _, _, rfl⟩
    · simp only [hjob]; exact hok
    · simp only [hjob]; exact hok
    · simp only [hok.1, hok.2, List.nil_append, List.length_nil]
      omega
  | relay i =>
    obtain ⟨l, m, q, hl, hem, rfl⟩ := step_relay h
    obtain ⟨ms, hout, rfl⟩ := emit_inv hem
    refine inv_set hw i _ _ _ _ ?_ ?_ ?_
    · have hok := hw.1 i l hl
      unfold LaneOk at hok ⊢
      cases hj : l.proc.job with
      | none => rw [hj] at hok; rw [hok.1] at hout; exact absurd hout (by simp)
      | some j =>
        rw [hj] at hok
        simp only [hout, List.length_cons] at hok
        simp only [inflight_append, if_true]
        omega
    · intro k hk
      rw [inflight_append]
      have hne : ¬ i = k := fun e => hk e.symm
      simp [hne]
    · intro o ho
      rcases List.mem_append.mp ho with ho | ho
      · exact hw.2 o ho
      · simp only [List.mem_singleton] at ho
        subst ho
        exact get_lt hl
  | respond k r =>
    obtain ⟨o, l, q, ho, hl, hq, rfl⟩ := step_respond h
    obtain ⟨j, hj, hlt, rfl⟩ := respond_inv hq
    refine inv_set hw o.lane _ _ _ _ ?_ ?_ ?_
    · have hok := hw.1 o.lane l hl
      have her := inflight_eraseIdx w.pool.output k o o.lane ho
      unfold LaneOk at hok ⊢
      rw [hj] at hok
      simp only [if_true] at her
      simp only [List.length_append, List.length_cons, List.length_nil]
      omega
    · intro i hi
      have her := inflight_eraseIdx w.pool.output k o i ho
      have hne : ¬ o.lane = i := fun e => hi e.symm
      simp only [hne, if_false] at her
      omega
    · intro o2 ho2
      exact hw.2 o2 (List.mem_of_mem_eraseIdx ho2)
  | resolve i =>
    obtain ⟨l, q, c, r, hl, hres, rfl⟩ := step_resolve h
    obtain ⟨j, hj, heq, rfl, rfl, rfl⟩ := resolve_inv hres
    refine inv_set hw i _ _ _ _ ?_ (fun _ _ => rfl) hw.2
    have hok := hw.1 i l hl
    unfold LaneOk at hok ⊢
    rw [hj] at hok
    refine ⟨?_, ?_⟩
    · apply List.eq_nil_of_length_eq_zero
      show l.proc.out.length = 0
      omega
    · omega

theorem step_frame {w w2 : World} {a : Action} (h : step w a = some w2) :
    w2.pool.consuming = w.pool.consuming ∧ w2.pool.lanes.length = w.pool.lanes.length := by
  cases a with
  | dispatch i =>
    obtain ⟨c, t, rest, l, _, _, _, _, _, rfl⟩ := step_dispatch h
    exact ⟨rfl, List.length_set _ _ _⟩
  | process i =>
    obtain ⟨l, t, rest, q, r, _, _, _, rfl⟩ := step_process h
    exact ⟨rfl, List.length_set _ _ _⟩
  | relay i =>
    obtain ⟨l, m, q, _, _, rfl⟩ := step_relay h
    exact ⟨rfl, List.length_set _ _ _⟩
  | respond k r =>
    obtain ⟨o, l, q, _, _, _, rfl⟩ := step_respond h
    exact ⟨rfl, List.length_set _ _ _⟩
  | resolve i =>
    obtain ⟨l, q, c, r, _, _, rfl⟩ := step_resolve h
    exact ⟨rfl, List.length_set _ _ _⟩

/-! ## Progress -/

theorem sum_map_zero {α : Type} (f : α → Nat) (l : List α) (h : ∀ x ∈ l, f x = 0) :
    (l.map f).sum = 0 := by
  induction l with
  | nil => rfl
  | cons a l ih =>
    simp only [List.map_cons, List.sum_cons]
    rw [h a (List.mem_cons_self a l), ih (fun x hx => h x (List.mem_cons_of_mem a hx))]

theorem receive_of_idle (p : Processor) (t : Transaction) (h : p.job = none) :
    ∃ q r, p.receive t = some (q, r) := by
  unfold Processor.receive
  rw [h]
  simp only
  split
  · exact ⟨_, _, rfl⟩
  · split
    · exact ⟨_, _, rfl⟩
    · exact ⟨_, _, rfl⟩

theorem busy_lane_moves {w : World} (hw : w.Inv) {i : Nat} {l : Lane} {j : Job}
    (hl : w.pool.lanes[i]? = some l) (hj : l.proc.job = some j) :
    ∃ a w2, step w a = some w2 := by
  have hok := hw.1 i l hl
  unfold LaneOk at hok
  rw [hj] at hok
  by_cases hdone : j.received.length = j.expected
  · refine ⟨Action.resolve i, ?_⟩
    simp [step, hl, Processor.resolve, hj, hdone]
  · cases hout : l.proc.out with
    | cons m ms =>
      refine ⟨Action.relay i, ?_⟩
      simp [step, hl, Processor.emit, hout]
    | nil =>
      rw [hout] at hok
      simp only [List.length_nil, Nat.add_zero] at hok
      have hpos : 0 < inflight w.pool.output i := by omega
      unfold inflight at hpos
      obtain ⟨o, ho⟩ := List.exists_mem_of_length_pos hpos
      obtain ⟨hmem, hlane⟩ := List.mem_filter.mp ho
      have hlane2 : o.lane = i := by simpa using hlane
      obtain ⟨k, hk⟩ := List.mem_iff_getElem?.mp hmem
      have hguard : j.received.length + l.proc.out.length < j.expected := by
        rw [hout]
        simp only [List.length_nil, Nat.add_zero]
        unfold inflight at hok
        omega
      refine ⟨Action.respond k Response.ack, ?_⟩
      simp [step, hk, hlane2, hl, Processor.respond, hj, hguard]

theorem progress {w : World} (hw : w.Inv) (hlanes : 0 < w.pool.lanes.length) (rc : Nat)
    (hp : 0 < w.pendingOn rc) : ∃ a w2, step w a = some w2 := by
  by_cases hbusy : ∃ (i : Nat) (l : Lane), w.pool.lanes[i]? = some l ∧ l.proc.job ≠ none
  · obtain ⟨i, l, hl, hj⟩ := hbusy
    obtain ⟨j, hj2⟩ := Option.ne_none_iff_exists'.mp hj
    exact busy_lane_moves hw hl hj2
  · have hidle : ∀ (i : Nat) (l : Lane), w.pool.lanes[i]? = some l → l.proc.job = none := by
      intro i l hl
      by_contra hne
      exact hbusy ⟨i, l, hl, hne⟩
    by_cases hin : ∃ (i : Nat) (l : Lane), w.pool.lanes[i]? = some l ∧ l.inbox ≠ []
    · obtain ⟨i, l, hl, hne⟩ := hin
      cases hbox : l.inbox with
      | nil => exact absurd hbox hne
      | cons t rest =>
        obtain ⟨q, r, hrec⟩ := receive_of_idle l.proc t (hidle i l hl)
        refine ⟨Action.process i, ?_⟩
        simp [step, hl, hbox, hrec]
    · have hempty : ∀ (i : Nat) (l : Lane), w.pool.lanes[i]? = some l → l.inbox = [] := by
        intro i l hl
        by_contra hne
        exact hin ⟨i, l, hl, hne⟩
      have hzero : (w.pool.lanes.map (fun l => l.pendingOn rc)).sum = 0 := by
        apply sum_map_zero
        intro l hmem
        obtain ⟨i, hi⟩ := List.mem_iff_getElem?.mp hmem
        simp [Lane.pendingOn, hempty i l hi, hidle i l hi, sentOn_nil]
      unfold World.pendingOn at hp
      rw [hzero] at hp
      have hsent : 0 < sentOn w.inbound rc := by omega
      unfold World.inbound at hsent
      cases hc : w.pool.consuming with
      | none => rw [hc] at hsent; simp [sentOn_nil] at hsent
      | some c =>
        rw [hc] at hsent
        simp only at hsent
        cases hch : w.chans c with
        | nil => rw [hch] at hsent; simp [sentOn_nil] at hsent
        | cons t rest =>
          obtain ⟨l, hl⟩ : ∃ l, w.pool.lanes[0]? = some l := by
            cases hls : w.pool.lanes with
            | nil => rw [hls] at hlanes; simp at hlanes
            | cons l ls => exact ⟨l, by simp⟩
          refine ⟨Action.dispatch 0, ?_⟩
          simp [step, hc, hch, hl, Lane.available, hempty 0 l hl, hidle 0 l hl]

/-! ## Termination -/

theorem step_decreases {w w2 : World} {a : Action} (h : step w a = some w2) :
    Prod.Lex (· < ·) (· < ·) w2.measure w.measure := by
  rw [Prod.lex_def]
  cases a with
  | dispatch i =>
    obtain ⟨c, t, rest, l, hc, hch, hl, hin, hjob, rfl⟩ := step_dispatch h
    left
    have hs := sum_map_set (fun l => l.inbox.length) w.pool.lanes i l { l with inbox := [t] } hl
    simp only [hin, List.length_nil, List.length_cons] at hs
    simp only [World.measure, World.unprocessed, World.inbound, hc, hch, List.length_cons, if_true]
    omega
  | process i =>
    obtain ⟨l, t, rest, q, r, hl, hin, hrec, rfl⟩ := step_process h
    left
    have hs := sum_map_set (fun l => l.inbox.length) w.pool.lanes i l ⟨q, rest⟩ hl
    simp only [hin, List.length_cons] at hs
    simp only [World.measure, World.unprocessed, World.inbound]
    omega
  | relay i =>
    obtain ⟨l, m, q, hl, hem, rfl⟩ := step_relay h
    obtain ⟨ms, hout, rfl⟩ := emit_inv hem
    right
    have hs1 := sum_map_set (fun l => l.inbox.length) w.pool.lanes i l
      { l with proc := { l.proc with out := ms } } hl
    have hs2 := sum_map_set
      (fun l => 2 * l.proc.out.length + (if l.proc.job.isSome then 1 else 0)) w.pool.lanes i l
      { l with proc := { l.proc with out := ms } } hl
    simp only [hout, List.length_cons] at hs2
    dsimp only at hs1
    simp only [World.measure, World.unprocessed, World.unfinished, World.inbound,
      List.length_append, List.length_cons, List.length_nil]
    constructor <;> omega
  | respond k r =>
    obtain ⟨o, l, q, ho, hl, hq, rfl⟩ := step_respond h
    obtain ⟨j, hj, hlt, rfl⟩ := respond_inv hq
    right
    have hs1 := sum_map_set (fun l => l.inbox.length) w.pool.lanes o.lane l
      { l with proc := { l.proc with job := some { j with received := j.received ++ [r] } } } hl
    have hs2 := sum_map_set
      (fun l => 2 * l.proc.out.length + (if l.proc.job.isSome then 1 else 0)) w.pool.lanes o.lane l
      { l with proc := { l.proc with job := some { j with received := j.received ++ [r] } } } hl
    simp only [hj, Option.isSome_some, if_true] at hs2
    dsimp only at hs1
    have hk := get_lt ho
    simp only [World.measure, World.unprocessed, World.unfinished, World.inbound,
      List.length_eraseIdx, hk, if_true]
    constructor <;> omega
  | resolve i =>
    obtain ⟨l, q, c, r, hl, hres, rfl⟩ := step_resolve h
    obtain ⟨j, hj, heq, rfl, rfl, rfl⟩ := resolve_inv hres
    right
    have hs1 := sum_map_set (fun l => l.inbox.length) w.pool.lanes i l
      { l with proc := { l.proc with job := none } } hl
    have hs2 := sum_map_set
      (fun l => 2 * l.proc.out.length + (if l.proc.job.isSome then 1 else 0)) w.pool.lanes i l
      { l with proc := { l.proc with job := none } } hl
    simp only [hj, Option.isSome_some, Option.isSome_none, if_true, Bool.false_eq_true,
      if_false] at hs2
    dsimp only at hs1
    simp only [World.measure, World.unprocessed, World.unfinished, World.inbound]
    constructor <;> omega

theorem next_wf : WellFounded Next := by
  have hlex : WellFounded (Prod.Lex (fun a b : Nat => a < b) (fun a b : Nat => a < b)) :=
    WellFounded.prod_lex Nat.lt_wfRel.wf Nat.lt_wfRel.wf
  refine Subrelation.wf ?_ (InvImage.wf World.measure hlex)
  intro w2 w1 hstep
  obtain ⟨a, ha⟩ := hstep
  exact step_decreases ha

theorem reaches_quiescence (w : World) : ∃ bs w2, exec w bs = some w2 ∧ w2.quiescent := by
  induction w using next_wf.induction with
  | _ w ih =>
    by_cases hq : w.quiescent
    · exact ⟨[], w, rfl, hq⟩
    · unfold World.quiescent at hq
      push_neg at hq
      obtain ⟨a, ha⟩ := hq
      obtain ⟨w1, hw1⟩ := Option.ne_none_iff_exists'.mp ha
      obtain ⟨bs, w2, hex, hq2⟩ := ih w1 ⟨a, hw1⟩
      refine ⟨a :: bs, w2, ?_, hq2⟩
      simp only [exec, hw1]
      exact hex

/-! ## Runs from the start world -/

theorem exec_invariants {as : List Action} :
    ∀ {w w2 : World}, exec w as = some w2 → w.Inv →
      w2.Inv ∧ w2.pool.lanes.length = w.pool.lanes.length ∧
        ∀ rc, w2.pendingOn rc + w2.deliveredOn rc = w.pendingOn rc + w.deliveredOn rc := by
  induction as with
  | nil =>
    intro w w2 h hw
    simp only [exec, Option.some.injEq] at h
    subst h
    exact ⟨hw, rfl, fun _ => rfl⟩
  | cons a as ih =>
    intro w w2 h hw
    simp only [exec] at h
    split at h
    · exact absurd h (by simp)
    · rename_i w1 hstep
      obtain ⟨hinv, hlen, hcons⟩ := ih h (step_inv hw hstep)
      refine ⟨hinv, by rw [hlen, (step_frame hstep).2], fun rc => ?_⟩
      rw [hcons rc, step_conserves hstep rc]

theorem start_lane {chains : Nat → Stage} {K c : Nat} {chans : Nat → List Transaction}
    {i : Nat} {l : Lane} (h : (World.start chains K c chans).pool.lanes[i]? = some l) :
    l.proc.job = none ∧ l.proc.out = [] ∧ l.inbox = [] := by
  simp only [World.start, NewPool, Pool.Consume, List.getElem?_map] at h
  cases hr : (List.range K)[i]? with
  | none => rw [hr] at h; simp at h
  | some n =>
    rw [hr] at h
    simp only [Option.map_some', Option.some.injEq] at h
    subst h
    exact ⟨rfl, rfl, rfl⟩

theorem start_inv (chains : Nat → Stage) (K c : Nat) (chans : Nat → List Transaction) :
    (World.start chains K c chans).Inv := by
  refine ⟨?_, ?_⟩
  · intro i l hl
    obtain ⟨hj, ho, _⟩ := start_lane hl
    unfold LaneOk
    rw [hj]
    exact ⟨ho, rfl⟩
  · intro o ho
    simp [World.start, NewPool, Pool.Consume] at ho

theorem start_length (chains : Nat → Stage) (K c : Nat) (chans : Nat → List Transaction) :
    (World.start chains K c chans).pool.lanes.length = K := by
  simp [World.start, NewPool, Pool.Consume]

theorem start_owed (chains : Nat → Stage) (K c : Nat) (chans : Nat → List Transaction)
    (rc : Nat) :
    (World.start chains K c chans).pendingOn rc + (World.start chains K c chans).deliveredOn rc =
      sentOn (chans c) rc := by
  have hzero : ((World.start chains K c chans).pool.lanes.map (fun l => l.pendingOn rc)).sum = 0 := by
    apply sum_map_zero
    intro l hmem
    obtain ⟨i, hi⟩ := List.mem_iff_getElem?.mp hmem
    obtain ⟨hj, _, hin⟩ := start_lane hi
    simp [Lane.pendingOn, hj, hin, sentOn_nil]
  unfold World.pendingOn
  rw [hzero]
  simp [World.start, NewPool, Pool.Consume, World.inbound, World.deliveredOn]

theorem sentOn_of_nodup :
    ∀ (ts : List Transaction), (ts.map (fun t => t.ResponseChan)).Nodup →
      ∀ t ∈ ts, sentOn ts t.ResponseChan = 1 := by
  intro ts
  induction ts with
  | nil => intro _ t ht; simp at ht
  | cons a ts ih =>
    intro hnd t ht
    simp only [List.map_cons, List.nodup_cons, List.mem_map, not_exists, not_and] at hnd
    rw [sentOn_cons]
    rcases List.mem_cons.mp ht with rfl | hmem
    · have hz : sentOn ts t.ResponseChan = 0 := by
        unfold sentOn
        rw [List.length_eq_zero, List.filter_eq_nil_iff]
        intro x hx
        simpa using hnd.1 x hx
      simp [hz]
    · have hne : ¬ a.ResponseChan = t.ResponseChan := fun e => hnd.1 t hmem e.symm
      simp [hne, ih hnd.2 t hmem]

/-- C1: single-resolution invariant of the Pool. A Pool of `K >= 1` Lanes
(any Stage chain per Lane) is bound to the input channel `c`, on which any
batch of Transactions is pending; the workers and the sink then act in any
order. (1) In every world any run reaches, the Responses delivered on a
response channel never outnumber the Transactions sent with that channel.
(2) While a Response is still owed, some worker or the sink can act. (3) No
run goes on forever. (4) When nothing can act any more, the Responses
delivered on each response channel are exactly as many as the Transactions
sent with it: exactly one on the own channel of every Transaction when the
channels of the batch are distinct. (5) From every reachable world such a
completed run exists. -/
theorem pool_single_resolution (chains : Nat → Stage) (K : Nat) (hK : 1 ≤ K) (c : Nat)
    (chans : Nat → List Transaction) :
    (∀ as w, exec (World.start chains K c chans) as = some w →
        ∀ rc, w.deliveredOn rc ≤ sentOn (chans c) rc) ∧
      (∀ as w, exec (World.start chains K c chans) as = some w →
        (∃ rc, w.deliveredOn rc < sentOn (chans c) rc) → ∃ a w2, step w a = some w2) ∧
      WellFounded Next ∧
      (∀ as w, exec (World.start chains K c chans) as = some w → w.quiescent →
        (∀ rc, w.deliveredOn rc = sentOn (chans c) rc) ∧
          (((chans c).map (fun t => t.ResponseChan)).Nodup →
            ∀ t ∈ chans c, w.deliveredOn t.ResponseChan = 1)) ∧
      (∀ as w, exec (World.start chains K c chans) as = some w →
        ∃ bs w2, exec w bs = some w2 ∧ w2.quiescent) := by
  have hreach : ∀ as w, exec (World.start chains K c chans) as = some w →
      w.Inv ∧ w.pool.lanes.length = K ∧
        ∀ rc, w.pendingOn rc + w.deliveredOn rc = sentOn (chans c) rc := by
    intro as w h
    obtain ⟨hinv, hlen, hcons⟩ := exec_invariants h (start_inv chains K c chans)
    refine ⟨hinv, by rw [hlen, start_length], fun rc => ?_⟩
    rw [hcons rc, start_owed]
  have hmove : ∀ as w, exec (World.start chains K c chans) as = some w →
      (∃ rc, w.deliveredOn rc < sentOn (chans c) rc) → ∃ a w2, step w a = some w2 := by
    intro as w h hrc
    obtain ⟨rc, hlt⟩ := hrc
    obtain ⟨hinv, hlen, hcons⟩ := hreach as w h
    have := hcons rc
    exact progress hinv (by omega) rc (by omega)
  have hexact : ∀ as w, exec (World.start chains K c chans) as = some w → w.quiescent →
      ∀ rc, w.deliveredOn rc = sentOn (chans c) rc := by
    intro as w h hq rc
    obtain ⟨_, _, hcons⟩ := hreach as w h
    have hle : w.deliveredOn rc ≤ sentOn (chans c) rc := by have := hcons rc; omega
    rcases Nat.lt_or_ge (w.deliveredOn rc) (sentOn (chans c) rc) with hlt | hge
    · obtain ⟨a, w2, hstep⟩ := hmove as w h ⟨rc, hlt⟩
      rw [hq a] at hstep
      exact absurd hstep (by simp)
    · omega
  refine ⟨?_, hmove, next_wf, ?_, fun _ w _ => reaches_quiescence w⟩
  · intro as w h rc
    obtain ⟨_, _, hcons⟩ := hreach as w h
    have := hcons rc
    omega
  · intro as w h hq
    refine ⟨hexact as w h hq, fun hnd t ht => ?_⟩
    rw [hexact as w h hq, sentOn_of_nodup (chans c) hnd t ht]

theorem pool_single_resolution_witness :
    1 ≤ 2 ∧ ∀ w, exec (World.start (fun _ m => ⟨[m, m], false, ""⟩) 2 7
        (fun _ => [⟨[], 100⟩, ⟨[], 101⟩]))
        [Action.dispatch 1, Action.process 1, Action.dispatch 0, Action.relay 1] = some w →
      w.deliveredOn 100 ≤ 1 :=
  ⟨by decide, fun w h =>
    (pool_single_resolution (fun _ m => ⟨[m, m], false, ""⟩) 2 (by decide) 7
      (fun _ => [⟨[], 100⟩, ⟨[], 101⟩])).1 _ w h 100⟩

/-! ## The join of one Processor -/

theorem reduce_nil : reduce [] = Response.ack := rfl

theorem reduce_cons (r : Response) (rs : List Response) :
    reduce (r :: rs) = if r.err.isSome then r else reduce rs := by
  unfold reduce
  by_cases h : r.err.isSome = true <;> simp [List.find?_cons, h]

theorem reduce_spec (rs : List Response) :
    ((reduce rs).err = none ↔ ∀ r ∈ rs, r.err = none) ∧
      ((reduce rs).err ≠ none → reduce rs ∈ rs) := by
  induction rs with
  | nil => simp [reduce_nil, Response.ack]
  | cons r rs ih =>
    rw [reduce_cons]
    by_cases h : r.err.isSome = true
    · have hne : r.err ≠ none := by
        intro e; rw [e] at h; simp at h
      simp only [h, if_true]
      exact ⟨⟨fun e => absurd e hne, fun e => absurd (e r (List.mem_cons_self r rs)) hne⟩,
        fun _ => List.mem_cons_self r rs⟩
    · have hnone : r.err = none := by
        cases he : r.err with
        | none => rfl
        | some x => rw [he] at h; simp at h
      simp only [h, if_false, Bool.false_eq_true]
      refine ⟨⟨fun e x hx => ?_, fun e => ih.1.mpr (fun x hx => e x (List.mem_cons_of_mem r hx))⟩,
        fun hx => List.mem_cons_of_mem r (ih.2 hx)⟩
      rcases List.mem_cons.mp hx with rfl | hmem
      · exact hnone
      · exact ih.1.mp e x hmem

theorem idle_run {p q : Processor} {evs : List Event} {d : List (Nat × Response)}
    (hjob : p.job = none) (hout : p.out = []) (h : p.run evs = some (q, d)) :
    evs = [] ∧ d = [] := by
  cases evs with
  | nil =>
    simp only [Processor.run, Option.some.injEq, Prod.mk.injEq] at h
    exact ⟨rfl, h.2.symm⟩
  | cons e es =>
    have hnone : p.event e = none := by
      cases e <;>
        simp [Processor.event, Processor.emit, Processor.respond, Processor.resolve, hjob, hout]
    simp [Processor.run, hnone] at h

theorem busy_run (t : Transaction) (N : Nat) :
    ∀ (evs : List Event) (p q : Processor) (rcv : List Response) (d : List (Nat × Response)),
      p.job = some ⟨t, N, rcv⟩ → rcv.length + p.out.length ≤ N → p.run evs = some (q, d) →
      d = [] ∨ (d = [(t.ResponseChan, reduce (rcv ++ responsesOf evs))] ∧
        (rcv ++ responsesOf evs).length = N) := by
  intro evs
  induction evs with
  | nil =>
    intro p q rcv d _ _ h
    simp only [Processor.run, Option.some.injEq, Prod.mk.injEq] at h
    exact Or.inl h.2.symm
  | cons e es ih =>
    intro p q rcv d hjob hle h
    simp only [Processor.run] at h
    split at h
    · exact absurd h (by simp)
    · rename_i p1 d1 hev
      split at h
      · exact absurd h (by simp)
      · rename_i q2 d2 hrun
        simp only [Option.some.injEq, Prod.mk.injEq] at h
        obtain ⟨_, rfl⟩ := h
        cases e with
        | emit =>
          simp only [Processor.event, Option.map_eq_some'] at hev
          obtain ⟨⟨m, p2⟩, hem, hpair⟩ := hev
          simp only [Prod.mk.injEq] at hpair
          obtain ⟨rfl, rfl⟩ := hpair
          obtain ⟨ms, hout, rfl⟩ := emit_inv hem
          have hle2 : rcv.length + ms.length ≤ N := by
            rw [hout] at hle
            simp only [List.length_cons] at hle
            omega
          have := ih { p with out := ms } q2 rcv d2 hjob hle2 hrun
          simpa [responsesOf] using this
        | respond r =>
          simp only [Processor.event, Option.map_eq_some'] at hev
          obtain ⟨p2, hresp, hpair⟩ := hev
          simp only [Prod.mk.injEq] at hpair
          obtain ⟨rfl, rfl⟩ := hpair
          obtain ⟨j, hj, hlt, rfl⟩ := respond_inv hresp
          rw [hjob] at hj
          simp only [Option.some.injEq] at hj
          subst hj
          have hle2 : (rcv ++ [r]).length + p.out.length ≤ N := by
            simp only [List.length_append, List.length_cons, List.length_nil]
            simp only at hlt
            omega
          have := ih { p with job := some ⟨t, N, rcv ++ [r]⟩ } q2 (rcv ++ [r]) d2 rfl hle2 hrun
          simpa [responsesOf] using this
        | resolve =>
          simp only [Processor.event, Option.map_eq_some'] at hev
          obtain ⟨⟨p2, c, r⟩, hres, hpair⟩ := hev
          simp only [Prod.mk.injEq] at hpair
          obtain ⟨rfl, rfl⟩ := hpair
          obtain ⟨j, hj, heq, rfl, rfl, rfl⟩ := resolve_inv hres
          rw [hjob] at hj
          simp only [Option.some.injEq] at hj
          subst hj
          simp only at heq
          have hout : p.out = [] := by
            apply List.eq_nil_of_length_eq_zero
            omega
          obtain ⟨rfl, rfl⟩ := idle_run (p := { p with job := none }) rfl hout hrun
          right
          simp [responsesOf, heq]

theorem run_cons_silent {p q : Processor} {e : Event} (es : List Event)
    (h : p.event e = some (q, [])) : p.run (e :: es) = q.run es := by
  simp only [Processor.run, h]
  cases q.run es with
  | none => rfl
  | some x => rfl

theorem run_emits (es : List Event) :
    ∀ (ms : List Message) (p : Processor), p.out = ms →
      p.run (List.replicate ms.length Event.emit ++ es) = ({ p with out := [] } : Processor).run es := by
  intro ms
  induction ms with
  | nil =>
    intro p hout
    have hp : ({ p with out := [] } : Processor) = p := by
      cases p
      simp only at hout
      subst hout
      rfl
    rw [hp]
    rfl
  | cons m ms ih =>
    intro p hout
    have hev : p.event Event.emit = some ({ p with out := ms }, []) := by
      simp [Processor.event, Processor.emit, hout]
    simp only [List.length_cons, List.replicate_succ, List.cons_append]
    rw [run_cons_silent _ hev]
    exact ih { p with out := ms } rfl

theorem run_responds (t : Transaction) (N : Nat) (es : List Event) :
    ∀ (rs : List Response) (p : Processor) (rcv : List Response),
      p.job = some ⟨t, N, rcv⟩ → p.out = [] → rcv.length + rs.length ≤ N →
      p.run (rs.map Event.respond ++ es) =
        ({ p with job := some ⟨t, N, rcv ++ rs⟩ } : Processor).run es := by
  intro rs
  induction rs with
  | nil =>
    intro p rcv hjob _ _
    have hp : ({ p with job := some ⟨t, N, rcv ++ []⟩ } : Processor) = p := by
      cases p
      simp only at hjob
      subst hjob
      simp
    rw [hp]
    rfl
  | cons r rs ih =>
    intro p rcv hjob hout hle
    simp only [List.length_cons] at hle
    have hev : p.event (Event.respond r) =
        some ({ p with job := some ⟨t, N, rcv ++ [r]⟩ }, []) := by
      have hlt : rcv.length < N := by omega
      simp [Processor.event, Processor.respond, hjob, hout, hlt]
    simp only [List.map_cons, List.cons_append]
    rw [run_cons_silent _ hev]
    have := ih { p with job := some ⟨t, N, rcv ++ [r]⟩ } (rcv ++ [r]) rfl hout
      (by simp only [List.length_append, List.length_cons, List.length_nil]; omega)
    simpa using this

theorem run_resolve (t : Transaction) (N : Nat) (p : Processor) (rcv : List Response)
    (hjob : p.job = some ⟨t, N, rcv⟩) (hlen : rcv.length = N) :
    p.run [Event.resolve] = some ({ p with job := none }, [(t.ResponseChan, reduce rcv)]) := by
  simp [Processor.run, Processor.event, Processor.resolve, hjob, hlen]

theorem step_lane {w w2 : World} {a : Action} {i : Nat} {l l2 : Lane}
    (h : step w a = some w2) (hl : w.pool.lanes[i]? = some l)
    (hl2 : w2.pool.lanes[i]? = some l2) :
    l2.proc = l.proc ∨
      (∃ e d, l.proc.event e = some (l2.proc, d) ∧ w2.delivered = w.delivered ++ d) ∨
      (∃ t r, l.proc.receive t = some (l2.proc, r)) := by
  have same : ∀ {k : Nat} {x : Lane}, (w.pool.lanes.set k x)[i]? = some l2 →
      (i = k ∧ l2 = x) ∨ l2 = l := by
    intro k x hx
    rcases set_get hx with ⟨rfl, rfl⟩ | ⟨_, hk⟩
    · exact Or.inl ⟨rfl, rfl⟩
    · rw [hl] at hk
      exact Or.inr (Option.some.inj hk).symm
  cases a with
  | dispatch k =>
    obtain ⟨c, t, rest, lk, _, _, hlk, _, _, rfl⟩ := step_dispatch h
    rcases same hl2 with ⟨rfl, rfl⟩ | rfl
    · rw [hl] at hlk
      obtain rfl := Option.some.inj hlk
      exact Or.inl rfl
    · exact Or.inl rfl
  | process k =>
    obtain ⟨lk, t, rest, q, r, hlk, _, hrec, rfl⟩ := step_process h
    rcases same hl2 with ⟨rfl, rfl⟩ | rfl
    · rw [hl] at hlk
      obtain rfl := Option.some.inj hlk
      exact Or.inr (Or.inr ⟨t, r, hrec⟩)
    · exact Or.inl rfl
  | relay k =>
    obtain ⟨lk, m, q, hlk, hem, rfl⟩ := step_relay h
    rcases same hl2 with ⟨rfl, rfl⟩ | rfl
    · rw [hl] at hlk
      obtain rfl := Option.some.inj hlk
      refine Or.inr (Or.inl ⟨Event.emit, [], ?_, by simp⟩)
      simp [Processor.event, hem]
    · exact Or.inl rfl
  | respond k r =>
    obtain ⟨o, lk, q, _, hlk, hq, rfl⟩ := step_respond h
    rcases same hl2 with ⟨rfl, rfl⟩ | rfl
    · rw [hl] at hlk
      obtain rfl := Option.some.inj hlk
      refine Or.inr (Or.inl ⟨Event.respond r, [], ?_, by simp⟩)
      simp [Processor.event, hq]
    · exact Or.inl rfl
  | resolve k =>
    obtain ⟨lk, q, c, r, hlk, hres, rfl⟩ := step_resolve h
    rcases same hl2 with ⟨rfl, rfl⟩ | rfl
    · rw [hl] at hlk
      obtain rfl := Option.some.inj hlk
      refine Or.inr (Or.inl ⟨Event.resolve, [(c, r)], ?_, rfl⟩)
      simp [Processor.event, hres]
    · exact Or.inl rfl

/-- C2: fan-in reduction. An idle Processor (the Processor of a Lane) receives
a Transaction whose Stage chain does not reject it and yields `N >= 1` result
messages. (1) No Response is resolved at reception. (2) Whatever Events then
happen to the Processor, a Response is delivered to the original sender only
on the channel of that Transaction, only when exactly `N` downstream Responses
have arrived, and it is their reduction. (3) For every `N` downstream
Responses, taking the `N` results, answering them and completing the join does
deliver that reduction. (4) The reduction is success if and only if all the
Responses are success, and otherwise it is one of the failing Responses.
(5) Every action of the Pool changes the Processor of a Lane only by a
reception or by one such Event, delivering exactly what the Event delivers. -/
theorem fan_in_reduction (p : Processor) (t : Transaction)
    (hjob : p.job = none) (hout : p.out = [])
    (hdrop : (p.chain t.Payload).dropped = false)
    (hN : 1 ≤ (p.chain t.Payload).results.length) :
    ∃ q, p.receive t = some (q, none) ∧
      (∀ evs q2 d, q.run evs = some (q2, d) →
        d = [] ∨ (d = [(t.ResponseChan, reduce (responsesOf evs))] ∧
          (responsesOf evs).length = (p.chain t.Payload).results.length)) ∧
      (∀ rs : List Response, rs.length = (p.chain t.Payload).results.length →
        ∃ q2, q.run (List.replicate rs.length Event.emit ++ (rs.map Event.respond ++
            [Event.resolve])) = some (q2, [(t.ResponseChan, reduce rs)])) ∧
      (∀ rs : List Response, ((reduce rs).err = none ↔ ∀ r ∈ rs, r.err = none) ∧
        ((reduce rs).err ≠ none → reduce rs ∈ rs)) ∧
      (∀ (w w2 : World) (a : Action) (i : Nat) (l l2 : Lane), step w a = some w2 →
        w.pool.lanes[i]? = some l → w2.pool.lanes[i]? = some l2 →
        l2.proc = l.proc ∨
          (∃ e d, l.proc.event e = some (l2.proc, d) ∧ w2.delivered = w.delivered ++ d) ∨
          (∃ t2 r, l.proc.receive t2 = some (l2.proc, r))) := by
  obtain ⟨q, r, hrec⟩ := receive_of_idle p t hjob
  obtain ⟨_, hcase⟩ := receive_inv hrec
  have hne : (p.chain t.Payload).results ≠ [] := by
    intro e
    rw [e] at hN
    simp at hN
  rcases hcase with ⟨hd, _, _⟩ | ⟨_, hres, _, _⟩ | ⟨_, _, rfl, rfl⟩
  · rw [hdrop] at hd
    exact absurd hd (by simp)
  · exact absurd hres hne
  · refine ⟨_, hrec, ?_, ?_, reduce_spec, fun w w2 a i l l2 h hl hl2 => step_lane h hl hl2⟩
    · intro evs q2 d hrun
      have := busy_run t (p.chain t.Payload).results.length evs _ q2 [] d rfl
        (by simp [hout]) hrun
      simpa using this
    · intro rs hlen
      refine ⟨⟨p.chain, p.consuming, none, []⟩, ?_⟩
      rw [hlen]
      rw [run_emits _ (p.chain t.Payload).results _ (by simp [hout])]
      rw [run_responds t (p.chain t.Payload).results.length _ rs _ [] rfl rfl
        (by simp [hlen])]
      exact run_resolve t _ _ _ rfl (by simp [hlen])

theorem fan_in_reduction_witness :
    ∃ q, (NewProcessor (fun m => ⟨[m, m], false, ""⟩)).receive ⟨[], 100⟩ = some (q, none) ∧
      ∃ q2, q.run [Event.emit, Event.emit, Event.respond Response.ack,
          Event.respond ⟨some "bad"⟩, Event.resolve] = some (q2, [(100, ⟨some "bad"⟩)]) :=
  match fan_in_reduction (NewProcessor (fun m => ⟨[m, m], false, ""⟩)) ⟨[], 100⟩ rfl rfl rfl
      (by decide) with
  | ⟨q, hrec, _, hpos, _⟩ => ⟨q, hrec, hpos [Response.ack, ⟨some "bad"⟩] rfl⟩

/-! ## Rejection and empty results -/

/-- C3: rejection. A Lane that is ready to receive takes the Transaction `t`
handed to it, and its Stage chain rejects the message with the error `e`. The
action then delivers exactly one Response, carrying `e`, on the response
channel of `t`, and emits nothing: the shared output channel and the Lane's
own output stream are unchanged and the Lane has no Transaction in progress.
When the world satisfies the invariant of the Pool (as every world reached
from a start world does), the Lane then holds no result message to relay and
no result Transaction of the Lane is on the shared output channel, so none
exists for this input. -/
theorem rejection_answered_with_error (w : World) (i : Nat) (l : Lane) (t : Transaction)
    (rest : List Transaction) (e : String)
    (hl : w.pool.lanes[i]? = some l) (hin : l.inbox = t :: rest) (hjob : l.proc.job = none)
    (hdrop : (l.proc.chain t.Payload).dropped = true)
    (he : (l.proc.chain t.Payload).reason = e) :
    ∃ w2, step w (Action.process i) = some w2 ∧
      w2.delivered = w.delivered ++ [(t.ResponseChan, ⟨some e⟩)] ∧
      w2.pool.output = w.pool.output ∧
      w2.pool.lanes = w.pool.lanes.set i ⟨l.proc, rest⟩ ∧
      w2.chans = w.chans ∧
      (w.Inv → w2.Inv ∧ l.proc.out = [] ∧ inflight w2.pool.output i = 0) := by
  have hrec : l.proc.receive t = some (l.proc, some ⟨some e⟩) := by
    simp [Processor.receive, hjob, hdrop, he]
  have hstep : step w (Action.process i) = some { w with
      pool := { w.pool with lanes := w.pool.lanes.set i ⟨l.proc, rest⟩ }
      delivered := w.delivered ++ [(t.ResponseChan, ⟨some e⟩)] } := by
    simp only [step, hl, hin, hrec]
    rfl
  refine ⟨_, hstep, rfl, rfl, rfl, rfl, fun hw => ⟨step_inv hw hstep, ?_⟩⟩
  have hok := hw.1 i l hl
  unfold LaneOk at hok
  rw [hjob] at hok
  exact hok

theorem rejection_answered_with_error_witness :
    ∃ w2, step ⟨fun _ => [], ⟨[⟨NewProcessor (fun _ => ⟨[], true, "mock proc error"⟩),
        [⟨[], 100⟩]⟩], some 7, []⟩, []⟩ (Action.process 0) = some w2 ∧
      w2.delivered = [(100, ⟨some "mock proc error"⟩)] ∧ w2.pool.output = [] :=
  match rejection_answered_with_error
      ⟨fun _ => [], ⟨[⟨NewProcessor (fun _ => ⟨[], true, "mock proc error"⟩),
        [⟨[], 100⟩]⟩], some 7, []⟩, []⟩ 0
      ⟨NewProcessor (fun _ => ⟨[], true, "mock proc error"⟩), [⟨[], 100⟩]⟩ ⟨[], 100⟩ []
      "mock proc error" rfl rfl rfl rfl rfl with
  | ⟨w2, hstep, hdel, hout, _⟩ => ⟨w2, hstep, hdel, hout⟩

/-- C4: empty result. A Lane that is ready to receive takes the Transaction
`t` handed to it, and its Stage chain does not reject the message and yields
no result message. The action then delivers exactly one Response, success, on
the response channel of `t`, and emits nothing: the shared output channel and
the Lane's own output stream are unchanged and the Lane has no Transaction in
progress. When the world satisfies the invariant of the Pool (as every world
reached from a start world does), the Lane then holds no result message to
relay and no result Transaction of the Lane is on the shared output channel. -/
theorem empty_result_answered_with_success (w : World) (i : Nat) (l : Lane) (t : Transaction)
    (rest : List Transaction)
    (hl : w.pool.lanes[i]? = some l) (hin : l.inbox = t :: rest) (hjob : l.proc.job = none)
    (hdrop : (l.proc.chain t.Payload).dropped = false)
    (hres : (l.proc.chain t.Payload).results = []) :
    ∃ w2, step w (Action.process i) = some w2 ∧
      w2.delivered = w.delivered ++ [(t.ResponseChan, ⟨none⟩)] ∧
      w2.pool.output = w.pool.output ∧
      w2.pool.lanes = w.pool.lanes.set i ⟨l.proc, rest⟩ ∧
      w2.chans = w.chans ∧
      (w.Inv → w2.Inv ∧ l.proc.out = [] ∧ inflight w2.pool.output i = 0) := by
  have hrec : l.proc.receive t = some (l.proc, some Response.ack) := by
    simp [Processor.receive, hjob, hdrop, hres]
  have hstep : step w (Action.process i) = some { w with
      pool := { w.pool with lanes := w.pool.lanes.set i ⟨l.proc, rest⟩ }
      delivered := w.delivered ++ [(t.ResponseChan, ⟨none⟩)] } := by
    simp only [step, hl, hin, hrec]
    rfl
  refine ⟨_, hstep, rfl, rfl, rfl, rfl, fun hw => ⟨step_inv hw hstep, ?_⟩⟩
  have hok := hw.1 i l hl
  unfold LaneOk at hok
  rw [hjob] at hok
  exact hok

theorem empty_result_answered_with_success_witness :
    ∃ w2, step ⟨fun _ => [], ⟨[⟨NewProcessor (fun _ => ⟨[], false, ""⟩),
        [⟨[], 100⟩]⟩], some 7, []⟩, []⟩ (Action.process 0) = some w2 ∧
      w2.delivered = [(100, ⟨none⟩)] ∧ w2.pool.output = [] :=
  match empty_result_answered_with_success
      ⟨fun _ => [], ⟨[⟨NewProcessor (fun _ => ⟨[], false, ""⟩),
        [⟨[], 100⟩]⟩], some 7, []⟩, []⟩ 0
      ⟨NewProcessor (fun _ => ⟨[], false, ""⟩), [⟨[], 100⟩]⟩ ⟨[], 100⟩ []
      rfl rfl rfl rfl rfl with
  | ⟨w2, hstep, hdel, hout, _⟩ => ⟨w2, hstep, hdel, hout⟩

/-! ## Binding the input -/

/-- C5: bind-once. On an unbound Pool and on an unbound Processor the first
`Consume(c1)` succeeds and binds `c1`; a later `Consume(c2)` returns the
"already consuming" error and leaves the state exactly as it was, still bound
to `c1`, so the same holds for every further call. After the failed call the
dispatcher of the Pool still hands the next Transaction pending on `c1` to an
available Lane, and the worker loop of the Processor still receives the next
Transaction pending on `c1`. -/
theorem consume_binds_once (P : Pool) (p : Processor) (c1 c2 : Nat)
    (hP : P.consuming = none) (hp : p.consuming = none) :
    ((P.Consume c1).2 = none ∧ (P.Consume c1).1.consuming = some c1 ∧
        (P.Consume c1).1.Consume c2 = ((P.Consume c1).1, some errAlreadyConsuming)) ∧
      ((p.Consume c1).2 = none ∧ (p.Consume c1).1.consuming = some c1 ∧
        ((p.Consume c1).1.Consume c2).2 = some errAlreadyConsuming ∧
        ((p.Consume c1).1.Consume c2).1 = (p.Consume c1).1) ∧
      (∀ (w : World) (t : Transaction) (rest : List Transaction) (i : Nat) (l : Lane),
        w.pool = ((P.Consume c1).1.Consume c2).1 → w.chans c1 = t :: rest →
        w.pool.lanes[i]? = some l → l.available = true →
        ∃ w2, step w (Action.dispatch i) = some w2 ∧ w2.chans c1 = rest ∧
          w2.pool.lanes[i]? = some { l with inbox := [t] }) ∧
      (∀ (chans : Nat → List Transaction) (t : Transaction) (rest : List Transaction),
        chans c1 = t :: rest → p.job = none →
        ∃ q r, ((p.Consume c1).1.Consume c2).1.receive t = some (q, r) ∧
          ((p.Consume c1).1.Consume c2).1.loop chans =
            some (q, (fun x => if x = c1 then rest else chans x),
              r.map (fun x => (t.ResponseChan, x)))) := by
  have hP1 : P.Consume c1 = ({ P with consuming := some c1 }, none) := by
    simp [Pool.Consume, hP]
  have hp1 : p.Consume c1 = ({ p with consuming := some c1 }, none) := by
    simp [Processor.Consume, hp]
  refine ⟨?_, ?_, ?_, ?_⟩
  · rw [hP1]
    exact ⟨rfl, rfl, rfl⟩
  · rw [hp1]
    exact ⟨rfl, rfl, rfl, rfl⟩
  · intro w t rest i l hw hch hl hav
    rw [hP1] at hw
    have hc : w.pool.consuming = some c1 := by rw [hw]; rfl
    refine ⟨{ w with
      chans := fun x => if x = c1 then rest else w.chans x
      pool := { w.pool with lanes := w.pool.lanes.set i { l with inbox := [t] } } }, ?_, ?_, ?_⟩
    · simp only [step, hc, hch, hl, hav, if_true]
    · simp
    · simp only [List.getElem?_set]
      simp [get_lt hl]
  · intro chans t rest hch hidle
    rw [hp1]
    obtain ⟨q, r, hrec⟩ := receive_of_idle (({ p with consuming := some c1 } : Processor).Consume c2).1
      t (by simpa [Processor.Consume] using hidle)
    refine ⟨q, r, hrec, ?_⟩
    have hbound : (({ p with consuming := some c1 } : Processor).Consume c2).1.consuming = some c1 := rfl
    simp only [Processor.loop, hbound, hch, hrec]

theorem consume_binds_once_witness :
    ((NewPool (fun _ => NewProcessor (fun m => ⟨[m], false, ""⟩)) 1).Consume 1).2 = none ∧
      ((((NewPool (fun _ => NewProcessor (fun m => ⟨[m], false, ""⟩)) 1).Consume 1).1.Consume 2).2 =
        some errAlreadyConsuming) ∧
      ((((NewPool (fun _ => NewProcessor (fun m => ⟨[m], false, ""⟩)) 1).Consume 1).1.Consume 2).1.consuming =
        some 1) :=
  match consume_binds_once (NewPool (fun _ => NewProcessor (fun m => ⟨[m], false, ""⟩)) 1)
      (NewProcessor (fun m => ⟨[m], false, ""⟩)) 1 2 rfl rfl with
  | ⟨⟨h1, h2, h3⟩, _⟩ => ⟨h1, by rw [h3], by rw [h3]; exact h2⟩

end Pipeline

namespace Cache

/-! ## `File.SetMulti` -/

theorem rangeSet_append (set : FS → String → Bytes → FS × Option Error) :
    ∀ (pre post : List (String × Bytes)) (fs : FS),
      rangeSet set fs (pre ++ post) =
        match (rangeSet set fs pre).2 with
        | none => rangeSet set (rangeSet set fs pre).1 post
        | some _ => rangeSet set fs pre := by
  intro pre
  induction pre with
  | nil => intro post fs; rfl
  | cons kv pre ih =>
    intro post fs
    obtain ⟨k, v⟩ := kv
    simp only [List.cons_append, rangeSet]
    cases hset : set fs k v with
    | mk fs1 e =>
      cases e with
      | none => exact ih post fs1
      | some err => rfl

theorem rangeSet_first_failure (set : FS → String → Bytes → FS × Option Error) (fs : FS)
    (pre post : List (String × Bytes)) (k : String) (v : Bytes) (e : Error)
    (hpre : (rangeSet set fs pre).2 = none)
    (hset : (set (rangeSet set fs pre).1 k v).2 = some e) :
    (rangeSet set fs (pre ++ (k, v) :: post)).2 = some e := by
  rw [rangeSet_append, hpre]
  simp only [rangeSet]
  cases h : set (rangeSet set fs pre).1 k v with
  | mk fs1 e1 =>
    rw [h] at hset
    simp only at hset
    subst hset
    rfl

theorem rangeSet_error_source (set : FS → String → Bytes → FS × Option Error) :
    ∀ (items : List (String × Bytes)) (fs : FS) (e : Error),
      (rangeSet set fs items).2 = some e →
      ∃ pre k v post, items = pre ++ (k, v) :: post ∧ (rangeSet set fs pre).2 = none ∧
        (set (rangeSet set fs pre).1 k v).2 = some e := by
  intro items
  induction items with
  | nil => intro fs e h; simp [rangeSet] at h
  | cons kv items ih =>
    intro fs e h
    obtain ⟨k, v⟩ := kv
    simp only [rangeSet] at h
    cases hset : set fs k v with
    | mk fs1 e1 =>
      rw [hset] at h
      cases e1 with
      | some err =>
        simp only [Option.some.injEq] at h
        subst h
        exact ⟨[], k, v, items, rfl, rfl, by simp [rangeSet, hset]⟩
      | none =>
        simp only at h
        obtain ⟨pre, k2, v2, post, hitems, hpre, hfail⟩ := ih fs1 e h
        refine ⟨(k, v) :: pre, k2, v2, post, by simp [hitems], ?_, ?_⟩
        · simp only [rangeSet, hset]
          exact hpre
        · simp only [rangeSet, hset]
          exact hfail

/-- C11: `File.SetMulti` is the range loop over the entries of the map that
calls `Set` on each one, in whatever order the range visits them. For the
empty map it returns nil and leaves the file system as it was. For every
behaviour of the Set operation: if a Set fails after all the Sets before it
succeeded, the loop returns the error of that Set; every error the loop
returns is the error of such a failing Set; and if no Set fails the loop
returns nil. -/
theorem setMulti_error_propagation (f : File)
    (set : FS → String → Bytes → FS × Option Error) (fs : FS)
    (items : List (String × Bytes)) :
    f.SetMulti fs items = rangeSet f.Set fs items ∧
      f.SetMulti fs [] = (fs, none) ∧
      rangeSet set fs [] = (fs, none) ∧
      (∀ pre k v post e, items = pre ++ (k, v) :: post → (rangeSet set fs pre).2 = none →
        (set (rangeSet set fs pre).1 k v).2 = some e → (rangeSet set fs items).2 = some e) ∧
      (∀ e, (rangeSet set fs items).2 = some e →
        ∃ pre k v post, items = pre ++ (k, v) :: post ∧ (rangeSet set fs pre).2 = none ∧
          (set (rangeSet set fs pre).1 k v).2 = some e) ∧
      ((∀ pre k v post, items = pre ++ (k, v) :: post → (rangeSet set fs pre).2 = none →
        (set (rangeSet set fs pre).1 k v).2 = none) → (rangeSet set fs items).2 = none) := by
  refine ⟨rfl, rfl, rfl, ?_, rangeSet_error_source set items fs, ?_⟩
  · intro pre k v post e hitems hpre hset
    rw [hitems]
    exact rangeSet_first_failure set fs pre post k v e hpre hset
  · intro hall
    cases hres : (rangeSet set fs items).2 with
    | none => rfl
    | some e =>
      obtain ⟨pre, k, v, post, hitems, hpre, hfail⟩ := rangeSet_error_source set items fs e hres
      rw [hall pre k v post hitems hpre] at hfail
      exact absurd hfail (by simp)

end Cache

namespace Metrics

/-! ## The Statsd metrics type -/

theorem tags_mismatch (n l : List String) (h : l.length ≠ n.length) : tags n l = none := by
  unfold tags
  rw [if_pos (fun e => h e.symm)]

/-- C12 (counterexample): a counter obtained through `GetCounterVec` with one
label name and bound to no label value still makes the `Incr` call on the
client, so a metric is emitted. -/
theorem label_mismatch_counterexample :
    ([] : List String).length ≠ ["a"].length ∧
      ((((⟨⟨NewStatsdConfig⟩, none, logNoop⟩ : Statsd).GetCounterVec "foo" ["a"]).With []).Incr
          (NewClient "localhost:4040" 100000000 "benthos." TagStyle.Datadog logNoop) 1).1.calls =
        [⟨Method.Incr, "foo", 1, []⟩] := by
  decide

/-- C12 (amended): for every counter, timer or gauge obtained through
`GetCounterVec`, `GetTimerVec` or `GetGaugeVec` with label names `n`, binding
it to label values `l` with `len(l) != len(n)` gives the stat of the path with
nil tags; every later `Incr`, `Decr`, `Timing` and `Set` on it makes exactly
one call on the client, with the path, the value and no tag, and returns no
error. -/
theorem label_mismatch_drops_tags (h : Statsd) (path : String) (n l : List String)
    (c : Client) (x : Int) (hlen : l.length ≠ n.length) :
    (h.GetCounterVec path n).With l = ⟨path, none⟩ ∧
      (h.GetTimerVec path n).With l = ⟨path, none⟩ ∧
      (h.GetGaugeVec path n).With l = ⟨path, none⟩ ∧
      (⟨path, none⟩ : StatsdStat).Incr c x =
        ({ c with calls := c.calls ++ [⟨Method.Incr, path, x, []⟩] }, none) ∧
      (⟨path, none⟩ : StatsdStat).Decr c x =
        ({ c with calls := c.calls ++ [⟨Method.Decr, path, x, []⟩] }, none) ∧
      (⟨path, none⟩ : StatsdStat).Timing c x =
        ({ c with calls := c.calls ++ [⟨Method.Timing, path, x, []⟩] }, none) ∧
      (⟨path, none⟩ : StatsdStat).Set c x =
        ({ c with calls := c.calls ++ [⟨Method.Gauge, path, x, []⟩] }, none) := by
  have ht := tags_mismatch n l hlen
  refine ⟨?_, ?_, ?_, rfl, rfl, rfl, rfl⟩ <;>
    simp [Statsd.GetCounterVec, Statsd.GetTimerVec, Statsd.GetGaugeVec, StatVec.With, ht]

theorem label_mismatch_drops_tags_witness :
    ["x", "y"].length ≠ ["a"].length ∧
      ((⟨⟨NewStatsdConfig⟩, none, logNoop⟩ : Statsd).GetTimerVec "foo" ["a"]).With ["x", "y"] =
        ⟨"foo", none⟩ :=
  ⟨by decide, (label_mismatch_drops_tags ⟨⟨NewStatsdConfig⟩, none, logNoop⟩ "foo" ["a"] ["x", "y"]
    (NewClient "localhost:4040" 100000000 "benthos." TagStyle.Datadog logNoop) 1
    (by decide)).2.1⟩

/-- C13 (the code at the failing input): for every config with network "udp"
and tag_format "none", the default configuration among them, `NewStatsd`
returns no metrics object and an error, whatever the flush period is; when
the flush period parses, the error is that the tag format 'none' was not
recognised. -/
theorem statsd_rejects_tag_format_none {O L : Type} (deps : Deps O L) (config : Config)
    (opts : List O) (hnet : config.Statsd.Network = "udp")
    (htag : config.Statsd.TagFormat = TagFormatNone) :
    (NewStatsd deps config opts).1.isNone = true ∧
      (NewStatsd deps config opts).2 ≠ none ∧
      ∀ d, deps.ParseDuration config.Statsd.FlushPeriod = Except.ok d →
        (NewStatsd deps config opts).2 = some "tag format 'none' was not recognised" := by
  have hbranch : ¬ (config.Statsd.Network ≠ "udp" ∨ config.Statsd.TagFormat = "legacy") := by
    rw [hnet, htag]
    decide
  unfold NewStatsd
  rw [if_neg hbranch]
  cases hp : deps.ParseDuration config.Statsd.FlushPeriod with
  | error err => simp
  | ok d =>
    simp only [htag]
    refine ⟨?_, ?_, fun _ _ => ?_⟩ <;> simp [TagFormatInfluxDB, TagFormatDatadog, TagFormatNone]

theorem statsd_rejects_tag_format_none_witness :
    (⟨NewStatsdConfig⟩ : Config).Statsd.Network = "udp" ∧
      (⟨NewStatsdConfig⟩ : Config).Statsd.TagFormat = TagFormatNone ∧
      (NewStatsd (O := Unit) (L := Unit)
          ⟨fun _ => Except.ok 100000000, fun _ _ => (none, none), fun _ s => s⟩
          ⟨NewStatsdConfig⟩ []).2 = some "tag format 'none' was not recognised" :=
  ⟨rfl, rfl, (statsd_rejects_tag_format_none (O := Unit) (L := Unit)
    ⟨fun _ => Except.ok 100000000, fun _ _ => (none, none), fun _ s => s⟩
    ⟨NewStatsdConfig⟩ [] rfl rfl).2.2 100000000 rfl⟩

theorem statsd_accepts_datadog_influxdb {O L : Type} (deps : Deps O L) (config : Config)
    (opts : List O) (d : Int) (hnet : config.Statsd.Network = "udp")
    (htag : config.Statsd.TagFormat = TagFormatDatadog ∨
      config.Statsd.TagFormat = TagFormatInfluxDB)
    (hparse : deps.ParseDuration config.Statsd.FlushPeriod = Except.ok d) :
    (NewStatsd deps config opts).1.isSome = true ∧ (NewStatsd deps config opts).2 = none := by
  have hbranch : ¬ (config.Statsd.Network ≠ "udp" ∨ config.Statsd.TagFormat = "legacy") := by
    rcases htag with h | h <;> rw [hnet, h] <;> decide
  unfold NewStatsd
  rw [if_neg hbranch, hparse]
  rcases htag with h | h <;>
    simp [h, TagFormatInfluxDB, TagFormatDatadog]

/-- C14: legacy fallback. For every config whose tag_format is "legacy" or
whose network is not "udp", `NewStatsd` returns exactly the result of
`NewStatsdLegacy` on the same config and options, whatever the flush period
and the tag format are and however `time.ParseDuration` behaves. -/
theorem statsd_legacy_fallback {O L : Type} (deps : Deps O L) (config : Config)
    (opts : List O)
    (h : config.Statsd.TagFormat = "legacy" ∨ config.Statsd.Network ≠ "udp") :
    NewStatsd deps config opts = deps.NewStatsdLegacy config opts := by
  unfold NewStatsd
  rw [if_pos (Or.symm h)]

theorem statsd_legacy_fallback_witness :
    ((⟨⟨"benthos", "localhost:4040", "not a duration", "tcp", "bogus"⟩⟩ : Config).Statsd.TagFormat =
        "legacy" ∨
      (⟨⟨"benthos", "localhost:4040", "not a duration", "tcp", "bogus"⟩⟩ : Config).Statsd.Network ≠
        "udp") ∧
      NewStatsd (O := Unit) (L := Nat)
          ⟨fun _ => Except.error "invalid", fun _ _ => (some (Stats.legacy 7), none), fun _ s => s⟩
          ⟨⟨"benthos", "localhost:4040", "not a duration", "tcp", "bogus"⟩⟩ [] =
        (some (Stats.legacy 7), none) :=
  ⟨Or.inr (by decide), statsd_legacy_fallback (O := Unit) (L := Nat)
    ⟨fun _ => Except.error "invalid", fun _ _ => (some (Stats.legacy 7), none), fun _ s => s⟩
    ⟨⟨"benthos", "localhost:4040", "not a duration", "tcp", "bogus"⟩⟩ [] (Or.inr (by decide))⟩

end Metrics

namespace Broker

/-! ## The mock source and sink -/

/-- C15 (counterexample): on the mock sink a second `Consume` returns no
error and rebinds `TChan` to the second channel. -/
theorem mock_output_consume_counterexample :
    ((MockOutputType.mk none).Consume 1).1.Consume 2 = (⟨some 2⟩, none) ∧
      (((MockOutputType.mk none).Consume 1).1.Consume 2).1.TChan ≠ some 1 := by
  decide

/-- C15 (amended): for `MockOutputType`, every `Consume(c)` returns no error
and sets `TChan` to `c`: after a first `Consume(c1)`, a second `Consume(c2)`
returns no error and leaves `TChan` bound to `c2`. -/
theorem mock_output_consume_rebinds (m : MockOutputType) (c1 c2 : Nat) :
    m.Consume c1 = (⟨some c1⟩, none) ∧
      (m.Consume c1).1.Consume c2 = (⟨some c2⟩, none) :=
  ⟨rfl, rfl⟩

/-- C16 (counterexample): a mock source whose flag is already set and whose
`TChan` is open keeps `TChan` open through `CloseAsync`. -/
theorem closeAsync_counterexample :
    (MockInputType.mk 1 (some ⟨false, []⟩)).CloseAsync =
        Except.ok (MockInputType.mk 1 (some ⟨false, []⟩)) ∧
      (MockInputType.mk 1 (some ⟨false, []⟩)).CloseAsyncTimes 3 =
        Except.ok (MockInputType.mk 1 (some ⟨false, []⟩)) :=
  ⟨rfl, rfl⟩

theorem closeAsyncTimes_of_set (m : MockInputType) (h : m.closed ≠ 0) :
    ∀ n, m.CloseAsyncTimes n = Except.ok m := by
  intro n
  induction n with
  | zero => rfl
  | succ n ih =>
    simp only [MockInputType.CloseAsyncTimes, MockInputType.CloseAsync, if_neg h]
    exact ih

/-- C16 (amended): for every `MockInputType` whose flag is 0 and whose
`TChan` is open, a single `CloseAsync` sets the flag and closes `TChan`
without panic, and any sequence of `n >= 1` calls leaves that same state; for
every mock whose flag is already set, no number of calls panics or touches
`TChan`, so no call after the first attempts to close the channel again. -/
theorem closeAsync_idempotent (m : MockInputType) (ch : Chan)
    (hflag : m.closed = 0) (hch : m.TChan = some ch) (hopen : ch.closed = false) :
    m.CloseAsync = Except.ok ⟨1, some { ch with closed := true }⟩ ∧
      (∀ n, 1 ≤ n → m.CloseAsyncTimes n = m.CloseAsync) ∧
      ∀ m2 : MockInputType, m2.closed ≠ 0 → ∀ n, m2.CloseAsyncTimes n = Except.ok m2 := by
  have hone : m.CloseAsync = Except.ok ⟨1, some { ch with closed := true }⟩ := by
    simp [MockInputType.CloseAsync, hflag, hch, closeChan, hopen]
  refine ⟨hone, ?_, closeAsyncTimes_of_set⟩
  intro n hn
  obtain ⟨k, rfl⟩ : ∃ k, n = k + 1 := ⟨n - 1, by omega⟩
  simp only [MockInputType.CloseAsyncTimes, hone]
  have hset : (⟨1, some { ch with closed := true }⟩ : MockInputType).closed ≠ 0 := by
    show (1 : Int) ≠ 0
    decide
  exact closeAsyncTimes_of_set _ hset k

theorem closeAsync_idempotent_witness :
    (MockInputType.mk 0 (some ⟨false, []⟩)).closed = 0 ∧
      (MockInputType.mk 0 (some ⟨false, []⟩)).CloseAsyncTimes 3 =
        Except.ok ⟨1, some ⟨true, []⟩⟩ :=
  ⟨rfl, by
    rw [(closeAsync_idempotent (MockInputType.mk 0 (some ⟨false, []⟩)) ⟨false, []⟩ rfl rfl rfl).2.1
      3 (by decide)]
    exact (closeAsync_idempotent (MockInputType.mk 0 (some ⟨false, []⟩)) ⟨false, []⟩
      rfl rfl rfl).1⟩

/-- C17 (counterexample): with a duration of zero the timer is due when the
select looks at its cases, so on a closed `TChan` (also one closed by
`CloseAsync`) both cases can proceed and the select may take the timer:
`WaitForClose` then returns `types.ErrTimeout`, not nil; in the same way it
may return `types.ErrTimeout` while a Transaction is waiting to be received. -/
theorem waitForClose_counterexample :
    ((MockInputType.mk 1 (some ⟨true, []⟩)).WaitForClose 0 0 Pick.timer none).2 =
        some Error.ErrTimeout ∧
      (MockInputType.mk 0 (some ⟨false, []⟩)).CloseAsync =
        Except.ok (MockInputType.mk 1 (some ⟨true, []⟩)) ∧
      ((MockInputType.mk 0 (some ⟨false, [⟨[], 0⟩]⟩)).WaitForClose 0 0 Pick.timer none).2 =
        some Error.ErrTimeout :=
  ⟨by decide, rfl, by decide⟩

/-- C17 (amended): shutdown wait on the mock source, for a timer that is not
yet due when the select looks at its cases (the duration is longer than the
time passed since the timer was started, so it is positive). `WaitForClose`
then returns nil when `TChan` is closed, in particular after `CloseAsync` on a
mock with the flag at 0 and `TChan` open; it returns `types.ErrTimeout` when
`TChan` is open with no sender and nothing arrives for the duration; and it
returns an error other than `types.ErrTimeout` when a Transaction is received,
from a sender already waiting or from one arriving during the wait. For a
duration whose timer is already due, whatever the state of `TChan`, the select
can take the timer, and `WaitForClose` then returns `types.ErrTimeout`. -/
theorem waitForClose_results (m : MockInputType) (ch : Chan) (t : Int) (elapsed : Nat)
    (hch : m.TChan = some ch) (hdue : (elapsed : Int) < t) :
    (ch.closed = true → ∀ pick during, (m.WaitForClose t elapsed pick during).2 = none) ∧
      (m.closed = 0 → ch.closed = false →
        ∃ m2, m.CloseAsync = Except.ok m2 ∧
          ∀ pick during, (m2.WaitForClose t elapsed pick during).2 = none) ∧
      (ch.closed = false → ch.pending = [] → ∀ pick,
        (m.WaitForClose t elapsed pick none).2 = some Error.ErrTimeout ∧
          (m.WaitForClose t elapsed pick (some Arrival.close)).2 = none) ∧
      (ch.closed = false → ∀ tx rest pick during, ch.pending = tx :: rest →
        ∃ e, (m.WaitForClose t elapsed pick during).2 = some e ∧ e ≠ Error.ErrTimeout) ∧
      (ch.closed = false → ch.pending = [] → ∀ tx pick,
        ∃ e, (m.WaitForClose t elapsed pick (some (Arrival.send tx))).2 = some e ∧
          e ≠ Error.ErrTimeout) ∧
      ∀ t2 : Int, t2 ≤ elapsed → ∀ during,
        (m.WaitForClose t2 elapsed Pick.timer during).2 = some Error.ErrTimeout := by
  have hnd : ¬ t ≤ (elapsed : Int) := not_le.mpr hdue
  refine ⟨?_, ?_, ?_, ?_, ?_, ?_⟩
  · intro hc pick during
    simp [MockInputType.WaitForClose, hch, hc, hnd]
  · intro hflag hopen
    refine ⟨⟨1, some { ch with closed := true }⟩, ?_, fun pick during => ?_⟩
    · simp [MockInputType.CloseAsync, hflag, hch, closeChan, hopen]
    · simp [MockInputType.WaitForClose, hnd]
  · intro hopen hpend pick
    constructor <;> simp [MockInputType.WaitForClose, hch, hopen, hpend, hnd]
  · intro hopen tx rest pick during hpend
    refine ⟨Error.New "received unexpected message", ?_, by simp⟩
    simp [MockInputType.WaitForClose, hch, hopen, hpend, hnd]
  · intro hopen hpend tx pick
    refine ⟨Error.New "received unexpected message", ?_, by simp⟩
    simp [MockInputType.WaitForClose, hch, hopen, hpend, hnd]
  · intro t2 ht2 during
    cases hc : ch.closed with
    | true => simp [MockInputType.WaitForClose, hch, hc, ht2]
    | false =>
      cases hp : ch.pending with
      | nil => simp [MockInputType.WaitForClose, hch, hc, hp, ht2]
      | cons tx rest => simp [MockInputType.WaitForClose, hch, hc, hp, ht2]

theorem waitForClose_results_witness :
    (MockInputType.mk 0 (some ⟨false, []⟩)).TChan = some ⟨false, []⟩ ∧ ((0 : Nat) : Int) < 5 ∧
      ((MockInputType.mk 0 (some ⟨false, []⟩)).WaitForClose 5 0 Pick.recv none).2 =
        some Error.ErrTimeout :=
  ⟨rfl, by decide, ((waitForClose_results (MockInputType.mk 0 (some ⟨false, []⟩)) ⟨false, []⟩
    5 0 rfl (by decide)).2.2.1 rfl rfl Pick.recv).1⟩

end Broker

namespace Pipeline

/-! ## Emission -/

theorem emits_prefix :
    ∀ (evs : List Event) (p : Processor) (ms : List Message),
      p.emits evs = some ms → ms <+: p.out := by
  intro evs
  induction evs with
  | nil =>
    intro p ms h
    simp only [Processor.emits, Option.some.injEq] at h
    subst h
    exact List.nil_prefix
  | cons e es ih =>
    intro p ms h
    cases e with
    | emit =>
      simp only [Processor.emits] at h
      split at h
      · exact absurd h (by simp)
      · rename_i m q hem
        obtain ⟨rest, hout, rfl⟩ := emit_inv hem
        split at h
        · exact absurd h (by simp)
        · rename_i ms2 hms
          simp only [Option.some.injEq] at h
          subst h
          rw [hout]
          exact (List.prefix_cons_inj m).mpr (ih _ ms2 hms)
    | respond r =>
      simp only [Processor.emits] at h
      split at h
      · exact absurd h (by simp)
      · rename_i q hq
        obtain ⟨j, _, _, rfl⟩ := respond_inv hq
        exact ih { p with job := some { j with received := j.received ++ [r] } } ms h
    | resolve =>
      simp only [Processor.emits] at h
      split at h
      · exact absurd h (by simp)
      · rename_i q x hres
        obtain ⟨c, r⟩ := x
        obtain ⟨j, _, _, rfl, _, _⟩ := resolve_inv hres
        exact ih { p with job := none } ms h

theorem busy_emits_all (t : Transaction) (N : Nat) :
    ∀ (evs : List Event) (p q : Processor) (rcv : List Response) (d : List (Nat × Response)),
      p.job = some ⟨t, N, rcv⟩ → rcv.length + p.out.length ≤ N → p.run evs = some (q, d) →
      (∃ ms, p.emits evs = some ms) ∧ (d ≠ [] → p.emits evs = some p.out) := by
  intro evs
  induction evs with
  | nil =>
    intro p q rcv d _ _ h
    simp only [Processor.run, Option.some.injEq, Prod.mk.injEq] at h
    exact ⟨⟨[], rfl⟩, fun hd => absurd h.2.symm hd⟩
  | cons e es ih =>
    intro p q rcv d hjob hle h
    simp only [Processor.run] at h
    split at h
    · exact absurd h (by simp)
    · rename_i p1 d1 hev
      split at h
      · exact absurd h (by simp)
      · rename_i q2 d2 hrun
        simp only [Option.some.injEq, Prod.mk.injEq] at h
        obtain ⟨_, rfl⟩ := h
        cases e with
        | emit =>
          simp only [Processor.event, Option.map_eq_some'] at hev
          obtain ⟨⟨m, p2⟩, hem, hpair⟩ := hev
          simp only [Prod.mk.injEq] at hpair
          obtain ⟨rfl, rfl⟩ := hpair
          obtain ⟨ms, hout, rfl⟩ := emit_inv hem
          have hle2 : rcv.length + ms.length ≤ N := by
            rw [hout] at hle
            simp only [List.length_cons] at hle
            omega
          obtain ⟨⟨out, hout2⟩, hall⟩ := ih { p with out := ms } q2 rcv d2 hjob hle2 hrun
          refine ⟨⟨m :: out, by simp only [Processor.emits, hem, hout2]⟩, fun hd => ?_⟩
          have hd2 : d2 ≠ [] := by simpa using hd
          simp only [Processor.emits, hem, hall hd2, hout]
        | respond r =>
          simp only [Processor.event, Option.map_eq_some'] at hev
          obtain ⟨p2, hresp, hpair⟩ := hev
          simp only [Prod.mk.injEq] at hpair
          obtain ⟨rfl, rfl⟩ := hpair
          obtain ⟨j, hj, hlt, rfl⟩ := respond_inv hresp
          rw [hjob] at hj
          simp only [Option.some.injEq] at hj
          subst hj
          have hle2 : (rcv ++ [r]).length + p.out.length ≤ N := by
            simp only [List.length_append, List.length_cons, List.length_nil]
            simp only at hlt
            omega
          obtain ⟨⟨out, hout2⟩, hall⟩ :=
            ih { p with job := some ⟨t, N, rcv ++ [r]⟩ } q2 (rcv ++ [r]) d2 rfl hle2 hrun
          refine ⟨⟨out, by simp only [Processor.emits, hresp, hout2]⟩, fun hd => ?_⟩
          have hd2 : d2 ≠ [] := by simpa using hd
          simp only [Processor.emits, hresp]
          exact hall hd2
        | resolve =>
          simp only [Processor.event, Option.map_eq_some'] at hev
          obtain ⟨⟨p2, c, r⟩, hres, hpair⟩ := hev
          simp only [Prod.mk.injEq] at hpair
          obtain ⟨rfl, rfl⟩ := hpair
          obtain ⟨j, hj, heq, rfl, rfl, rfl⟩ := resolve_inv hres
          rw [hjob] at hj
          simp only [Option.some.injEq] at hj
          subst hj
          simp only at heq
          have hout : p.out = [] := by
            apply List.eq_nil_of_length_eq_zero
            omega
          obtain ⟨rfl, rfl⟩ := idle_run (p := { p with job := none }) rfl hout hrun
          refine ⟨⟨[], by simp only [Processor.emits, hres]⟩, fun _ => ?_⟩
          simp only [Processor.emits, hres, hout]

/-- C19: emission. An idle Processor (the Processor of a Lane) receives a
Transaction whose Stage chain does not reject it and yields the result
messages `m1..mN`, `N >= 1`. (1) Its output stream then holds exactly these
messages. (2) Whatever Events happen to it, the result Transactions taken from
it carry an initial part of `m1..mN`, each message as the chain produced it,
none twice and none other. (3) Once the Response for the original Transaction
has been delivered, exactly `m1..mN` have been taken. (4) The relay of Lane
`i` moves the next message of the Lane's output stream, unchanged, to the
shared output channel of the Pool, with the response path of Lane `i`.
(5) With a pass-through chain the single result Transaction carries the parts
of the input. -/
theorem emission_one_per_result (p : Processor) (t : Transaction)
    (hjob : p.job = none) (hout : p.out = [])
    (hdrop : (p.chain t.Payload).dropped = false)
    (hN : 1 ≤ (p.chain t.Payload).results.length) :
    ∃ q, p.receive t = some (q, none) ∧
      q.out = (p.chain t.Payload).results ∧
      (∀ evs ms, q.emits evs = some ms → ms <+: (p.chain t.Payload).results) ∧
      (∀ evs q2 d, q.run evs = some (q2, d) →
        (∃ ms, q.emits evs = some ms) ∧
          (d ≠ [] → q.emits evs = some (p.chain t.Payload).results)) ∧
      (∀ (w : World) (i : Nat) (l : Lane) (m : Message) (rest : List Message),
        w.pool.lanes[i]? = some l → l.proc.out = m :: rest →
        ∃ w2, step w (Action.relay i) = some w2 ∧
          w2.pool.output = w.pool.output ++ [⟨m, i⟩] ∧
          w2.pool.lanes[i]? = some { l with proc := { l.proc with out := rest } }) ∧
      ((p.chain t.Payload).results = [t.Payload] →
        q.emits [Event.emit] = some [t.Payload]) := by
  obtain ⟨q, r, hrec⟩ := receive_of_idle p t hjob
  obtain ⟨_, hcase⟩ := receive_inv hrec
  have hne : (p.chain t.Payload).results ≠ [] := by
    intro e
    rw [e] at hN
    simp at hN
  rcases hcase with ⟨hd, _, _⟩ | ⟨_, hres, _, _⟩ | ⟨_, _, rfl, rfl⟩
  · rw [hdrop] at hd
    exact absurd hd (by simp)
  · exact absurd hres hne
  · have hqout : ({ p with
        job := some ⟨t, (p.chain t.Payload).results.length, []⟩
        out := p.out ++ (p.chain t.Payload).results } : Processor).out =
        (p.chain t.Payload).results := by
      simp [hout]
    refine ⟨_, hrec, hqout, ?_, ?_, ?_, ?_⟩
    · intro evs ms h
      have := emits_prefix evs _ ms h
      rwa [hqout] at this
    · intro evs q2 d hrun
      have := busy_emits_all t (p.chain t.Payload).results.length evs _ q2 [] d rfl
        (by simp [hout]) hrun
      rwa [hqout] at this
    · intro w i l m rest hl hlout
      have hem : l.proc.emit = some (m, { l.proc with out := rest }) := by
        simp [Processor.emit, hlout]
      refine ⟨{ w with
        pool := { w.pool with
          lanes := w.pool.lanes.set i { l with proc := { l.proc with out := rest } }
          output := w.pool.output ++ [⟨m, i⟩] } }, ?_, rfl, ?_⟩
      · simp only [step, hl, hem]
      · simp only [List.getElem?_set]
        simp [get_lt hl]
    · intro hres
      simp [Processor.emits, Processor.emit, hout, hres]

theorem emission_one_per_result_witness :
    ∃ q, (NewProcessor (fun m => ⟨[m], false, ""⟩)).receive ⟨[⟨[1, 2], []⟩], 100⟩ =
        some (q, none) ∧
      q.out = [[⟨[1, 2], []⟩]] ∧
      q.emits [Event.emit] = some [[⟨[1, 2], []⟩]] :=
  match emission_one_per_result (NewProcessor (fun m => ⟨[m], false, ""⟩))
      ⟨[⟨[1, 2], []⟩], 100⟩ rfl rfl rfl (by decide) with
  | ⟨q, hrec, hout, _, _, _, hpass⟩ => ⟨q, hrec, hout, hpass rfl⟩

end Pipeline

namespace Pipeline

/-! ## Natural close: inversion of `cstep` -/

theorem cstep_work {s s2 : Running} {a : Action} (h : cstep s (CloseAction.work a) = some s2) :
    ∃ w2, step s.world a = some w2 ∧ s2 = { s with world := w2 } := by
  simp only [cstep] at h
  split at h
  · exact absurd h (by simp)
  · rename_i w2 hw
    exact ⟨w2, hw, (Option.some.inj h).symm⟩

theorem cstep_closeInput {s s2 : Running} (h : cstep s CloseAction.closeInput = some s2) :
    s.world.pool.consuming.isSome = true ∧ s.life.inputClosed = false ∧
      s2 = { s with life := { s.life with inputClosed := true } } := by
  simp only [cstep] at h
  split at h
  · rename_i hc
    simp only [Bool.and_eq_true, Bool.not_eq_true'] at hc
    exact ⟨hc.1, hc.2, (Option.some.inj h).symm⟩
  · exact absurd h (by simp)

theorem cstep_closeLanes {s s2 : Running} (h : cstep s CloseAction.closeLanes = some s2) :
    s.life.inputClosed = true ∧ s.world.inbound = [] ∧ s.life.lanesClosed = false ∧
      s2 = { s with life := { s.life with lanesClosed := true } } := by
  simp only [cstep] at h
  split at h
  · rename_i hc
    simp only [Bool.and_eq_true, Bool.not_eq_true', List.isEmpty_iff] at hc
    exact ⟨hc.1.1, hc.1.2, hc.2, (Option.some.inj h).symm⟩
  · exact absurd h (by simp)

theorem cstep_laneExit {s s2 : Running} {i : Nat} (h : cstep s (CloseAction.laneExit i) = some s2) :
    ∃ f l, s.life.lanes[i]? = some f ∧ s.world.pool.lanes[i]? = some l ∧
      s.life.lanesClosed = true ∧ f.exited = false ∧ l.inbox = [] ∧ l.proc.job = none ∧
      s2 = { s with
        life := { s.life with lanes := s.life.lanes.set i { f with exited := true } } } := by
  simp only [cstep] at h
  split at h
  · rename_i f l hf hl
    split at h
    · rename_i hc
      simp only [Bool.and_eq_true, Bool.not_eq_true', List.isEmpty_iff,
        Option.isNone_iff_eq_none] at hc
      exact ⟨f, l, hf, hl, hc.1.1.1, hc.1.1.2, hc.1.2, hc.2, (Option.some.inj h).symm⟩
    · exact absurd h (by simp)
  · exact absurd h (by simp)

theorem cstep_relayExit {s s2 : Running} {i : Nat}
    (h : cstep s (CloseAction.relayExit i) = some s2) :
    ∃ f l, s.life.lanes[i]? = some f ∧ s.world.pool.lanes[i]? = some l ∧
      f.exited = true ∧ f.relayExited = false ∧ l.proc.out = [] ∧
      s2 = { s with
        life := { s.life with lanes := s.life.lanes.set i { f with relayExited := true } } } := by
  simp only [cstep] at h
  split at h
  · rename_i f l hf hl
    split at h
    · rename_i hc
      simp only [Bool.and_eq_true, Bool.not_eq_true', List.isEmpty_iff] at hc
      exact ⟨f, l, hf, hl, hc.1.1, hc.1.2, hc.2, (Option.some.inj h).symm⟩
    · exact absurd h (by simp)
  · exact absurd h (by simp)

theorem cstep_finish {s s2 : Running} (h : cstep s CloseAction.finish = some s2) :
    s.life.lanesClosed = true ∧
      (∀ f ∈ s.life.lanes, f.exited = true ∧ f.relayExited = true) ∧
      s.life.closed = false ∧
      s2 = { s with life := { s.life with closed := true } } := by
  simp only [cstep] at h
  split at h
  · rename_i hc
    simp only [Bool.and_eq_true, Bool.not_eq_true', List.all_eq_true] at hc
    exact ⟨hc.1.1, hc.1.2, hc.2, (Option.some.inj h).symm⟩
  · exact absurd h (by simp)

/-! ## Natural close: what the workers leave untouched -/

theorem step_inbound_nil {w w2 : World} {a : Action} (h : step w a = some w2)
    (hin : w.inbound = []) : w2.inbound = [] := by
  cases a with
  | dispatch i =>
    obtain ⟨c, t, rest, l, hc, hch, _, _, _, _⟩ := step_dispatch h
    simp [World.inbound, hc, hch] at hin
  | process i =>
    obtain ⟨l, t, rest, q, r, _, _, _, rfl⟩ := step_process h
    exact hin
  | relay i =>
    obtain ⟨l, m, q, _, _, rfl⟩ := step_relay h
    exact hin
  | respond k r =>
    obtain ⟨o, l, q, _, _, _, rfl⟩ := step_respond h
    exact hin
  | resolve i =>
    obtain ⟨l, q, c, r, _, _, rfl⟩ := step_resolve h
    exact hin

theorem step_idle_lane {w w2 : World} {a : Action} {i : Nat} {l : Lane}
    (h : step w a = some w2) (hw : w.Inv) (hin : w.inbound = [])
    (hl : w.pool.lanes[i]? = some l) (hbox : l.inbox = []) (hjob : l.proc.job = none) :
    w2.pool.lanes[i]? = some l := by
  have hok := hw.1 i l hl
  unfold LaneOk at hok
  rw [hjob] at hok
  have other : ∀ {k : Nat} {x : Lane}, k ≠ i → (w.pool.lanes.set k x)[i]? = some l := by
    intro k x hk
    rw [List.getElem?_set_ne hk]
    exact hl
  cases a with
  | dispatch k =>
    obtain ⟨c, t, rest, lk, hc, hch, _, _, _, _⟩ := step_dispatch h
    simp [World.inbound, hc, hch] at hin
  | process k =>
    obtain ⟨lk, t, rest, q, r, hlk, hbk, _, rfl⟩ := step_process h
    by_cases hk : k = i
    · subst hk
      rw [hl] at hlk
      obtain rfl := Option.some.inj hlk
      rw [hbox] at hbk
      exact absurd hbk (by simp)
    · exact other hk
  | relay k =>
    obtain ⟨lk, m, q, hlk, hem, rfl⟩ := step_relay h
    by_cases hk : k = i
    · subst hk
      rw [hl] at hlk
      obtain rfl := Option.some.inj hlk
      obtain ⟨ms, hout, _⟩ := emit_inv hem
      rw [hok.1] at hout
      exact absurd hout (by simp)
    · exact other hk
  | respond k r =>
    obtain ⟨o, lk, q, _, hlk, hq, rfl⟩ := step_respond h
    by_cases hk : o.lane = i
    · rw [hk, hl] at hlk
      obtain rfl := Option.some.inj hlk
      obtain ⟨j, hj, _, _⟩ := respond_inv hq
      rw [hjob] at hj
      exact absurd hj (by simp)
    · exact other hk
  | resolve k =>
    obtain ⟨lk, q, c, r, hlk, hres, rfl⟩ := step_resolve h
    by_cases hk : k = i
    · subst hk
      rw [hl] at hlk
      obtain rfl := Option.some.inj hlk
      obtain ⟨j, hj, _, _⟩ := resolve_inv hres
      rw [hjob] at hj
      exact absurd hj (by simp)
    · exact other hk

/-! ## Natural close: the shutdown invariant is preserved -/

theorem cstep_inv {s s2 : Running} {a : CloseAction} (h : cstep s a = some s2)
    (hw : s.world.Inv) (hs : s.LInv) : s2.world.Inv ∧ s2.LInv := by
  obtain ⟨hlen, h1, h2, h3, h4⟩ := hs
  cases a with
  | work b =>
    obtain ⟨w2, hstep, rfl⟩ := cstep_work h
    refine ⟨step_inv hw hstep, ?_, ?_, ?_, h3, h4⟩
    · show s.life.lanes.length = w2.pool.lanes.length
      rw [(step_frame hstep).2]
      exact hlen
    · intro hc
      exact ⟨(h1 hc).1, step_inbound_nil hstep (h1 hc).2⟩
    · intro i f hf hex
      obtain ⟨hc, l, hl, hbox, hjob⟩ := h2 i f hf hex
      exact ⟨hc, l, step_idle_lane hstep hw (h1 hc).2 hl hbox hjob, hbox, hjob⟩
  | closeInput =>
    obtain ⟨_, _, rfl⟩ := cstep_closeInput h
    refine ⟨hw, hlen, ?_, h2, h3, h4⟩
    intro hc
    exact ⟨rfl, (h1 hc).2⟩
  | closeLanes =>
    obtain ⟨hic, hin, _, rfl⟩ := cstep_closeLanes h
    refine ⟨hw, hlen, fun _ => ⟨hic, hin⟩, ?_, h3, ?_⟩
    · intro i f hf hex
      exact ⟨rfl, (h2 i f hf hex).2⟩
    · intro hc
      exact ⟨rfl, (h4 hc).2⟩
  | laneExit k =>
    obtain ⟨f, l, hf, hl, hlc, hnot, hbox, hjob, rfl⟩ := cstep_laneExit h
    refine ⟨hw, ?_, h1, ?_, ?_, ?_⟩
    · show (s.life.lanes.set k { f with exited := true }).length = s.world.pool.lanes.length
      rw [List.length_set]
      exact hlen
    · intro i g hg hex
      rcases set_get hg with ⟨rfl, rfl⟩ | ⟨_, hg2⟩
      · exact ⟨hlc, l, hl, hbox, hjob⟩
      · exact h2 i g hg2 hex
    · intro i g hg hrel
      rcases set_get hg with ⟨rfl, rfl⟩ | ⟨_, hg2⟩
      · rfl
      · exact h3 i g hg2 hrel
    · intro hc
      have := (h4 hc).2 k f hf
      rw [hnot] at this
      exact absurd this.1 (by simp)
  | relayExit k =>
    obtain ⟨f, l, hf, hl, hex, hnot, hout, rfl⟩ := cstep_relayExit h
    refine ⟨hw, ?_, h1, ?_, ?_, ?_⟩
    · show (s.life.lanes.set k { f with relayExited := true }).length = s.world.pool.lanes.length
      rw [List.length_set]
      exact hlen
    · intro i g hg hex2
      rcases set_get hg with ⟨rfl, rfl⟩ | ⟨_, hg2⟩
      · exact h2 i f hf hex
      · exact h2 i g hg2 hex2
    · intro i g hg hrel
      rcases set_get hg with ⟨rfl, rfl⟩ | ⟨_, hg2⟩
      · exact hex
      · exact h3 i g hg2 hrel
    · intro hc
      have := (h4 hc).2 k f hf
      rw [hnot] at this
      exact absurd this.2 (by simp)
  | finish =>
    obtain ⟨hlc, hall, _, rfl⟩ := cstep_finish h
    refine ⟨hw, hlen, h1, h2, h3, fun _ => ⟨hlc, fun i f hf => ?_⟩⟩
    exact hall f (List.mem_iff_getElem?.mpr ⟨i, hf⟩)

theorem cexec_inv {as : List CloseAction} :
    ∀ {s s2 : Running}, cexec s as = some s2 → s.world.Inv → s.LInv →
      s2.world.Inv ∧ s2.LInv ∧ ∃ bs, exec s.world bs = some s2.world := by
  induction as with
  | nil =>
    intro s s2 h hw hs
    simp only [cexec, Option.some.injEq] at h
    subst h
    exact ⟨hw, hs, [], rfl⟩
  | cons a as ih =>
    intro s s2 h hw hs
    simp only [cexec] at h
    split at h
    · exact absurd h (by simp)
    · rename_i s1 hstep
      obtain ⟨hw1, hs1⟩ := cstep_inv hstep hw hs
      obtain ⟨hw2, hs2, bs, hbs⟩ := ih h hw1 hs1
      refine ⟨hw2, hs2, ?_⟩
      cases a with
      | work b =>
        obtain ⟨w2, hb, rfl⟩ := cstep_work hstep
        exact ⟨b :: bs, by simp only [exec, hb]; exact hbs⟩
      | closeInput =>
        obtain ⟨_, _, rfl⟩ := cstep_closeInput hstep
        exact ⟨bs, hbs⟩
      | closeLanes =>
        obtain ⟨_, _, _, rfl⟩ := cstep_closeLanes hstep
        exact ⟨bs, hbs⟩
      | laneExit k =>
        obtain ⟨f, l, _, _, _, _, _, _, rfl⟩ := cstep_laneExit hstep
        exact ⟨bs, hbs⟩
      | relayExit k =>
        obtain ⟨f, l, _, _, _, _, _, rfl⟩ := cstep_relayExit hstep
        exact ⟨bs, hbs⟩
      | finish =>
        obtain ⟨_, _, _, rfl⟩ := cstep_finish hstep
        exact ⟨bs, hbs⟩

end Pipeline

namespace Pipeline

/-! ## Natural close: termination -/

theorem cstep_decreases {s s2 : Running} {a : CloseAction} (h : cstep s a = some s2) :
    Prod.Lex (Prod.Lex (· < ·) (· < ·)) (· < ·) s2.measure s.measure := by
  rw [Prod.lex_def]
  cases a with
  | work b =>
    obtain ⟨w2, hstep, rfl⟩ := cstep_work h
    exact Or.inl (step_decreases hstep)
  | closeInput =>
    obtain ⟨_, hnot, rfl⟩ := cstep_closeInput h
    refine Or.inr ⟨rfl, ?_⟩
    simp only [Running.measure, Shutdown.remaining, hnot]
    simp
  | closeLanes =>
    obtain ⟨_, _, hnot, rfl⟩ := cstep_closeLanes h
    refine Or.inr ⟨rfl, ?_⟩
    simp only [Running.measure, Shutdown.remaining, hnot]
    simp
  | laneExit k =>
    obtain ⟨f, l, hf, _, _, hnot, _, _, rfl⟩ := cstep_laneExit h
    refine Or.inr ⟨rfl, ?_⟩
    have hs := sum_map_set
      (fun f : LaneLife => (if f.exited then 0 else 1) + (if f.relayExited then 0 else 1))
      s.life.lanes k f { f with exited := true } hf
    simp only [hnot] at hs
    simp only [Running.measure, Shutdown.remaining]
    simp only [Bool.false_eq_true, if_false, if_true] at hs
    omega
  | relayExit k =>
    obtain ⟨f, l, hf, _, _, hnot, _, rfl⟩ := cstep_relayExit h
    refine Or.inr ⟨rfl, ?_⟩
    have hs := sum_map_set
      (fun f : LaneLife => (if f.exited then 0 else 1) + (if f.relayExited then 0 else 1))
      s.life.lanes k f { f with relayExited := true } hf
    simp only [hnot] at hs
    simp only [Running.measure, Shutdown.remaining]
    simp only [Bool.false_eq_true, if_false, if_true] at hs
    omega
  | finish =>
    obtain ⟨_, _, hnot, rfl⟩ := cstep_finish h
    refine Or.inr ⟨rfl, ?_⟩
    simp only [Running.measure, Shutdown.remaining, hnot]
    simp

theorem cnext_wf : WellFounded CNext := by
  have hlt : WellFounded (fun a b : Nat => a < b) := Nat.lt_wfRel.wf
  have hlex : WellFounded
      (Prod.Lex (Prod.Lex (fun a b : Nat => a < b) (fun a b : Nat => a < b))
        (fun a b : Nat => a < b)) :=
    WellFounded.prod_lex (WellFounded.prod_lex hlt hlt) hlt
  refine Subrelation.wf ?_ (InvImage.wf Running.measure hlex)
  intro s2 s1 hstep
  obtain ⟨a, ha⟩ := hstep
  exact cstep_decreases ha

theorem creaches_quiescence (s : Running) : ∃ bs s2, cexec s bs = some s2 ∧ s2.quiescent := by
  induction s using cnext_wf.induction with
  | _ s ih =>
    by_cases hq : s.quiescent
    · exact ⟨[], s, rfl, hq⟩
    · unfold Running.quiescent at hq
      push_neg at hq
      obtain ⟨a, ha⟩ := hq
      obtain ⟨s1, hs1⟩ := Option.ne_none_iff_exists'.mp ha
      obtain ⟨bs, s2, hex, hq2⟩ := ih s1 ⟨a, hs1⟩
      refine ⟨a :: bs, s2, ?_, hq2⟩
      simp only [cexec, hs1]
      exact hex

/-! ## Natural close: progress -/

theorem le_sum_of_mem {α : Type} (f : α → Nat) :
    ∀ (l : List α) (x : α), x ∈ l → f x ≤ (l.map f).sum := by
  intro l
  induction l with
  | nil => intro x hx; simp at hx
  | cons a l ih =>
    intro x hx
    simp only [List.map_cons, List.sum_cons]
    rcases List.mem_cons.mp hx with rfl | hmem
    · omega
    · have := ih x hmem
      omega

theorem nil_of_sentOn_zero (ts : List Transaction) (h : ∀ rc, sentOn ts rc = 0) : ts = [] := by
  cases ts with
  | nil => rfl
  | cons t ts =>
    have := h t.ResponseChan
    rw [sentOn_cons] at this
    simp at this

theorem idle_of_pending_zero (w : World) (h : ∀ rc, w.pendingOn rc = 0) :
    w.inbound = [] ∧ ∀ l ∈ w.pool.lanes, l.inbox = [] ∧ l.proc.job = none := by
  refine ⟨nil_of_sentOn_zero _ (fun rc => ?_), fun l hl => ?_⟩
  · have := h rc
    unfold World.pendingOn at this
    omega
  · have hlane : ∀ rc, l.pendingOn rc = 0 := by
      intro rc
      have h1 := le_sum_of_mem (fun l : Lane => l.pendingOn rc) w.pool.lanes l hl
      have h2 := h rc
      unfold World.pendingOn at h2
      simp only at h1
      omega
    refine ⟨nil_of_sentOn_zero _ (fun rc => ?_), ?_⟩
    · have := hlane rc
      unfold Lane.pendingOn at this
      omega
    · cases hj : l.proc.job with
      | none => rfl
      | some j =>
        have := hlane j.orig.ResponseChan
        unfold Lane.pendingOn at this
        rw [hj] at this
        simp at this

theorem pending_zero_of_idle (w : World) (hin : w.inbound = [])
    (hl : ∀ l ∈ w.pool.lanes, l.inbox = [] ∧ l.proc.job = none) (rc : Nat) :
    w.pendingOn rc = 0 := by
  have hzero : (w.pool.lanes.map (fun l => l.pendingOn rc)).sum = 0 := by
    apply sum_map_zero
    intro l hmem
    simp [Lane.pendingOn, (hl l hmem).1, (hl l hmem).2, sentOn_nil]
  unfold World.pendingOn
  rw [hzero, hin]
  rfl

theorem cprogress {s : Running} (hw : s.world.Inv) (hs : s.LInv)
    (hlanes : 0 < s.world.pool.lanes.length) (hbound : s.world.pool.consuming.isSome = true)
    (hopen : s.life.closed = false) : ∃ a s2, cstep s a = some s2 := by
  obtain ⟨hlen, h1, h2, h3, h4⟩ := hs
  by_cases hwork : ∃ b w2, step s.world b = some w2
  · obtain ⟨b, w2, hb⟩ := hwork
    exact ⟨CloseAction.work b, { s with world := w2 }, by simp only [cstep, hb]⟩
  · have hzero : ∀ rc, s.world.pendingOn rc = 0 := by
      intro rc
      by_contra hne
      exact hwork (progress hw hlanes rc (by omega))
    obtain ⟨hin, hidle⟩ := idle_of_pending_zero s.world hzero
    cases hic : s.life.inputClosed with
    | false =>
      exact ⟨CloseAction.closeInput, _, by simp only [cstep, hbound, hic]; rfl⟩
    | true =>
      cases hlc : s.life.lanesClosed with
      | false =>
        exact ⟨CloseAction.closeLanes, _, by simp only [cstep, hic, hin, hlc]; rfl⟩
      | true =>
        by_cases hrun : ∃ (i : Nat) (f : LaneLife), s.life.lanes[i]? = some f ∧ f.exited = false
        · obtain ⟨i, f, hf, hex⟩ := hrun
          have hi : i < s.world.pool.lanes.length := by rw [← hlen]; exact get_lt hf
          obtain ⟨l, hl⟩ : ∃ l, s.world.pool.lanes[i]? = some l :=
            ⟨s.world.pool.lanes[i], List.getElem?_eq_getElem hi⟩
          obtain ⟨hbox, hjob⟩ := hidle l (List.mem_iff_getElem?.mpr ⟨i, hl⟩)
          exact ⟨CloseAction.laneExit i, _, by
            simp only [cstep, hf, hl, hlc, hex, hbox, hjob]; rfl⟩
        · have hexited : ∀ (i : Nat) (f : LaneLife), s.life.lanes[i]? = some f →
              f.exited = true := by
            intro i f hf
            cases hex : f.exited with
            | true => rfl
            | false => exact absurd ⟨i, f, hf, hex⟩ hrun
          by_cases hrel : ∃ (i : Nat) (f : LaneLife),
              s.life.lanes[i]? = some f ∧ f.relayExited = false
          · obtain ⟨i, f, hf, hre⟩ := hrel
            have hi : i < s.world.pool.lanes.length := by rw [← hlen]; exact get_lt hf
            obtain ⟨l, hl⟩ : ∃ l, s.world.pool.lanes[i]? = some l :=
              ⟨s.world.pool.lanes[i], List.getElem?_eq_getElem hi⟩
            obtain ⟨_, hjob⟩ := hidle l (List.mem_iff_getElem?.mpr ⟨i, hl⟩)
            have hok := hw.1 i l hl
            unfold LaneOk at hok
            rw [hjob] at hok
            exact ⟨CloseAction.relayExit i, _, by
              simp only [cstep, hf, hl, hexited i f hf, hre, hok.1]; rfl⟩
          · have hall : s.life.lanes.all (fun f => f.exited && f.relayExited) = true := by
              rw [List.all_eq_true]
              intro f hmem
              obtain ⟨i, hf⟩ := List.mem_iff_getElem?.mp hmem
              have hre : f.relayExited = true := by
                cases hr : f.relayExited with
                | true => rfl
                | false => exact absurd ⟨i, f, hf, hr⟩ hrel
              simp [hexited i f hf, hre]
            exact ⟨CloseAction.finish, _, by simp only [cstep, hlc, hall, hopen]; rfl⟩

end Pipeline

namespace Pipeline

/-! ## Natural close: runs from the start -/

theorem exec_consuming {as : List Action} :
    ∀ {w w2 : World}, exec w as = some w2 → w2.pool.consuming = w.pool.consuming := by
  induction as with
  | nil =>
    intro w w2 h
    simp only [exec, Option.some.injEq] at h
    subst h
    rfl
  | cons a as ih =>
    intro w w2 h
    simp only [exec] at h
    split at h
    · exact absurd h (by simp)
    · rename_i w1 hstep
      rw [ih h, (step_frame hstep).1]

theorem start_linv (chains : Nat → Stage) (K c : Nat) (chans : Nat → List Transaction) :
    (Running.start chains K c chans).LInv := by
  have hfresh : ∀ (i : Nat) (f : LaneLife),
      (Running.start chains K c chans).life.lanes[i]? = some f → f = ⟨false, false⟩ := by
    intro i f hf
    have hmem : f ∈ List.replicate K (⟨false, false⟩ : LaneLife) :=
      List.mem_iff_getElem?.mpr ⟨i, hf⟩
    exact (List.mem_replicate.mp hmem).2
  refine ⟨?_, ?_, ?_, ?_, ?_⟩
  · show (List.replicate K (⟨false, false⟩ : LaneLife)).length =
      (World.start chains K c chans).pool.lanes.length
    rw [start_length, List.length_replicate]
  · intro h
    exact absurd h (by simp [Running.start])
  · intro i f hf hex
    rw [hfresh i f hf] at hex
    exact absurd hex (by simp)
  · intro i f hf hrel
    rw [hfresh i f hf] at hrel
    exact absurd hrel (by simp)
  · intro h
    exact absurd h (by simp [Running.start])

theorem creach (chains : Nat → Stage) (K c : Nat) (chans : Nat → List Transaction)
    {as : List CloseAction} {s : Running}
    (h : cexec (Running.start chains K c chans) as = some s) :
    s.world.Inv ∧ s.LInv ∧ s.world.pool.lanes.length = K ∧
      s.world.pool.consuming = some c ∧
      ∀ rc, s.world.pendingOn rc + s.world.deliveredOn rc = sentOn (chans c) rc := by
  obtain ⟨hw, hs, bs, hbs⟩ := cexec_inv h (start_inv chains K c chans) (start_linv chains K c chans)
  have hbs2 : exec (World.start chains K c chans) bs = some s.world := hbs
  obtain ⟨_, hlen, hcons⟩ := exec_invariants hbs2 (start_inv chains K c chans)
  refine ⟨hw, hs, by rw [hlen, start_length], ?_, fun rc => ?_⟩
  · rw [exec_consuming hbs2]
    simp [World.start, NewPool, Pool.Consume]
  · rw [hcons rc, start_owed]

/-- C18: natural close. A Pool of `K >= 1` Lanes is bound to the input
channel `c` with any batch of Transactions pending; the workers, the sink and
the upstream producer (who may close the input) act in any order, and there is
no `CloseAsync`. (1) Whenever `WaitForClose` reports success, the input has
been closed, every Lane and every relay has exited, no Lane holds a
Transaction, and every Transaction sent has had its Response delivered.
(2) Until `WaitForClose` can report success some action can fire, so the Pool
is never stuck short of closing. (3) No run goes on forever. (4) When nothing
can fire any more, `WaitForClose` reports success. (5) While the input is not
closed `WaitForClose` does not report success. (6) From every reachable state
a run to such a final state exists. -/
theorem pool_natural_close (chains : Nat → Stage) (K : Nat) (hK : 1 ≤ K) (c : Nat)
    (chans : Nat → List Transaction) :
    (∀ as s, cexec (Running.start chains K c chans) as = some s → s.WaitForClose = none →
        s.life.inputClosed = true ∧
          (∀ i, i < K → s.life.lanes[i]? = some ⟨true, true⟩) ∧
          (∀ l ∈ s.world.pool.lanes, l.inbox = [] ∧ l.proc.job = none ∧ l.proc.out = []) ∧
          ∀ rc, s.world.deliveredOn rc = sentOn (chans c) rc) ∧
      (∀ as s, cexec (Running.start chains K c chans) as = some s → s.WaitForClose ≠ none →
        ∃ a s2, cstep s a = some s2) ∧
      WellFounded CNext ∧
      (∀ as s, cexec (Running.start chains K c chans) as = some s → s.quiescent →
        s.WaitForClose = none) ∧
      (∀ as s, cexec (Running.start chains K c chans) as = some s →
        s.life.inputClosed = false → s.WaitForClose ≠ none) ∧
      (∀ as s, cexec (Running.start chains K c chans) as = some s →
        ∃ bs s2, cexec s bs = some s2 ∧ s2.quiescent) := by
  have hclosed : ∀ s : Running, s.WaitForClose = none → s.life.closed = true := by
    intro s h
    unfold Running.WaitForClose at h
    cases hc : s.life.closed with
    | true => rfl
    | false => rw [hc] at h; simp at h
  have hsafe : ∀ as s, cexec (Running.start chains K c chans) as = some s →
      s.WaitForClose = none →
      s.life.inputClosed = true ∧
        (∀ i, i < K → s.life.lanes[i]? = some ⟨true, true⟩) ∧
        (∀ l ∈ s.world.pool.lanes, l.inbox = [] ∧ l.proc.job = none ∧ l.proc.out = []) ∧
        ∀ rc, s.world.deliveredOn rc = sentOn (chans c) rc := by
    intro as s h hwait
    obtain ⟨hw, ⟨hlen, h1, h2, h3, h4⟩, hK2, _, hcons⟩ := creach chains K c chans h
    obtain ⟨hlc, hall⟩ := h4 (hclosed s hwait)
    have hidle : ∀ l ∈ s.world.pool.lanes, l.inbox = [] ∧ l.proc.job = none := by
      intro l hmem
      obtain ⟨i, hl⟩ := List.mem_iff_getElem?.mp hmem
      have hi : i < s.life.lanes.length := by rw [hlen]; exact get_lt hl
      have hf : s.life.lanes[i]? = some s.life.lanes[i] := List.getElem?_eq_getElem hi
      obtain ⟨_, l2, hl2, hbox, hjob⟩ := h2 i _ hf (hall i _ hf).1
      rw [hl] at hl2
      obtain rfl := Option.some.inj hl2
      exact ⟨hbox, hjob⟩
    refine ⟨(h1 hlc).1, ?_, ?_, ?_⟩
    · intro i hi
      have hi2 : i < s.life.lanes.length := by rw [hlen, hK2]; exact hi
      have hf : s.life.lanes[i]? = some s.life.lanes[i] := List.getElem?_eq_getElem hi2
      obtain ⟨he, hr⟩ := hall i _ hf
      rw [hf]
      cases hv : s.life.lanes[i] with
      | mk e r =>
        rw [hv] at he hr
        simp only at he hr
        rw [he, hr]
    · intro l hmem
      obtain ⟨hbox, hjob⟩ := hidle l hmem
      obtain ⟨i, hl⟩ := List.mem_iff_getElem?.mp hmem
      have hok := hw.1 i l hl
      unfold LaneOk at hok
      rw [hjob] at hok
      exact ⟨hbox, hjob, hok.1⟩
    · intro rc
      have := hcons rc
      rw [pending_zero_of_idle s.world (h1 hlc).2 hidle rc] at this
      omega
  have hmove : ∀ as s, cexec (Running.start chains K c chans) as = some s →
      s.WaitForClose ≠ none → ∃ a s2, cstep s a = some s2 := by
    intro as s h hwait
    obtain ⟨hw, hs, hK2, hc, _⟩ := creach chains K c chans h
    have hopen : s.life.closed = false := by
      cases hcl : s.life.closed with
      | false => rfl
      | true => exact absurd (by simp [Running.WaitForClose, hcl]) hwait
    exact cprogress hw hs (by omega) (by rw [hc]; rfl) hopen
  refine ⟨hsafe, hmove, cnext_wf, ?_, ?_, fun _ s _ => creaches_quiescence s⟩
  · intro as s h hq
    by_contra hwait
    obtain ⟨a, s2, hstep⟩ := hmove as s h hwait
    rw [hq a] at hstep
    exact absurd hstep (by simp)
  · intro as s h hic hwait
    have := (hsafe as s h hwait).1
    rw [hic] at this
    exact absurd this (by simp)

theorem pool_natural_close_witness :
    1 ≤ 2 ∧ ∀ s, cexec (Running.start (fun _ m => ⟨[m], false, ""⟩) 2 7 (fun _ => []))
        [CloseAction.closeInput, CloseAction.closeLanes, CloseAction.laneExit 1,
          CloseAction.relayExit 1, CloseAction.laneExit 0] = some s →
      s.WaitForClose ≠ none → ∃ a s2, cstep s a = some s2 :=
  ⟨by decide, fun s h =>
    (pool_natural_close (fun _ m => ⟨[m], false, ""⟩) 2 (by decide) 7 (fun _ => [])).2.1 _ s h⟩

end Pipeline

namespace Metrics

/-! ## `tags`, the flush period, the tag format and the prefix -/

/-- C21: `tags(labels, values)`. When the two slices have the same length the
result is a slice of that length whose element at every index pairs the label
at that index with the value at that index, in order; when the lengths differ
the result is nil. -/
theorem tags_pairs_in_order (labels values : List String) :
    (labels.length = values.length →
      ∃ ts, tags labels values = some ts ∧ ts.length = labels.length ∧
        ∀ (i : Nat) (l v : String), labels[i]? = some l → values[i]? = some v →
          ts[i]? = some (StringTag l v)) ∧
      (labels.length ≠ values.length → tags labels values = none) := by
  refine ⟨fun hlen => ⟨List.zipWith StringTag labels values, ?_, ?_, ?_⟩, fun hne => ?_⟩
  · simp [tags, hlen]
  · simp [List.length_zipWith, hlen]
  · intro i l v hl hv
    simp [List.getElem?_zipWith, hl, hv]
  · simp [tags, hne]

theorem tags_pairs_in_order_witness :
    ["a", "b"].length ≠ ["x"].length ∧ tags ["a", "b"] ["x"] = none :=
  ⟨by decide, (tags_pairs_in_order ["a", "b"] ["x"]).2 (by decide)⟩

end Metrics

namespace Metrics

theorem udp_not_legacy (config : Config) (hnet : config.Statsd.Network = "udp")
    (htag : config.Statsd.TagFormat ≠ "legacy") :
    ¬ (config.Statsd.Network ≠ "udp" ∨ config.Statsd.TagFormat = "legacy") := by
  intro h
  rcases h with h | h
  · exact h hnet
  · exact htag h

/-- C22: for every config with network "udp" and a tag_format other than
"legacy" whose flush_period `time.ParseDuration` rejects, `NewStatsd` returns
a nil metrics object and the error "failed to parse flush period: " followed
by the parse error, whatever the tag_format, the prefix, the address and the
options are. -/
theorem statsd_flush_period_error {O L : Type} (deps : Deps O L) (config : Config)
    (opts : List O) (err : String)
    (hnet : config.Statsd.Network = "udp") (htag : config.Statsd.TagFormat ≠ "legacy")
    (hparse : deps.ParseDuration config.Statsd.FlushPeriod = Except.error err) :
    NewStatsd deps config opts = (none, some ("failed to parse flush period: " ++ err)) := by
  unfold NewStatsd
  rw [if_neg (udp_not_legacy config hnet htag), hparse]

theorem statsd_flush_period_error_witness :
    NewStatsd (O := Unit) (L := Unit)
        ⟨fun _ => Except.error "time: invalid duration", fun _ _ => (none, none), fun _ s => s⟩
        ⟨⟨"benthos", "localhost:4040", "soon", "udp", "datadog"⟩⟩ [] =
      (none, some "failed to parse flush period: time: invalid duration") :=
  statsd_flush_period_error (O := Unit) (L := Unit)
    ⟨fun _ => Except.error "time: invalid duration", fun _ _ => (none, none), fun _ s => s⟩
    ⟨⟨"benthos", "localhost:4040", "soon", "udp", "datadog"⟩⟩ [] "time: invalid duration"
    rfl (by decide) rfl

/-- C23: for every config with network "udp", a flush_period that parses and
a tag_format that is none of "none", "datadog", "influxdb" and "legacy",
`NewStatsd` returns a nil metrics object and the error that names the tag
format as not recognised; no Statsd object, and so no statsd client, comes
back. -/
theorem statsd_unknown_tag_format {O L : Type} (deps : Deps O L) (config : Config)
    (opts : List O) (d : Int)
    (hnet : config.Statsd.Network = "udp")
    (hparse : deps.ParseDuration config.Statsd.FlushPeriod = Except.ok d)
    (_hnone : config.Statsd.TagFormat ≠ "none")
    (hdatadog : config.Statsd.TagFormat ≠ "datadog")
    (hinflux : config.Statsd.TagFormat ≠ "influxdb")
    (hlegacy : config.Statsd.TagFormat ≠ "legacy") :
    NewStatsd deps config opts =
      (none, some ("tag format '" ++ config.Statsd.TagFormat ++ "' was not recognised")) := by
  unfold NewStatsd
  rw [if_neg (udp_not_legacy config hnet hlegacy), hparse]
  have h1 : ¬ TagFormatInfluxDB = config.Statsd.TagFormat := fun e => hinflux e.symm
  have h2 : ¬ TagFormatDatadog = config.Statsd.TagFormat := fun e => hdatadog e.symm
  simp only [if_neg h1, if_neg h2]

theorem statsd_unknown_tag_format_witness :
    NewStatsd (O := Unit) (L := Unit)
        ⟨fun _ => Except.ok 100000000, fun _ _ => (none, none), fun _ s => s⟩
        ⟨⟨"benthos", "localhost:4040", "100ms", "udp", "prometheus"⟩⟩ [] =
      (none, some "tag format 'prometheus' was not recognised") :=
  statsd_unknown_tag_format (O := Unit) (L := Unit)
    ⟨fun _ => Except.ok 100000000, fun _ _ => (none, none), fun _ s => s⟩
    ⟨⟨"benthos", "localhost:4040", "100ms", "udp", "prometheus"⟩⟩ [] 100000000
    rfl rfl (by decide) (by decide) (by decide) (by decide)

theorem metricPrefixOf_keep (p : String) (h : p = "" ∨ p.toList.getLast? = some '.') :
    metricPrefixOf p = p := by
  unfold metricPrefixOf
  rcases h with rfl | h
  · rfl
  · rw [if_neg]
    intro hc
    exact hc.2 h

theorem metricPrefixOf_dot (p : String) (h : ¬ (p = "" ∨ p.toList.getLast? = some '.')) :
    metricPrefixOf p = p ++ "." := by
  unfold metricPrefixOf
  rw [if_pos]
  push_neg at h
  refine ⟨?_, h.2⟩
  obtain ⟨cs⟩ := p
  cases cs with
  | nil => exact absurd rfl h.1
  | cons c cs => simp [String.length]

theorem append_dot_last (p : String) : (p ++ ".").toList.getLast? = some '.' := by
  obtain ⟨cs⟩ := p
  show (cs ++ ['.']).getLast? = some '.'
  simp

theorem statsd_client_prefix {O L : Type} (deps : Deps O L) (config : Config)
    (opts : List O) (d : Int) (hnet : config.Statsd.Network = "udp")
    (htag : config.Statsd.TagFormat = TagFormatDatadog ∨
      config.Statsd.TagFormat = TagFormatInfluxDB)
    (hparse : deps.ParseDuration config.Statsd.FlushPeriod = Except.ok d) :
    ∃ s c, NewStatsd deps config opts = (some (Stats.statsd s), none) ∧ s.s = some c ∧
      c.metricPrefix = metricPrefixOf config.Statsd.Prefix := by
  have hbranch : ¬ (config.Statsd.Network ≠ "udp" ∨ config.Statsd.TagFormat = "legacy") := by
    rcases htag with h | h <;> rw [hnet, h] <;> decide
  unfold NewStatsd
  rw [if_neg hbranch, hparse]
  rcases htag with h | h
  · have h1 : ¬ TagFormatInfluxDB = config.Statsd.TagFormat := by rw [h]; decide
    have h2 : TagFormatDatadog = config.Statsd.TagFormat := h.symm
    simp only [if_neg h1, if_pos h2]
    exact ⟨_, _, rfl, rfl, rfl⟩
  · have h1 : TagFormatInfluxDB = config.Statsd.TagFormat := h.symm
    simp only [if_pos h1]
    exact ⟨_, _, rfl, rfl, rfl⟩

/-- C24: prefix normalisation in `NewStatsd`. The metric prefix is the
configured prefix `p` itself when `p` is empty or already ends with a dot, and
`p` followed by a single dot otherwise; so it is always empty or ends with a
dot, and normalising twice equals normalising once. Whenever `NewStatsd`
builds a client (network "udp", a flush period that parses, tag format
"datadog" or "influxdb"), this normalised prefix is the metric prefix handed
to the client. -/
theorem metricPrefixOf_normalises (p : String) :
    ((p = "" ∨ p.toList.getLast? = some '.') → metricPrefixOf p = p) ∧
      (¬ (p = "" ∨ p.toList.getLast? = some '.') → metricPrefixOf p = p ++ ".") ∧
      (metricPrefixOf p = "" ∨ (metricPrefixOf p).toList.getLast? = some '.') ∧
      metricPrefixOf (metricPrefixOf p) = metricPrefixOf p ∧
      (∀ (O L : Type) (deps : Deps O L) (config : Config) (opts : List O) (d : Int),
        config.Statsd.Prefix = p → config.Statsd.Network = "udp" →
        (config.Statsd.TagFormat = TagFormatDatadog ∨
          config.Statsd.TagFormat = TagFormatInfluxDB) →
        deps.ParseDuration config.Statsd.FlushPeriod = Except.ok d →
        ∃ s c, NewStatsd deps config opts = (some (Stats.statsd s), none) ∧ s.s = some c ∧
          c.metricPrefix = metricPrefixOf p) := by
  have hshape : metricPrefixOf p = "" ∨ (metricPrefixOf p).toList.getLast? = some '.' := by
    by_cases h : p = "" ∨ p.toList.getLast? = some '.'
    · rw [metricPrefixOf_keep p h]
      exact h
    · rw [metricPrefixOf_dot p h]
      exact Or.inr (append_dot_last p)
  refine ⟨metricPrefixOf_keep p, metricPrefixOf_dot p, hshape,
    metricPrefixOf_keep _ hshape, ?_⟩
  intro O L deps config opts d hp hnet htag hparse
  rw [← hp]
  exact statsd_client_prefix deps config opts d hnet htag hparse

theorem metricPrefixOf_normalises_witness :
    metricPrefixOf "benthos" = "benthos." ∧ metricPrefixOf "benthos." = "benthos." ∧
      metricPrefixOf "" = "" :=
  ⟨(metricPrefixOf_normalises "benthos").2.1 (by decide),
    (metricPrefixOf_normalises "benthos.").1 (by decide),
    (metricPrefixOf_normalises "").1 (by decide)⟩

end Metrics

namespace Cache

/-! ## Deleting a missing key, and the frame of the cache -/

theorem alter_stat_frame (fs fs2 : FS) (path : String)
    (f : Option Node → Except Errno (Option Node)) (h : fs.alter path f = Except.ok fs2) :
    fs2.env = fs.env ∧
      ∀ q, (∀ p, fs.resolve path = Except.ok p → ¬ p <+: q) →
        fs2.root.stat fs.env.nameMax q = fs.root.stat fs.env.nameMax q := by
  obtain ⟨hcwd, p, hp, hfr⟩ := alter_frame fs fs2 path f h
  exact ⟨hcwd, fun q hq => hfr q (hq p hp)⟩

theorem alter_alter_stat_frame (fs fs1 fs2 : FS) (path : String)
    (f g : Option Node → Except Errno (Option Node)) (h1 : fs.alter path f = Except.ok fs1)
    (h2 : fs1.alter path g = Except.ok fs2) :
    fs2.env = fs.env ∧
      ∀ q, (∀ p, fs.resolve path = Except.ok p → ¬ p <+: q) →
        fs2.root.stat fs.env.nameMax q = fs.root.stat fs.env.nameMax q := by
  obtain ⟨hcwd1, hfr1⟩ := alter_stat_frame fs fs1 path f h1
  obtain ⟨hcwd2, hfr2⟩ := alter_stat_frame fs1 fs2 path g h2
  rw [hcwd1] at hfr2
  refine ⟨hcwd2.trans hcwd1, fun q hq => ?_⟩
  rw [hfr2 q (fun p hp => hq p (by rw [← resolve_env fs fs1 hcwd1]; exact hp)), hfr1 q hq]

theorem add_frame (f : File) (fs : FS) (k : String) (v : Bytes) :
    (f.Add fs k v).1.env = fs.env ∧
      ∀ q, (∀ p, fs.resolve (filepath.Join f.dir k) = Except.ok p → ¬ p <+: q) →
        (f.Add fs k v).1.root.stat fs.env.nameMax q = fs.root.stat fs.env.nameMax q := by
  simp only [File.Add, os.OpenFile]
  cases h1 : fs.alter (filepath.Join f.dir k) (openEntry ⟨true, true, false⟩) with
  | error e =>
    simp only
    split <;> exact ⟨rfl, fun _ _ => rfl⟩
  | ok fs1 =>
    simp only [OsFile.Write]
    cases h2 : fs1.alter (filepath.Join f.dir k) (writeEntry 0 v) with
    | error e =>
      simp only [OsFile.Close]
      exact alter_stat_frame fs fs1 _ _ h1
    | ok fs2 =>
      simp only [OsFile.Close]
      exact alter_alter_stat_frame fs fs1 fs2 _ _ _ h1 h2

theorem set_frame (f : File) (fs : FS) (k : String) (v : Bytes) :
    (f.Set fs k v).1.env = fs.env ∧
      ∀ q, (∀ p, fs.resolve (filepath.Join f.dir k) = Except.ok p → ¬ p <+: q) →
        (f.Set fs k v).1.root.stat fs.env.nameMax q = fs.root.stat fs.env.nameMax q := by
  simp only [File.Set, ioutil.WriteFile, os.OpenFile]
  cases h1 : fs.alter (filepath.Join f.dir k) (openEntry ⟨true, false, true⟩) with
  | error e => exact ⟨rfl, fun _ _ => rfl⟩
  | ok fs1 =>
    simp only [OsFile.Write]
    cases h2 : fs1.alter (filepath.Join f.dir k) (writeEntry 0 v) with
    | error e =>
      simp only [OsFile.Close]
      exact alter_stat_frame fs fs1 _ _ h1
    | ok fs2 =>
      simp only [OsFile.Close]
      exact alter_alter_stat_frame fs fs1 fs2 _ _ _ h1 h2

theorem delete_frame (f : File) (fs : FS) (k : String) :
    (f.Delete fs k).1.env = fs.env ∧
      ∀ q, (∀ p, fs.resolve (filepath.Join f.dir k) = Except.ok p → ¬ p <+: q) →
        (f.Delete fs k).1.root.stat fs.env.nameMax q = fs.root.stat fs.env.nameMax q := by
  simp only [File.Delete, os.Remove]
  cases h1 : fs.alter (filepath.Join f.dir k)
      (removeEntry (splitSep (filepath.Join f.dir k).toList).getLast?
        (fs.isRoot (filepath.Join f.dir k))) with
  | error e => exact ⟨rfl, fun _ _ => rfl⟩
  | ok fs1 => exact alter_stat_frame fs fs1 _ _ h1

/-- C25 (amended): `File.Delete` on a key at whose joined path there is
neither a file nor a directory (the path lookup fails) returns the error of
the underlying remove, a path error with the error number of the lookup: not
nil and not `ErrKeyNotFound`; and it leaves the file system as it was. So
`Delete` is not idempotent: of two consecutive `Delete` calls on a key whose
file exists the first returns nil and the second returns the not-exist path
error of remove. -/
theorem delete_missing_key (f : File) (fs : FS) (k : String) (e : Errno)
    (h : fs.lookup (filepath.Join f.dir k) = Except.error e) :
    f.Delete fs k =
        (fs, some (Error.PathError "remove" (filepath.Join f.dir k) e)) ∧
      (f.Delete fs k).2 ≠ none ∧
      (f.Delete fs k).2 ≠ some Error.ErrKeyNotFound ∧
      ∀ (fs0 : FS) (b : Bytes),
        fs0.lookup (filepath.Join f.dir k) = Except.ok (Found.file b) →
        (f.Delete fs0 k).2 = none ∧
          (f.Delete (f.Delete fs0 k).1 k).2 =
            some (Error.PathError "remove" (filepath.Join f.dir k) Errno.ENOENT) ∧
          (f.Delete (f.Delete fs0 k).1 k).1 = (f.Delete fs0 k).1 := by
  have hdel := delete_of_lookup_error f fs k e h
  refine ⟨hdel, by rw [hdel]; simp, by rw [hdel]; simp, fun fs0 b hb => ?_⟩
  obtain ⟨fs1, hdel0, _, hent⟩ :=
    delete_of_entry_file f fs0 k b (entry_of_lookup_file fs0 _ b hb)
  rw [hdel0]
  refine ⟨rfl, ?_, ?_⟩ <;>
    rw [delete_of_lookup_error f fs1 k Errno.ENOENT (lookup_of_entry_none fs1 _ hent)]

theorem delete_missing_key_witness :
    (FS.cacheDir []).lookup (filepath.Join (File.mk "cache").dir "foo") =
        Except.error Errno.ENOENT ∧
      ((File.mk "cache").Delete (FS.cacheDir []) "foo").2 =
        some (Error.PathError "remove" (filepath.Join "cache" "foo") Errno.ENOENT) :=
  ⟨rfl, by
    rw [(delete_missing_key (File.mk "cache") (FS.cacheDir []) "foo"
      Errno.ENOENT rfl).1]⟩

/-- C25 (counterexample): in an empty cache directory the key `""` has no
file, its joined path is the cache directory itself and `Get` returns an
error for it; yet `Delete` returns nil and removes the directory, so that a
`Set` which succeeded before fails afterwards. The same happens for a key
that names an empty directory inside the cache directory. -/
theorem delete_missing_key_counterexample :
    (FS.cacheDir []).lookup (filepath.Join (File.mk "cache").dir "") =
        Except.ok Found.dir ∧
      ((File.mk "cache").Get (FS.cacheDir []) "").2 =
        some (Error.PathError "read" "cache" Errno.EISDIR) ∧
      ((File.mk "cache").Delete (FS.cacheDir []) "").2 = none ∧
      ((File.mk "cache").Set (FS.cacheDir []) "foo" [49]).2 = none ∧
      ((File.mk "cache").Set
          ((File.mk "cache").Delete (FS.cacheDir []) "").1 "foo" [49]).2 =
        some (Error.PathError "open" "cache/foo" Errno.ENOENT) ∧
      ((File.mk "cache").Delete (FS.cacheDir [("sub", Node.dir [])]) "sub").2 =
        none ∧
      ((File.mk "cache").Get (FS.cacheDir [("sub", Node.dir [])]) "sub").2 =
        some (Error.PathError "read" "cache/sub" Errno.EISDIR) ∧
      (File.mk "cache").Get
          ((File.mk "cache").Delete
            (FS.cacheDir [("sub", Node.dir [])]) "sub").1 "sub" =
        (none, some Error.ErrKeyNotFound) :=
  ⟨rfl, by decide, by decide, by decide, by decide, by decide, by decide, by decide⟩

/-- C26 (amended): frame of the File cache. `Set`, `Add` and `Delete` on key
`k` leave the working directory and the limits alone and change at most the
file or directory that `filepath.Join(dir, k)` denotes in the file system,
with what lies below it: the lookup of every location that is neither that one
nor below it gives what it gave before. So for every key `k2` whose joined
path denotes such a location, `Get(k2)` returns the same result before and
after each of them; and the result of `Get` depends only on what its own
joined path leads to (`Get` reads the file system and hands back none, so it
changes nothing). -/
theorem cache_frame (f : File) (fs : FS) (k k2 : String) (v : Bytes)
    (h : ∀ p q, fs.resolve (filepath.Join f.dir k) = Except.ok p →
      fs.resolve (filepath.Join f.dir k2) = Except.ok q → ¬ p <+: q) :
    (∀ q, (∀ p, fs.resolve (filepath.Join f.dir k) = Except.ok p → ¬ p <+: q) →
        (f.Set fs k v).1.root.stat fs.env.nameMax q = fs.root.stat fs.env.nameMax q ∧
          (f.Add fs k v).1.root.stat fs.env.nameMax q = fs.root.stat fs.env.nameMax q ∧
          (f.Delete fs k).1.root.stat fs.env.nameMax q = fs.root.stat fs.env.nameMax q) ∧
      ((f.Set fs k v).1.env = fs.env ∧ (f.Add fs k v).1.env = fs.env ∧
        (f.Delete fs k).1.env = fs.env) ∧
      f.Get (f.Set fs k v).1 k2 = f.Get fs k2 ∧
      f.Get (f.Add fs k v).1 k2 = f.Get fs k2 ∧
      f.Get (f.Delete fs k).1 k2 = f.Get fs k2 ∧
      ∀ fs2 : FS, fs2.lookup (filepath.Join f.dir k2) = fs.lookup (filepath.Join f.dir k2) →
        f.Get fs2 k2 = f.Get fs k2 := by
  obtain ⟨hsc, hs⟩ := set_frame f fs k v
  obtain ⟨hac, ha⟩ := add_frame f fs k v
  obtain ⟨hdc, hd⟩ := delete_frame f fs k
  have hget : ∀ fs2 : FS, fs2.env = fs.env →
      (∀ q, (∀ p, fs.resolve (filepath.Join f.dir k) = Except.ok p → ¬ p <+: q) →
        fs2.root.stat fs.env.nameMax q = fs.root.stat fs.env.nameMax q) →
      f.Get fs2 k2 = f.Get fs k2 := by
    intro fs2 hcwd hfr
    exact get_congr f fs fs2 k2
      (lookup_congr fs fs2 _ hcwd (fun q hq => hfr q (fun p hp => h p q hp hq)))
  exact ⟨fun q hq => ⟨hs q hq, ha q hq, hd q hq⟩, ⟨hsc, hac, hdc⟩, hget _ hsc hs, hget _ hac ha,
    hget _ hdc hd, fun fs2 h2 => get_congr f fs fs2 k2 h2⟩

theorem cache_frame_witness :
    (∀ p q,
        (FS.cacheDir [("bar", Node.file [50])]).resolve
          (filepath.Join (File.mk "cache").dir "foo") = Except.ok p →
        (FS.cacheDir [("bar", Node.file [50])]).resolve
          (filepath.Join (File.mk "cache").dir "bar") = Except.ok q → ¬ p <+: q) ∧
      (File.mk "cache").Get
          ((File.mk "cache").Set
            (FS.cacheDir [("bar", Node.file [50])]) "foo" [49]).1 "bar" =
        (File.mk "cache").Get (FS.cacheDir [("bar", Node.file [50])]) "bar" :=
  have hdis : ∀ p q,
      (FS.cacheDir [("bar", Node.file [50])]).resolve
        (filepath.Join (File.mk "cache").dir "foo") = Except.ok p →
      (FS.cacheDir [("bar", Node.file [50])]).resolve
        (filepath.Join (File.mk "cache").dir "bar") = Except.ok q → ¬ p <+: q := by
    intro p q hp hq
    have e1 : (FS.cacheDir [("bar", Node.file [50])]).resolve
        (filepath.Join (File.mk "cache").dir "foo") = Except.ok ["cache", "foo"] := rfl
    have e2 : (FS.cacheDir [("bar", Node.file [50])]).resolve
        (filepath.Join (File.mk "cache").dir "bar") = Except.ok ["cache", "bar"] := rfl
    rw [e1] at hp
    rw [e2] at hq
    cases hp
    cases hq
    decide
  ⟨hdis, (cache_frame (File.mk "cache") (FS.cacheDir [("bar", Node.file [50])])
    "foo" "bar" [49] hdis).2.2.1⟩

/-- C26 (counterexample): two keys whose joined paths differ, and a `Set` on
the one that changes what `Get` returns for the other. With an empty cache
directory, `Set` on `a` turns the result of `Get` on `a/b` from `ErrKeyNotFound`
into the not-a-directory path error; and with the working directory `/w`,
`Set` on `foo` turns the result of `Get` on `../../w/cache/foo`, whose joined
path `../w/cache/foo` denotes the same file as `cache/foo`, from
`ErrKeyNotFound` into the value set. -/
theorem cache_frame_counterexample :
    filepath.Join (File.mk "cache").dir "a/b" ≠ filepath.Join (File.mk "cache").dir "a" ∧
      (File.mk "cache").Get (FS.cacheDir []) "a/b" =
        (none, some Error.ErrKeyNotFound) ∧
      (File.mk "cache").Get
          ((File.mk "cache").Set (FS.cacheDir []) "a" [49]).1 "a/b" =
        (none, some (Error.PathError "open" "cache/a/b" Errno.ENOTDIR)) ∧
      filepath.Join (File.mk "cache").dir "../../w/cache/foo" ≠
        filepath.Join (File.mk "cache").dir "foo" ∧
      (File.mk "cache").Get ⟨[("w", Node.dir [("cache", Node.dir [])])], ⟨["w"], 255, 4095⟩⟩
          "../../w/cache/foo" = (none, some Error.ErrKeyNotFound) ∧
      (File.mk "cache").Get
          ((File.mk "cache").Set ⟨[("w", Node.dir [("cache", Node.dir [])])], ⟨["w"], 255, 4095⟩⟩
            "foo" [49]).1 "../../w/cache/foo" = (some [49], none) :=
  ⟨by decide, by decide, by decide, by decide, by decide, by decide⟩

end Cache
